import Mathlib

/-!
# Verification of the weighted-matching library

Shallow embedding of the matching library (graph model, `verifyMatching`,
the runner, the binary heap, and the matchers) together with proofs about
the embedded definitions.

Modelling conventions:
* Nodes carry only a numeric `id`; node ids are the positions `0 .. n-1`
  of `input.nodes` (dense ids in insertion order), so a node is embedded
  as its id (`Nat`).  Object identity of nodes corresponds to equality of
  ids for inputs whose node ids are distinct.
* Edges are triples `(frm, to, weight)`.  Object identity of edges is
  modelled by the edge's position in the input edge list, so matchers
  return lists of edge indices.
* JavaScript generators are embedded as plain functions; `yield` has no
  semantic content.  Unbounded `while` loops are embedded with an explicit
  fuel parameter and return `Except`/`Option`; a `.ok`/`some` result is
  the value the source program returns.
* `assert` failures and thrown errors are embedded as `Except.error`.
-/

namespace MatchingLib

/-- An edge of the input graph: endpoints `frm`/`to` are node ids, and an
integer weight (`EdgeBase` in `algo/base`). -/
structure Edge where
  frm : Nat
  toN : Nat
  weight : Int
deriving DecidableEq, Repr

/-- An input graph: `n` nodes with ids `0 .. n-1`, and a list of edges
(`ReadonlyGraph` in `algo/base`). -/
structure Graph where
  n : Nat
  edges : List Edge
deriving DecidableEq, Repr

/-- The edge stored at index `i` of the input (out-of-range yields a
dummy edge; all uses are guarded). -/
def Graph.edge (g : Graph) (i : Nat) : Edge :=
  g.edges.getD i ⟨0, 0, 0⟩

/-- `getScore` from `algo/base`: sum of the weights of a list of edges. -/
def getScore (out : List Edge) : Int :=
  (out.map Edge.weight).sum

/-- Score of a matching given as a list of edge indices. -/
def scoreIdx (g : Graph) (out : List Nat) : Int :=
  (out.map (fun i => (g.edge i).weight)).sum

/-- Well-formedness of an input graph, as required by the spec: endpoints
are node ids, no self-loops, non-negative integer weights, and at most one
edge per unordered node pair. -/
def sameUnordered (e f : Edge) : Bool :=
  (e.frm = f.frm && e.toN = f.toN) || (e.frm = f.toN && e.toN = f.frm)

def wellFormedEdges : List Edge → Bool
  | [] => true
  | e :: rest => rest.all (fun f => !sameUnordered e f) && wellFormedEdges rest

def WellFormed (g : Graph) : Bool :=
  g.edges.all (fun e => e.frm < g.n && e.toN < g.n && e.frm ≠ e.toN && 0 ≤ e.weight)
    && wellFormedEdges g.edges

/-- The set of node ids used by the edges of `out`. -/
def edgeNodes (e : Edge) : List Nat := [e.frm, e.toN]

/-- All endpoint node ids of a matching (as edge indices), in order. -/
def matchingEndpoints (g : Graph) (out : List Nat) : List Nat :=
  out.flatMap (fun i => [(g.edge i).frm, (g.edge i).toN])

/-- A list of edge indices is a valid matching of `g`: every index refers
to an input edge, and no node id occurs twice among the endpoints (which
forces the indices to be pairwise distinct, so the edges are distinct
objects, and no node is an endpoint of two distinct edges). -/
def ValidMatching (g : Graph) (out : List Nat) : Prop :=
  (∀ i ∈ out, i < g.edges.length) ∧ (matchingEndpoints g out).Nodup

/-- `i` is an edge incident to node `v`. -/
def Incident (g : Graph) (i v : Nat) : Prop :=
  (g.edge i).frm = v ∨ (g.edge i).toN = v

/-- The endpoint of edge `i` other than `v`, as computed throughout the
source (`edge.from === v ? edge.to : edge.from`). -/
def otherEnd (g : Graph) (i v : Nat) : Nat :=
  if (g.edge i).frm = v then (g.edge i).toN else (g.edge i).frm

/-- `verifyMatching` from `algo/base`, fold over the output edges keeping
the set of used nodes; returns `false` where the source throws
`Duplicate use of ...`.  The `input` argument is taken (as in the source)
but never read. -/
def verifyGo (used : List Nat) : List Edge → Bool
  | [] => true
  | e :: rest =>
    if e.frm ∈ used then false
    else if e.toN ∈ used then false
    else verifyGo (e.frm :: e.toN :: used) rest

def verifyMatching (input : Graph) (output : List Edge) : Bool :=
  let _ := input
  verifyGo [] output

/-- Endpoints of the first `j` edges of a list. -/
def endpointsOfTake (out : List Edge) (j : Nat) : List Nat :=
  (out.take j).flatMap edgeNodes

-- ------------------------- Runner (`run` in `algo/base`) ----------------

def MAX_STEPS : Nat := 100000000

inductive RunError where
  | maxStepsExceeded
  | invalidMatching
deriving DecidableEq, Repr

structure RunResult where
  matching : List Edge
  steps : Nat
  score : Int
deriving DecidableEq, Repr

/-- The driving loop of `run`: the generator is modelled by the number
`yields` of its step-markers (`iterator.next()` returns `done` on call
`yields + 1`).  Each `next()` call increments `steps`; the loop gives up
once `MAX_STEPS` calls would be exceeded.  Returns the final step count. -/
def runGo (steps : Nat) : Nat → Except RunError Nat
  | 0 => .ok (steps + 1)
  | k + 1 => if steps + 1 < MAX_STEPS then runGo (steps + 1) k else .error .maxStepsExceeded

/-- `run` from `algo/base`: drive the matcher to completion, then verify
the matching and return `{matching, steps, score}`.  The matcher's
behaviour on `input` is its number of step-markers and final matching. -/
def run (input : Graph) (yields : Nat) (matching : List Edge) : Except RunError RunResult :=
  match runGo 0 yields with
  | .error e => .error e
  | .ok steps =>
    if verifyMatching input matching then
      .ok ⟨matching, steps, getScore matching⟩
    else
      .error .invalidMatching

-- ------------------------- Binary heap (`datastructures/binary_heap`) ---

structure HeapEntry (α : Type) where
  value : α
  score : Int
deriving DecidableEq, Repr

instance {α : Type} [Inhabited α] : Inhabited (HeapEntry α) := ⟨⟨default, 0⟩⟩

variable {α : Type} [Inhabited α]

/-- `BinaryHeap.swap` exactly as in the source:
`const tmp = this.heap[a]; this.heap[a] = this.heap[b]; this.heap[b] = this.heap[a];`
(the read of `this.heap[a]` in the last line sees the value just written). -/
def heapSwap (h : List (HeapEntry α)) (a b : Nat) : List (HeapEntry α) :=
  let h1 := h.set a (h.getD b default)
  h1.set b (h1.getD a default)

def heapScore (h : List (HeapEntry α)) (i : Nat) : Int :=
  (h.getD i default).score

/-- `BinaryHeap.swapUp`.  The recursion moves from `index` to its parent
`(index - 1) / 2`, so a fuel of `index + 1` always suffices; the fuel-0
case is unreachable. -/
def heapSwapUpGo : Nat → List (HeapEntry α) → Nat → List (HeapEntry α)
  | 0, h, _ => h
  | fuel + 1, h, index =>
    if index = 0 then h
    else
      let parentIndex := (index - 1) / 2
      if heapScore h parentIndex ≥ heapScore h index then h
      else heapSwapUpGo fuel (heapSwap h parentIndex index) parentIndex

def heapSwapUp (h : List (HeapEntry α)) (index : Nat) : List (HeapEntry α) :=
  heapSwapUpGo (index + 1) h index

/-- `BinaryHeap.swapDown`.  The recursion moves from `index` to a child
`2*index + 1` or `2*index + 2` and stops past the end of the heap, so a
fuel of `h.length + 1` always suffices. -/
def heapSwapDownGo : Nat → List (HeapEntry α) → Nat → List (HeapEntry α)
  | 0, h, _ => h
  | fuel + 1, h, index =>
    let leftIndex := 2 * index + 1
    let rightIndex := 2 * index + 2
    if h.length ≤ leftIndex then h
    else if rightIndex < h.length ∧ heapScore h rightIndex > heapScore h index ∧
        heapScore h rightIndex > heapScore h leftIndex then
      heapSwapDownGo fuel (heapSwap h index rightIndex) rightIndex
    else if heapScore h leftIndex > heapScore h index then
      heapSwapDownGo fuel (heapSwap h leftIndex index) leftIndex
    else h

def heapSwapDown (h : List (HeapEntry α)) (index : Nat) : List (HeapEntry α) :=
  heapSwapDownGo (h.length + 1) h index

/-- `BinaryHeap.insert`. -/
def heapInsert (h : List (HeapEntry α)) (value : α) (score : Int) : List (HeapEntry α) :=
  heapSwapUp (h ++ [⟨value, score⟩]) h.length

/-- `BinaryHeap.removeMax`: returns the removed value (or `none` on an
empty heap) and the new heap contents. -/
def heapRemoveMax (h : List (HeapEntry α)) : Option α × List (HeapEntry α) :=
  match h with
  | [] => (none, [])
  | [e] => (some e.value, [])
  | e :: _ :: _ =>
    let last := h.getLastD default
    let h1 := (h.dropLast).set 0 last
    (some e.value, heapSwapDown h1 0)

-- ------------------------- Greedy matcher (`algo/greedy`) ----------------

/-- Edges paired with their input position (edge identity). -/
def indexedEdges (g : Graph) : List (Nat × Edge) := g.edges.enum

/-- One step of JavaScript's stable sort with comparator
`(a, b) => b.weight - a.weight`: since the sort is stable, the result is
the unique weight-descending reordering that keeps equal weights in input
order.  We realise it as a stable insertion sort: an element is inserted
before the first strictly lighter entry. -/
def insertByWeightDesc (x : Nat × Edge) : List (Nat × Edge) → List (Nat × Edge)
  | [] => [x]
  | y :: ys => if x.2.weight ≥ y.2.weight then x :: y :: ys else y :: insertByWeightDesc x ys

def sortByWeightDesc (l : List (Nat × Edge)) : List (Nat × Edge) :=
  l.foldr insertByWeightDesc []

/-- The scan loop of `GreedyMatcher`: take edges in sorted order, skip an
edge whose `from` or `to` node is already used, otherwise add the edge
and mark both endpoints used. -/
def greedyGo (used : List Nat) : List (Nat × Edge) → List Nat
  | [] => []
  | (i, e) :: rest =>
    if e.frm ∈ used then greedyGo used rest
    else if e.toN ∈ used then greedyGo used rest
    else i :: greedyGo (e.frm :: e.toN :: used) rest

/-- `GreedyMatcher` from `algo/greedy` (result as input edge indices in
the order they were added). -/
def greedy (g : Graph) : List Nat :=
  greedyGo [] (sortByWeightDesc (indexedEdges g))

/-- Reference order of the spec's greedy algorithm (C6): weight
descending, ties in input order — i.e. sorted by the total order
"heavier first, equal weight: smaller input index first". -/
def specKeyLe (x y : Nat × Edge) : Prop :=
  y.2.weight < x.2.weight ∨ (x.2.weight = y.2.weight ∧ x.1 ≤ y.1)

instance : DecidableRel specKeyLe := fun x y => by
  unfold specKeyLe; infer_instance

instance : IsTotal (Nat × Edge) specKeyLe :=
  ⟨by
    intro x y
    unfold specKeyLe
    rcases lt_trichotomy x.2.weight y.2.weight with h | h | h
    · right; left; exact h
    · rcases Nat.le_total x.1 y.1 with h2 | h2
      · left; right; exact ⟨h, h2⟩
      · right; right; exact ⟨h.symm, h2⟩
    · left; left; exact h⟩

instance : IsTrans (Nat × Edge) specKeyLe :=
  ⟨by
    intro x y z hxy hyz
    unfold specKeyLe at hxy hyz ⊢
    rcases hxy with h1 | ⟨h1, h1i⟩ <;> rcases hyz with h2 | ⟨h2, h2i⟩
    · left; omega
    · left; omega
    · left; omega
    · right; exact ⟨by omega, Nat.le_trans h1i h2i⟩⟩

/-- The spec's greedy scan, written from the spec's words: "adds an edge
to the result exactly when neither of its endpoints is already used, and
then marks both endpoints used". -/
def specGreedyScan (used : List Nat) : List (Nat × Edge) → List Nat
  | [] => []
  | (i, e) :: rest =>
    if e.frm ∈ used ∨ e.toN ∈ used then specGreedyScan used rest
    else i :: specGreedyScan (e.frm :: e.toN :: used) rest

/-- The spec's reference greedy algorithm (C6), modelled from the spec:
process edges by weight descending with equal weights in input order,
adding an edge exactly when both endpoints are unused. -/
def specGreedy (g : Graph) : List Nat :=
  specGreedyScan [] (List.insertionSort specKeyLe (indexedEdges g))

-- ---------------- Path-growing matcher (`algo/path_growing`) ------------

/-- Errors of the fuel-based matcher embeddings. -/
inductive MatchErr where
  | assertFailed
  | undefinedAccess
  | outOfFuel
deriving DecidableEq, Repr

/-- The M1/M2 selection step shared by both path-growing matchers
(`path_growing.ts` and `path_growing_patched.ts`):
`if (solutionOne.length < solutionTwo.length) solutionOne.push(e) else solutionTwo.push(e)`. -/
def pgAssign (sol1 sol2 : List Nat) (e : Nat) : List Nat × List Nat :=
  if sol1.length < sol2.length then (sol1 ++ [e], sol2) else (sol1, sol2 ++ [e])

/-- `departingEdges.reduce((a, b) => a.weight > b.weight ? a : b)`:
fold keeping the accumulator only when strictly heavier. -/
def reduceHeaviest (g : Graph) (acc : Nat) : List Nat → Nat
  | [] => acc
  | j :: js => reduceHeaviest g (if (g.edge acc).weight > (g.edge j).weight then acc else j) js

/-- Remove the first occurrence of `i` (JavaScript `indexOf` + `splice`). -/
def removeFirst (i : Nat) : List Nat → List Nat
  | [] => []
  | j :: js => if j = i then js else j :: removeFirst i js

-- The standard matcher keeps its adjacency in a JavaScript `Map`, which
-- preserves key insertion order; embedded as an association list of
-- `(node id, incident edge indices)`.

abbrev AdjMap : Type := List (Nat × List Nat)

def adjLookup (adj : AdjMap) (v : Nat) : Option (List Nat) :=
  match adj.find? (fun p => p.1 = v) with
  | some p => some p.2
  | none => none

def adjAddKeyIfAbsent (adj : AdjMap) (v : Nat) : AdjMap :=
  match adjLookup adj v with
  | some _ => adj
  | none => adj ++ [(v, [])]

def adjPush (adj : AdjMap) (v i : Nat) : AdjMap :=
  adj.map (fun p => if p.1 = v then (p.1, p.2 ++ [i]) else p)

def adjDelete (adj : AdjMap) (v : Nat) : AdjMap :=
  adj.filter (fun p => p.1 ≠ v)

def adjUpdate (adj : AdjMap) (v : Nat) (l : List Nat) : AdjMap :=
  adj.map (fun p => if p.1 = v then (p.1, l) else p)

/-- Build phase of `PathGrowingMatcher`: for each edge add both endpoints
to the map (if absent) and push the edge to both lists. -/
def pgFillGo (adj : AdjMap) : List (Nat × Edge) → AdjMap
  | [] => adj
  | (i, e) :: rest =>
    let adj1 := adjAddKeyIfAbsent (adjAddKeyIfAbsent adj e.frm) e.toN
    let adj2 := adjPush (adjPush adj1 e.frm i) e.toN i
    pgFillGo adj2 rest

def pgFill (g : Graph) : AdjMap := pgFillGo [] (indexedEdges g)

/-- Unlink phase of a walk step: after `adjacencyList.delete(currentNode)`,
purge every departing edge from the other endpoint's list (`assert`s that
the edge is found where expected). -/
def pgPurge (g : Graph) (v : Nat) : AdjMap → List Nat → Except MatchErr AdjMap
  | adj, [] => .ok adj
  | adj, i :: rest =>
    let e := g.edge i
    let other := if e.frm = v then e.toN else e.frm
    match adjLookup adj other with
    | none => pgPurge g v adj rest
    | some od =>
      if od.length = 1 then
        if od.headD 0 = i then pgPurge g v (adjDelete adj other) rest
        else .error .assertFailed
      else
        if i ∈ od then pgPurge g v (adjUpdate adj other (removeFirst i od)) rest
        else .error .assertFailed

/-- One walk of `PathGrowingMatcher`: repeatedly pick the heaviest edge at
the current node, assign it to M1/M2, unlink the node, and follow the edge
until the next node is no longer in the map. -/
def pgWalk (g : Graph) : Nat → AdjMap → List Nat → List Nat → Nat →
    Except MatchErr (AdjMap × List Nat × List Nat)
  | 0, _, _, _, _ => .error .outOfFuel
  | fuel + 1, adj, sol1, sol2, cur =>
    match adjLookup adj cur with
    | none => .error .undefinedAccess
    | some dep =>
      match dep with
      | [] => .error .undefinedAccess
      | d :: ds =>
        let heaviest := reduceHeaviest g d ds
        let s := pgAssign sol1 sol2 heaviest
        match pgPurge g cur (adjDelete adj cur) dep with
        | .error err => .error err
        | .ok adj2 =>
          let e := g.edge heaviest
          let next := if e.frm = cur then e.toN else e.frm
          if (adjLookup adj2 next).isSome then pgWalk g fuel adj2 s.1 s.2 next
          else .ok (adj2, s.1, s.2)

/-- Outer loop of `PathGrowingMatcher`: start a walk at the first key of
the map while it is non-empty. -/
def pgOuter (g : Graph) : Nat → AdjMap → List Nat → List Nat →
    Except MatchErr (List Nat × List Nat)
  | 0, _, _, _ => .error .outOfFuel
  | fuel + 1, adj, sol1, sol2 =>
    match adj with
    | [] => .ok (sol1, sol2)
    | (v, _) :: _ =>
      match pgWalk g fuel adj sol1 sol2 v with
      | .error err => .error err
      | .ok (adj2, s1, s2) => pgOuter g fuel adj2 s1 s2

/-- Final M1/M2 pair of `PathGrowingMatcher` on `g`. -/
def pathGrowingSolutions (g : Graph) (fuel : Nat) : Except MatchErr (List Nat × List Nat) :=
  pgOuter g fuel (pgFill g) [] []

/-- `PathGrowingMatcher` from `algo/path_growing`: return whichever of
M1/M2 scores higher (M2 on ties). -/
def pathGrowing (g : Graph) (fuel : Nat) : Except MatchErr (List Nat) :=
  match pathGrowingSolutions g fuel with
  | .error err => .error err
  | .ok (s1, s2) => .ok (if getScore (s1.map g.edge) > getScore (s2.map g.edge) then s1 else s2)

-- ------- Dense adjacency list (`datastructures/adjacency_list`) ---------

/-- The dense-array `AdjacencyList` (`part_000`): entry `v` is `none`
where the JavaScript array holds `undefined`.  Ids are assumed `< g.n`
(spec-dense ids), matching the array use in the source. -/
structure AdjListD where
  lst : List (Option (List Nat))
  count : Nat
deriving DecidableEq, Repr

def alGet (st : AdjListD) (v : Nat) : Option (List Nat) :=
  st.lst.getD v none

def alSet (st : AdjListD) (v : Nat) (val : Option (List Nat)) : AdjListD :=
  ⟨st.lst.set v val, st.count⟩

def alHas (st : AdjListD) (v : Nat) : Bool :=
  (alGet st v).isSome

def alEdgesOf (st : AdjListD) (v : Nat) : List Nat :=
  (alGet st v).getD []

/-- `AdjacencyList.fill`: add each edge to both endpoints' lists. -/
def alFillGo (st : AdjListD) : List (Nat × Edge) → AdjListD
  | [] => st
  | (i, e) :: rest =>
    let st1 := if (alGet st e.frm).isSome then st else ⟨st.lst.set e.frm (some []), st.count + 1⟩
    let st2 := if (alGet st1 e.toN).isSome then st1 else ⟨st1.lst.set e.toN (some []), st1.count + 1⟩
    let st3 := alSet st2 e.frm (some ((alEdgesOf st2 e.frm) ++ [i]))
    let st4 := alSet st3 e.toN (some ((alEdgesOf st3 e.toN) ++ [i]))
    alFillGo st4 rest

def alFill (g : Graph) : AdjListD :=
  alFillGo ⟨List.replicate g.n none, 0⟩ (indexedEdges g)

/-- `AdjacencyList.fillForward`: add each edge only to its `from` list. -/
def alFillForwardGo (st : AdjListD) : List (Nat × Edge) → AdjListD
  | [] => st
  | (i, e) :: rest =>
    let st1 := if (alGet st e.frm).isSome then st else ⟨st.lst.set e.frm (some []), st.count + 1⟩
    let st2 := alSet st1 e.frm (some ((alEdgesOf st1 e.frm) ++ [i]))
    alFillForwardGo st2 rest

def alFillForward (g : Graph) : AdjListD :=
  alFillForwardGo ⟨List.replicate g.n none, 0⟩ (indexedEdges g)

/-- Purge loop of `AdjacencyList.remove`. -/
def alPurge (g : Graph) (v : Nat) : AdjListD → List Nat → Except MatchErr AdjListD
  | st, [] => .ok st
  | st, i :: rest =>
    let e := g.edge i
    let other := if e.frm = v then e.toN else e.frm
    match alGet st other with
    | none => alPurge g v st rest
    | some od =>
      if od.length = 1 then
        if od.headD 0 = i then alPurge g v ⟨st.lst.set other none, st.count - 1⟩ rest
        else .error .assertFailed
      else
        if i ∈ od then alPurge g v (alSet st other (some (removeFirst i od))) rest
        else .error .assertFailed

/-- `AdjacencyList.remove`: a no-op on an absent node, otherwise delete
the node's entry and purge its edges from the other endpoints. -/
def alRemove (g : Graph) (st : AdjListD) (v : Nat) : Except MatchErr AdjListD :=
  match alGet st v with
  | none => .ok st
  | some dep => alPurge g v ⟨st.lst.set v none, st.count - 1⟩ dep

-- ------ Patched path-growing (`algo/path_growing_patched`) --------------

/-- One walk of `PathGrowingPatchedMatcher`: like the standard walk but
over the dense adjacency list, breaking when the current node has no
departing edges. -/
def pgpWalk (g : Graph) : Nat → AdjListD → List Nat → List Nat → Nat →
    Except MatchErr (AdjListD × List Nat × List Nat)
  | 0, _, _, _, _ => .error .outOfFuel
  | fuel + 1, st, sol1, sol2, cur =>
    match alEdgesOf st cur with
    | [] => .ok (st, sol1, sol2)
    | d :: ds =>
      let heaviest := reduceHeaviest g d ds
      let s := pgAssign sol1 sol2 heaviest
      match alRemove g st cur with
      | .error err => .error err
      | .ok st2 =>
        let e := g.edge heaviest
        let next := if e.frm = cur then e.toN else e.frm
        if alHas st2 next then pgpWalk g fuel st2 s.1 s.2 next
        else .ok (st2, s.1, s.2)

/-- Outer loop of `PathGrowingPatchedMatcher`: one walk per input node,
committing the better of M1/M2 to the result after each walk (M2 on
ties) and clearing both. -/
def pgpOuter (g : Graph) (fuel : Nat) : AdjListD → List Nat → List Nat →
    Except MatchErr (List Nat)
  | _st, result, [] => .ok result
  | st, result, v :: vs =>
    match pgpWalk g fuel st [] [] v with
    | .error err => .error err
    | .ok (st2, s1, s2) =>
      if getScore (s1.map g.edge) > getScore (s2.map g.edge) then
        pgpOuter g fuel st2 (result ++ s1) vs
      else
        pgpOuter g fuel st2 (result ++ s2) vs

/-- `PathGrowingPatchedMatcher` from `algo/path_growing_patched`. -/
def pathGrowingPatched (g : Graph) (fuel : Nat) : Except MatchErr (List Nat) :=
  pgpOuter g fuel (alFill g) [] (List.range g.n)

-- ------------------------- Naive matcher (`algo/naive`) -----------------

/-- `AdjacencyList.entries`: pairs `(node id, edge list)` in ascending id
order, skipping absent and empty entries (the node object is
`input.nodes[id]`, i.e. the id itself in this model). -/
def alEntries (st : AdjListD) : List (Nat × List Nat) :=
  (List.range st.lst.length).filterMap (fun v =>
    match st.lst.getD v none with
    | none => none
    | some [] => none
    | some l => some (v, l))

/-- The recursive solution enumerator of `NaiveMatcher` (`iterate`): at
each entry either skip it, or (if its node is unused) pair it with each
departing edge whose target is unused.  The mutable `usedNodes` set
always equals the endpoints of the current partial solution plus the
entry node just claimed. -/
def naiveEnum (g : Graph) : List (Nat × List Nat) → List Nat → List (List Nat)
  | [], solution => [solution]
  | (v, edges) :: rest, solution =>
    naiveEnum g rest solution ++
    (if v ∈ matchingEndpoints g solution then []
     else edges.flatMap (fun i =>
        if (g.edge i).toN ∈ v :: matchingEndpoints g solution then []
        else naiveEnum g rest (solution ++ [i])))

/-- The best-solution fold of `NaiveMatcher`:
`if (getScore(solution) > getScore(bestSolution)) bestSolution = [...solution]`. -/
def naiveBest (g : Graph) : List (List Nat) → List Nat → List Nat
  | [], best => best
  | s :: rest, best => naiveBest g rest (if scoreIdx g s > scoreIdx g best then s else best)

/-- `NaiveMatcher` from `algo/naive`: empty matching above the 50-node
cap, otherwise the best enumerated solution. -/
def naive (g : Graph) : List Nat :=
  if 50 < g.n then []
  else naiveBest g (naiveEnum g (alEntries (alFillForward g)) []) []

/-- Edge endpoints lie among the node ids (spec §6 input validity; needed
because the dense adjacency arrays are indexed by node id). -/
def EdgesInRange (g : Graph) : Bool :=
  g.edges.all (fun e => e.frm < g.n && e.toN < g.n)

/-- The forward (by `from` endpoint) incidence list of `v`, in input
order: the contents of `alFillForward`'s entry for `v`. -/
def fwList (g : Graph) (v : Nat) : List Nat :=
  ((indexedEdges g).filter (fun p => p.2.frm = v)).map Prod.fst

/-- `t` is a selection that the `iterate` recursion can make along the
entry list: per entry, either skip it (no edge of `t` departs from it)
or pick one of its edges first. -/
inductive Pickable (g : Graph) : List (Nat × List Nat) → List Nat → Prop
  | nil (FL : List (Nat × List Nat)) : Pickable g FL []
  | skip (v : Nat) (edges : List Nat) (rest : List (Nat × List Nat)) (t : List Nat)
      (hp : Pickable g rest t) (hv : ∀ j ∈ t, (g.edge j).frm ≠ v) :
      Pickable g ((v, edges) :: rest) t
  | pick (v : Nat) (edges : List Nat) (rest : List (Nat × List Nat)) (i : Nat) (t : List Nat)
      (hi : i ∈ edges) (hp : Pickable g rest t) (hv : ∀ j ∈ t, (g.edge j).frm ≠ v) :
      Pickable g ((v, edges) :: rest) (i :: t)

/-- The default edge used for out-of-range list reads. -/
def dummyEdge : Edge := ⟨0, 0, 0⟩

/-- No edge of `out` clashes with `used` or with an earlier edge of `out`. -/
def ClashFree (used : List Nat) (out : List Edge) : Prop :=
  ∀ j, j < out.length →
    ((out.getD j dummyEdge).frm ∉ used ∧ (out.getD j dummyEdge).toN ∉ used) ∧
    ∀ i, i < j →
      (out.getD j dummyEdge).frm ∉ edgeNodes (out.getD i dummyEdge) ∧
      (out.getD j dummyEdge).toN ∉ edgeNodes (out.getD i dummyEdge)

/-- The key list of the `Map`-based adjacency list. -/
def adjKeys (adj : AdjMap) : List Nat := adj.map Prod.fst

/-- Structural invariant of the walk-phase adjacency map: distinct keys,
duplicate-free edge lists, every stored edge is a real input edge incident
to its key whose other endpoint is still a key, and storage is symmetric
(an edge stored at one endpoint is stored at the other). -/
def AdjInv (g : Graph) (adj : AdjMap) : Prop :=
  (adjKeys adj).Nodup ∧
  (∀ p ∈ adj, (p : Nat × List Nat).2.Nodup) ∧
  (∀ p ∈ adj, ∀ i ∈ (p : Nat × List Nat).2,
      i < g.edges.length ∧ Incident g i p.1 ∧ otherEnd g i p.1 ∈ adjKeys adj) ∧
  (∀ p ∈ adj, ∀ q ∈ adj, ∀ i ∈ (p : Nat × List Nat).2,
      otherEnd g i (p : Nat × List Nat).1 = (q : Nat × List Nat).1 →
        i ∈ (q : Nat × List Nat).2)

/-- Loop invariant of the purge step of a walk: `cur`'s entry is gone,
`dep` holds the not-yet-processed edges of `cur`, and every stored edge
either still has its other endpoint among the keys or is an unprocessed
edge back to `cur`. -/
def PurgeInv (g : Graph) (cur : Nat) (adjC : AdjMap) (dep : List Nat) : Prop :=
  (adjKeys adjC).Nodup ∧ cur ∉ adjKeys adjC ∧
  (∀ p ∈ adjC, (p : Nat × List Nat).2.Nodup) ∧
  (∀ p ∈ adjC, ∀ i ∈ (p : Nat × List Nat).2,
      i < g.edges.length ∧ Incident g i p.1 ∧
      (otherEnd g i p.1 ∈ adjKeys adjC ∨ (otherEnd g i p.1 = cur ∧ i ∈ dep))) ∧
  (∀ p ∈ adjC, ∀ q ∈ adjC, ∀ i ∈ (p : Nat × List Nat).2,
      otherEnd g i (p : Nat × List Nat).1 = (q : Nat × List Nat).1 →
        i ∈ (q : Nat × List Nat).2) ∧
  (∀ i ∈ dep, i < g.edges.length ∧ Incident g i cur) ∧
  ((dep.map (fun i => otherEnd g i cur)).Nodup) ∧
  (∀ p ∈ adjC, ∀ i ∈ dep, i ∈ (p : Nat × List Nat).2 → (p : Nat × List Nat).1 = otherEnd g i cur)

/-- Walk-phase separation invariant: both candidate matchings are valid,
their lengths differ by at most one (M2 never shorter), live keys meet
the used endpoints only in the current node, and the matching that will
receive the next edge does not contain the current node. -/
def WalkSep (g : Graph) (adj : AdjMap) (s1 s2 : List Nat) (cur : Nat) : Prop :=
  ValidMatching g s1 ∧ ValidMatching g s2 ∧
  s1.length ≤ s2.length ∧ s2.length ≤ s1.length + 1 ∧
  (∀ x ∈ matchingEndpoints g (s1 ++ s2), x ∈ adjKeys adj → x = cur) ∧
  (s2.length = s1.length + 1 → cur ∉ matchingEndpoints g s1) ∧
  (s1.length = s2.length → cur ∉ matchingEndpoints g s2)

/-- Structural invariant of the dense adjacency list during the patched
walk phase: entry lists are duplicate-free, and every stored edge is a
real input edge incident to its slot whose other endpoint's slot stores
it as well. -/
def ALInv (g : Graph) (st : AdjListD) : Prop :=
  (∀ v l, alGet st v = some l → l.Nodup) ∧
  (∀ v l, alGet st v = some l → ∀ j ∈ l,
    j < g.edges.length ∧ Incident g j v ∧
    ∃ lw, alGet st (otherEnd g j v) = some lw ∧ j ∈ lw)

/-- Loop invariant of the purge step of `AdjacencyList.remove`: `cur`'s
slot is cleared, `dep` holds the not-yet-processed edges of `cur`, and
every stored edge either is still stored at its other endpoint or is an
unprocessed edge back to `cur`. -/
def ALPurgeInv (g : Graph) (cur : Nat) (st : AdjListD) (dep : List Nat) : Prop :=
  alGet st cur = none ∧
  (∀ v l, alGet st v = some l → l.Nodup) ∧
  (∀ v l, alGet st v = some l → ∀ j ∈ l,
    j < g.edges.length ∧ Incident g j v ∧
    ((∃ lw, alGet st (otherEnd g j v) = some lw ∧ j ∈ lw) ∨
      (otherEnd g j v = cur ∧ j ∈ dep))) ∧
  (∀ j ∈ dep, j < g.edges.length ∧ Incident g j cur) ∧
  (dep.map (fun j => otherEnd g j cur)).Nodup ∧
  (∀ v l, alGet st v = some l → ∀ j ∈ dep, j ∈ l → v = otherEnd g j cur)

/-- Walk-phase separation invariant of the patched matcher: both candidate
matchings are valid, their lengths differ by at most one (M2 never
shorter), every used endpoint other than the current node has an empty
departing-edge list, and the matching that will receive the next edge
does not contain the current node. -/
def ALWalkSep (g : Graph) (st : AdjListD) (s1 s2 : List Nat) (cur : Nat) : Prop :=
  ValidMatching g s1 ∧ ValidMatching g s2 ∧
  s1.length ≤ s2.length ∧ s2.length ≤ s1.length + 1 ∧
  (∀ x ∈ matchingEndpoints g (s1 ++ s2), alEdgesOf st x = [] ∨ x = cur) ∧
  (s2.length = s1.length + 1 → cur ∉ matchingEndpoints g s1) ∧
  (s1.length = s2.length → cur ∉ matchingEndpoints g s2)

-- ---------------- Tree growing (`algo/tree_growing`) --------------------

/-- Node labels of `TreeGrowingMatcher` (`label[id]` is `'chosen'`,
`'visited'` or unset). -/
inductive TLabel where
  | chosen
  | visited
deriving DecidableEq, Repr

/-- `augmentTree`: walk down the picked chain from `node`, swapping
chosen and visited labels (`picked` is only read). -/
def augmentTree (g : Graph) (picked : List (Option Nat)) :
    Nat → List (Option TLabel) → Nat → Except MatchErr (List (Option TLabel))
  | 0, _, _ => .error .outOfFuel
  | fuel + 1, label, node =>
    match picked.getD node none with
    | none => .ok label
    | some edge =>
      match label.getD node none with
      | none => .ok label
      | some _ =>
        let label1 := label.set node (some TLabel.visited)
        let nextNode := otherEnd g edge node
        match picked.getD nextNode none with
        | none => .ok label1
        | some nextEdge =>
          augmentTree g picked fuel (label1.set nextNode (some TLabel.chosen))
            (otherEnd g nextEdge nextNode)

/-- `[...edges].sort((a, b) => b.weight - a.weight)` on edge indices:
stable sort by weight descending. -/
def insertByWeightDescIdx (g : Graph) (x : Nat) : List Nat → List Nat
  | [] => [x]
  | y :: ys =>
    if (g.edge x).weight ≥ (g.edge y).weight then x :: y :: ys
    else y :: insertByWeightDescIdx g x ys

def sortEdgesDesc (g : Graph) (l : List Nat) : List Nat :=
  l.foldr (insertByWeightDescIdx g) []

mutual

/-- `growTree`: short-circuit on labeled or edge-less nodes, otherwise
mark the node visited and process its edges heaviest first. -/
def growTree (g : Graph) (adj : AdjListD) :
    Nat → List (Option TLabel) → List (Option Nat) → Nat → List Nat →
    Except MatchErr (List (Option TLabel) × List (Option Nat) × Int)
  | 0, _, _, _, _ => .error .outOfFuel
  | fuel + 1, label, picked, node, path =>
    match label.getD node none with
    | some _ => .ok (label, picked, 0)
    | none =>
      match alEdgesOf adj node with
      | [] => .ok (label, picked, 0)
      | d :: ds =>
        growLoop g adj fuel (label.set node (some TLabel.visited)) picked node path 0
          (sortEdgesDesc g (d :: ds))

/-- The `for (const edge of sortedEdges)` loop of `growTree`: skip the
parent and labeled neighbours, recurse into subtrees, and pick the edge
(after augmenting the subtree) when it beats the current `maxScore`. -/
def growLoop (g : Graph) (adj : AdjListD) :
    Nat → List (Option TLabel) → List (Option Nat) → Nat → List Nat → Int → List Nat →
    Except MatchErr (List (Option TLabel) × List (Option Nat) × Int)
  | 0, _, _, _, _, _, _ => .error .outOfFuel
  | _fuel + 1, label, picked, _node, _path, maxScore, [] => .ok (label, picked, maxScore)
  | fuel + 1, label, picked, node, path, maxScore, edge :: rest =>
    let nextNode := otherEnd g edge node
    if path.getLast? = some nextNode then
      growLoop g adj fuel label picked node path maxScore rest
    else
      match label.getD nextNode none with
      | some _ => growLoop g adj fuel label picked node path maxScore rest
      | none =>
        match growTree g adj fuel label picked nextNode (path ++ [node]) with
        | .error err => .error err
        | .ok (label2, picked2, subScore) =>
          if (g.edge edge).weight - subScore > maxScore then
            match augmentTree g picked2 fuel label2 nextNode with
            | .error err => .error err
            | .ok label3 =>
              growLoop g adj fuel (label3.set node (some TLabel.chosen))
                (picked2.set node (some edge)) node path
                ((g.edge edge).weight - subScore) rest
          else
            growLoop g adj fuel label2 picked2 node path maxScore rest

end

/-- The root loop of `TreeGrowingMatcher`: grow a tree from each node. -/
def treeGo (g : Graph) (adj : AdjListD) (fuel : Nat) :
    List (Option TLabel) → List (Option Nat) → List Nat →
    Except MatchErr (List (Option TLabel) × List (Option Nat))
  | label, picked, [] => .ok (label, picked)
  | label, picked, v :: vs =>
    match growTree g adj fuel label picked v [] with
    | .error err => .error err
    | .ok (label2, picked2, _) => treeGo g adj fuel label2 picked2 vs

/-- One entry of the final extraction pass of `TreeGrowingMatcher`:
skip unpicked slots and non-chosen nodes. -/
def extractStep (label : List (Option TLabel)) : Nat × Option Nat → Option Nat
  | (_, none) => none
  | (v, some e) =>
    match label.getD v none with
    | some TLabel.chosen => some e
    | _ => none

/-- The final extraction pass of `TreeGrowingMatcher`: the picked edges
of the chosen nodes, in node-id order. -/
def extractSolution (label : List (Option TLabel)) (picked : List (Option Nat)) : List Nat :=
  picked.enum.filterMap (extractStep label)

/-- `TreeGrowingMatcher` from `algo/tree_growing`. -/
def treeGrowing (g : Graph) (fuel : Nat) : Except MatchErr (List Nat) :=
  match treeGo g (alFill g) fuel (List.replicate g.n none) (List.replicate g.n none)
      (List.range g.n) with
  | .error err => .error err
  | .ok (label, picked) => .ok (extractSolution label picked)

/-- No stored pick points at `y` from the other side. -/
def pickFree (g : Graph) (picked : List (Option Nat)) (y : Nat) : Prop :=
  ∀ v e, picked.getD v none = some e → otherEnd g e v ≠ y

/-- State invariant of `TreeGrowingMatcher`: a chosen node has a pick;
every pick is a real, non-loop edge at its node with both endpoints
labeled; a chosen node's partner is not chosen; and distinct picks have
distinct partners. -/
def TInv (g : Graph) (label : List (Option TLabel)) (picked : List (Option Nat)) : Prop :=
  label.length = g.n ∧ picked.length = g.n ∧
  (∀ v, label.getD v none = some TLabel.chosen → picked.getD v none ≠ none) ∧
  (∀ v e, picked.getD v none = some e →
    e < g.edges.length ∧ Incident g e v ∧ otherEnd g e v ≠ v ∧
    label.getD v none ≠ none ∧ label.getD (otherEnd g e v) none ≠ none) ∧
  (∀ v e, label.getD v none = some TLabel.chosen → picked.getD v none = some e →
    label.getD (otherEnd g e v) none ≠ some TLabel.chosen) ∧
  (∀ u eu v ev, picked.getD u none = some eu → picked.getD v none = some ev → u ≠ v →
    otherEnd g eu u ≠ otherEnd g ev v)

/-- Mid-chain variant of `TInv` for `augmentTree`: one chosen node's
partner may (still) be the current chain node `n`. -/
def TInvMid (g : Graph) (label : List (Option TLabel)) (picked : List (Option Nat))
    (n : Nat) : Prop :=
  label.length = g.n ∧ picked.length = g.n ∧
  (∀ v, label.getD v none = some TLabel.chosen → picked.getD v none ≠ none) ∧
  (∀ v e, picked.getD v none = some e →
    e < g.edges.length ∧ Incident g e v ∧ otherEnd g e v ≠ v ∧
    label.getD v none ≠ none ∧ label.getD (otherEnd g e v) none ≠ none) ∧
  (∀ v e, label.getD v none = some TLabel.chosen → picked.getD v none = some e →
    (otherEnd g e v = n ∨ label.getD (otherEnd g e v) none ≠ some TLabel.chosen)) ∧
  (∀ u eu v ev, picked.getD u none = some eu → picked.getD v none = some ev → u ≠ v →
    otherEnd g eu u ≠ otherEnd g ev v)

-- ------------------- Blossom matcher (`algo/blossom`) -------------------

/-- Sentinel value of `blossom.ts`: `NoVertex = -1`. -/
def NoVertex : Int := -1

/-- Sentinel value of `blossom.ts`: `NoEdge = -1`. -/
def NoEdge : Int := -1

/-- Sentinel value of `blossom.ts`: `NoEndpoint = -1`. -/
def NoEndpoint : Int := -1

/-- `Label.CLEARED` of `blossom.ts`. -/
def CLEARED : Int := -1

/-- `Label.NO_LABEL` of `blossom.ts`. -/
def NO_LABEL : Int := 0

/-- `Label.S_VERTEX` of `blossom.ts`. -/
def S_VERTEX : Int := 1

/-- `Label.T_VERTEX` of `blossom.ts`. -/
def T_VERTEX : Int := 2

/-- `Label.BREADCRUMB` of `blossom.ts`. -/
def BREADCRUMB : Int := 5

/-- JavaScript array read `a[i]` for the `Int`-indexed vectors of the
blossom context (every read performed by the algorithm on reachable
states is in range; out of range yields the stated default). -/
def iget (l : List Int) (i : Int) : Int := l.getD i.toNat 0

/-- Read of a rational-valued vector (`dualvar`). -/
def igetQ (l : List Rat) (i : Int) : Rat := l.getD i.toNat 0

/-- Read of a boolean-valued vector (`allowedge`). -/
def igetB (l : List Bool) (i : Int) : Bool := l.getD i.toNat false

/-- Read of a list-valued vector (`neighbend`). -/
def igetL (l : List (List Int)) (i : Int) : List Int := l.getD i.toNat []

/-- Read of a nullable-list-valued vector (`blossomchilds`,
`blossomendps`, `blossombestedges`). -/
def igetO (l : List (Option (List Int))) (i : Int) : Option (List Int) :=
  l.getD i.toNat none

/-- JavaScript array write `a[i] = x`. -/
def iset {α : Type} (l : List α) (i : Int) (x : α) : List α := l.set i.toNat x

/-- `followEdge` from `blossom.ts` (`p ^ 1`): flip the low bit. -/
def followEdge (p : Int) : Int := if p % 2 = 0 then p + 1 else p - 1

/-- `endpointToEdgeID` from `blossom.ts` (`Math.floor(p / 2)`). -/
def endpointToEdgeID (p : Int) : Int := Int.fdiv p 2

/-- `x ^ endptrick` as used in `expandBlossom`/`augmentBlossom`, where
`endptrick` is `0` or `1`. -/
def xorTrick (x endptrick : Int) : Int := if endptrick = 0 then x else followEdge x

/-- `assert` from `util/assert`: throwing on a failed condition is
modelled as an `Except` error. -/
def jsAssert (p : Prop) [Decidable p] : Except MatchErr Unit :=
  if p then .ok () else .error .assertFailed

/-- `BlossomContext` from `blossom.ts`: the vectors built by
`buildContext`.  JavaScript numbers are modelled by exact rationals where
halving occurs (`dualvar`) and by integers elsewhere. -/
structure BlossomCtx where
  edges : List (Int × Int × Int)
  nvertex : Int
  maxweight : Int
  endpoint : List Int
  neighbend : List (List Int)
  mate : List Int
  label : List Int
  labelend : List Int
  inblossom : List Int
  blossomparent : List Int
  blossomchilds : List (Option (List Int))
  blossombase : List Int
  blossomendps : List (Option (List Int))
  bestedge : List Int
  blossombestedges : List (Option (List Int))
  unusedblossoms : List Int
  dualvar : List Rat
  allowedge : List Bool
deriving Repr

/-- `slack` from `blossom.ts`: `dualvar[i] + dualvar[j] - 2 * wt`. -/
def slack (c : BlossomCtx) (k : Int) : Rat :=
  match c.edges.getD k.toNat (0, 0, 0) with
  | (i, j, wt) => igetQ c.dualvar i + igetQ c.dualvar j - 2 * (wt : Rat)

/-- The per-edge scan of `buildContext` (`while (length--) ...`): the
source iterates the edge list from the back, asserting
`i >= 0 && j >= 0 && i !== j` for each edge while accumulating the vertex
count and the maximum weight; this function takes the already-reversed
list. -/
def bcScan : List (Int × Int × Int) → Int → Int → Except MatchErr (Int × Int)
  | [], nvertex, maxweight => .ok (nvertex, maxweight)
  | (i, j, w) :: rest, nvertex, maxweight => do
    jsAssert (0 ≤ i ∧ 0 ≤ j ∧ i ≠ j)
    let nvertex := if i ≥ nvertex then i + 1 else nvertex
    let nvertex := if j ≥ nvertex then j + 1 else nvertex
    bcScan rest nvertex (max maxweight w)

/-- `endpoints` from `blossom.ts`: endpoint `2k` is the source and
`2k + 1` the target of edge `k`. -/
def endpoints (edges : List (Int × Int × Int)) : List Int :=
  edges.flatMap (fun e => [e.1, e.2.1])

/-- The filling loop of `neighbours` from `blossom.ts`:
`neighbend[i].push(2k + 1); neighbend[j].push(2k)`. -/
def neighboursGo (nb : List (List Int)) : List (Nat × (Int × Int × Int)) → List (List Int)
  | [] => nb
  | (k, (i, j, _)) :: rest =>
    let nb := iset nb i (igetL nb i ++ [2 * (k : Int) + 1])
    let nb := iset nb j (igetL nb j ++ [2 * (k : Int)])
    neighboursGo nb rest

/-- `neighbours` from `blossom.ts`. -/
def neighbours (nvertex : Int) (edges : List (Int × Int × Int)) : List (List Int) :=
  neighboursGo (List.replicate nvertex.toNat []) edges.enum

/-- `buildContext` from `blossom.ts`. -/
def buildContext (edges : List (Int × Int × Int)) : Except MatchErr BlossomCtx := do
  let (nvertex, maxweight) ← bcScan edges.reverse 0 0
  let n := nvertex.toNat
  .ok {
    edges := edges
    nvertex := nvertex
    maxweight := maxweight
    endpoint := endpoints edges
    neighbend := neighbours nvertex edges
    mate := List.replicate n NoVertex
    label := List.replicate (2 * n) 0
    labelend := List.replicate (2 * n) NoVertex
    inblossom := (List.range n).map (fun i => (i : Int))
    blossomparent := List.replicate (2 * n) NoVertex
    blossomchilds := List.replicate (2 * n) none
    blossombase := (List.range n).map (fun i => (i : Int)) ++ List.replicate n NoVertex
    blossomendps := List.replicate (2 * n) none
    bestedge := List.replicate (2 * n) NoEdge
    blossombestedges := List.replicate (2 * n) none
    unusedblossoms := (List.range n).map (fun i => (nvertex + (i : Int)))
    dualvar := List.replicate n ((maxweight : Rat)) ++ List.replicate n 0
    allowedge := List.replicate edges.length false }

/-- `blossomLeaves` from `blossom.ts`, non-trivial case: an explicit
stack popped from the back (`queue.pop()`), children pushed in order. -/
def blossomLeavesGo (nvertex : Int) (childs : List (Option (List Int))) :
    Nat → List Int → List Int → Except MatchErr (List Int)
  | 0, _, _ => .error .outOfFuel
  | fuel + 1, queue, acc =>
    match queue.getLast? with
    | none => .ok acc
    | some b =>
      let queue := queue.dropLast
      if b < nvertex then blossomLeavesGo nvertex childs fuel queue (acc ++ [b])
      else
        match igetO childs b with
        | none => .error .undefinedAccess
        | some ts => blossomLeavesGo nvertex childs fuel (queue ++ ts) acc

/-- `blossomLeaves` from `blossom.ts`: resolve (nested) blossoms to the
underlying vertices. -/
def blossomLeaves (nvertex : Int) (childs : List (Option (List Int))) (b : Int)
    (fuel : Nat) : Except MatchErr (List Int) :=
  if b < nvertex then .ok [b]
  else
    match igetO childs b with
    | none => .error .undefinedAccess
    | some q => blossomLeavesGo nvertex childs fuel q []

/-- `blossomEdges` from `blossom.ts`: all edge ids departing from the
leaves of blossom `bv`. -/
def blossomEdges (nvertex : Int) (childs : List (Option (List Int)))
    (neighbend : List (List Int)) (bv : Int) (fuel : Nat) :
    Except MatchErr (List Int) := do
  let ls ← blossomLeaves nvertex childs bv fuel
  .ok (ls.flatMap (fun v => (igetL neighbend v).map endpointToEdgeID))

/-- `assignLabel` from `blossom.ts`: assign label `t` to the top-level
blossom containing vertex `w`; recursion (T label chains to the mate)
bounded by fuel.  Returns the updated queue and context. -/
def assignLabel : Nat → List Int → BlossomCtx → Int → Int → Int →
    Except MatchErr (List Int × BlossomCtx)
  | 0, _, _, _, _, _ => .error .outOfFuel
  | fuel + 1, queue, c, w, t, p => do
    let b := iget c.inblossom w
    jsAssert (iget c.label w = NO_LABEL ∧ iget c.label b = NO_LABEL)
    jsAssert (t = S_VERTEX ∨ t = T_VERTEX)
    let c := { c with label := iset (iset c.label w t) b t,
                      labelend := iset (iset c.labelend w p) b p,
                      bestedge := iset (iset c.bestedge w NoEdge) b NoEdge }
    if t = S_VERTEX then do
      let ls ← blossomLeaves c.nvertex c.blossomchilds b fuel
      .ok (queue ++ ls, c)
    else do
      let base := iget c.blossombase b
      jsAssert (0 ≤ iget c.mate base)
      assignLabel fuel queue c (iget c.endpoint (iget c.mate base)) S_VERTEX
        (followEdge (iget c.mate base))

/-- The tracing loop of `scanBlossom` (fueled `while`): returns the
context with breadcrumbs placed, the breadcrumb path, and the base
found (`NoVertex` when none). -/
def scanBlossomGo : Nat → BlossomCtx → Int → Int → List Int →
    Except MatchErr (BlossomCtx × List Int × Int)
  | 0, _, _, _, _ => .error .outOfFuel
  | fuel + 1, c, v, w, path =>
    if v = NoVertex ∧ w = NoVertex then .ok (c, path, NoVertex)
    else do
      let b := iget c.inblossom v
      if iget c.label b = BREADCRUMB then .ok (c, path, iget c.blossombase b)
      else do
        jsAssert (iget c.label b = S_VERTEX)
        let path := path ++ [b]
        let c := { c with label := iset c.label b BREADCRUMB }
        jsAssert (iget c.labelend b = iget c.mate (iget c.blossombase b))
        let v2 ←
          if iget c.labelend b = NoEndpoint then
            (.ok NoVertex : Except MatchErr Int)
          else do
            let u := iget c.endpoint (iget c.labelend b)
            let b2 := iget c.inblossom u
            jsAssert (iget c.label b2 = T_VERTEX)
            jsAssert (0 ≤ iget c.labelend b2)
            .ok (iget c.endpoint (iget c.labelend b2))
        if w ≠ NoVertex then scanBlossomGo fuel c w v2 path
        else scanBlossomGo fuel c v2 w path

/-- `scanBlossom` from `blossom.ts`: trace back from `v` and `w` to
discover either a new blossom or an augmenting path; breadcrumbs are
removed before returning. -/
def scanBlossom (c : BlossomCtx) (v w : Int) (fuel : Nat) :
    Except MatchErr (BlossomCtx × Int) := do
  let (c, path, base) ← scanBlossomGo fuel c v w []
  let c := path.foldl (fun c b => { c with label := iset c.label b S_VERTEX }) c
  .ok (c, base)

/-- The first trace loop of `addBlossom` (from `bv` back to `bb`),
pushing `labelend[bv]` onto `endps`. -/
def addBlossomTraceV (bnum bb : Int) :
    Nat → BlossomCtx → Int → List Int → List Int →
    Except MatchErr (BlossomCtx × List Int × List Int)
  | 0, _, _, _, _ => .error .outOfFuel
  | fuel + 1, c, bv, path, endps =>
    if bv = bb then .ok (c, path, endps)
    else do
      let c := { c with blossomparent := iset c.blossomparent bv bnum }
      let path := path ++ [bv]
      let endps := endps ++ [iget c.labelend bv]
      jsAssert (iget c.label bv = T_VERTEX ∨
        (iget c.label bv = S_VERTEX ∧
          iget c.labelend bv = iget c.mate (iget c.blossombase bv)))
      jsAssert (0 ≤ iget c.labelend bv)
      let v := iget c.endpoint (iget c.labelend bv)
      addBlossomTraceV bnum bb fuel c (iget c.inblossom v) path endps

/-- The second trace loop of `addBlossom` (from `bw` back to `bb`),
pushing `followEdge(labelend[bw])` onto `endps`. -/
def addBlossomTraceW (bnum bb : Int) :
    Nat → BlossomCtx → Int → List Int → List Int →
    Except MatchErr (BlossomCtx × List Int × List Int)
  | 0, _, _, _, _ => .error .outOfFuel
  | fuel + 1, c, bw, path, endps =>
    if bw = bb then .ok (c, path, endps)
    else do
      let c := { c with blossomparent := iset c.blossomparent bw bnum }
      let path := path ++ [bw]
      let endps := endps ++ [followEdge (iget c.labelend bw)]
      jsAssert (iget c.label bw = T_VERTEX ∨
        (iget c.label bw = S_VERTEX ∧
          iget c.labelend bw = iget c.mate (iget c.blossombase bw)))
      jsAssert (0 ≤ iget c.labelend bw)
      let w := iget c.endpoint (iget c.labelend bw)
      addBlossomTraceW bnum bb fuel c (iget c.inblossom w) path endps

/-- The relabeling loop of `addBlossom` over the leaves of the new
blossom: former T-vertices are queued, and every leaf is moved into the
new blossom. -/
def addBlossomRelabel (bnum : Int) :
    List Int → List Int → BlossomCtx → List Int × BlossomCtx
  | [], queue, c => (queue, c)
  | v :: vs, queue, c =>
    let queue := if iget c.label (iget c.inblossom v) = T_VERTEX then queue ++ [v] else queue
    let c := { c with inblossom := iset c.inblossom v bnum }
    addBlossomRelabel bnum vs queue c

/-- The inner scan of `addBlossom` over one subblossom candidate edge
list, updating `bestedgeto`. -/
def addBlossomBestScan (bnum : Int) (c : BlossomCtx) :
    List Int → List Int → List Int
  | [], bestedgeto => bestedgeto
  | k :: ks, bestedgeto =>
    let e := c.edges.getD k.toNat (0, 0, 0)
    let bj := if iget c.inblossom e.2.1 = bnum then iget c.inblossom e.1
              else iget c.inblossom e.2.1
    let bestedgeto :=
      if bj ≠ bnum ∧ iget c.label bj = S_VERTEX ∧
          (iget bestedgeto bj = NoVertex ∨ slack c k < slack c (iget bestedgeto bj)) then
        iset bestedgeto bj k
      else bestedgeto
    addBlossomBestScan bnum c ks bestedgeto

/-- The `bestedge` selection at the end of `addBlossom`: first element,
improved on strictly smaller slack. -/
def selectBest (c : BlossomCtx) : List Int → Int → Int
  | [], be => be
  | k :: ks, be => selectBest c ks (if slack c k < slack c be then k else be)

/-- The outer loop of the `blossombestedges` computation in `addBlossom`:
walk the least-slack edges of each subblossom on the path. -/
def addBlossomBestLoop (bnum : Int) (fuel : Nat) :
    List Int → BlossomCtx → List Int → Except MatchErr (BlossomCtx × List Int)
  | [], c, bestedgeto => .ok (c, bestedgeto)
  | bv :: rest, c, bestedgeto => do
    let nblist ←
      match igetO c.blossombestedges bv with
      | some l => (.ok l : Except MatchErr (List Int))
      | none => blossomEdges c.nvertex c.blossomchilds c.neighbend bv fuel
    let bestedgeto := addBlossomBestScan bnum c nblist bestedgeto
    let c := { c with blossombestedges := iset c.blossombestedges bv none,
                      bestedge := iset c.bestedge bv NoEdge }
    addBlossomBestLoop bnum fuel rest c bestedgeto

/-- `addBlossom` from `blossom.ts`: construct a new blossom with the
given base, containing edge `k` connecting a pair of S vertices.  (The
source aliases `blossomchilds[b]`/`blossomendps[b]` to the growing `path`
and `endps` arrays; they are only read after both trace loops complete,
so they are stored here once complete.) -/
def addBlossom (fuel : Nat) (queue : List Int) (c : BlossomCtx) (base k : Int) :
    Except MatchErr (List Int × BlossomCtx) := do
  let e := c.edges.getD k.toNat (0, 0, 0)
  let bb := iget c.inblossom base
  let bv := iget c.inblossom e.1
  let bw := iget c.inblossom e.2.1
  match c.unusedblossoms.getLast? with
  | none => .error .undefinedAccess
  | some b => do
    let c := { c with unusedblossoms := c.unusedblossoms.dropLast }
    let c := { c with blossombase := iset c.blossombase b base,
                      blossomparent := iset (iset c.blossomparent b NoVertex) bb b }
    let (c, path, endps) ← addBlossomTraceV b bb fuel c bv [] []
    let path := path ++ [bb]
    let path := path.reverse
    let endps := endps.reverse
    let endps := endps ++ [2 * k]
    let (c, path, endps) ← addBlossomTraceW b bb fuel c bw path endps
    jsAssert (iget c.label bb = S_VERTEX)
    let c := { c with label := iset c.label b S_VERTEX,
                      labelend := iset c.labelend b (iget c.labelend bb),
                      dualvar := iset c.dualvar b 0,
                      blossomchilds := iset c.blossomchilds b (some path),
                      blossomendps := iset c.blossomendps b (some endps) }
    let ls ← blossomLeaves c.nvertex c.blossomchilds b fuel
    let (queue, c) := addBlossomRelabel b ls queue c
    let bestedgeto := List.replicate (2 * c.nvertex).toNat NoVertex
    let (c, bestedgeto) ← addBlossomBestLoop b fuel path c bestedgeto
    let lst := bestedgeto.filter (fun k2 => k2 != NoEdge)
    let c := { c with blossombestedges := iset c.blossombestedges b (some lst) }
    let be := match lst with | [] => NoEdge | k0 :: ks => selectBest c ks k0
    let c := { c with bestedge := iset c.bestedge b be }
    .ok (queue, c)

/-- The first relabel loop of `expandBlossom` (walk from the entry child
to the base, re-assigning alternating labels and allowing the
interconnecting edges). -/
def expandRelabelLoop (endps : List Int) (jstep endptrick stop : Int) :
    Nat → List Int → BlossomCtx → Int → Int →
    Except MatchErr (List Int × BlossomCtx × Int)
  | 0, _, _, _, _ => .error .outOfFuel
  | fuel + 1, queue, c, j, p =>
    if j = stop then .ok (queue, c, p)
    else do
      let c := { c with label := iset c.label (iget c.endpoint (followEdge p)) 0 }
      let tgt := iget c.endpoint (followEdge (xorTrick (iget endps (j - endptrick)) endptrick))
      let c := { c with label := iset c.label tgt 0 }
      let (queue, c) ← assignLabel fuel queue c (iget c.endpoint (followEdge p)) T_VERTEX p
      let ae1 := iset c.allowedge (endpointToEdgeID (iget endps (j - endptrick))) true
      let c := { c with allowedge := ae1 }
      let j := j + jstep
      let p := xorTrick (iget endps (j - endptrick)) endptrick
      let c := { c with allowedge := iset c.allowedge (endpointToEdgeID p) true }
      expandRelabelLoop endps jstep endptrick stop fuel queue c (j + jstep) p

/-- The second relabel loop of `expandBlossom` (continue along the
blossom back to the entry child, re-labeling reachable T-subblossoms). -/
def expandRelabelLoop2 (childs : List Int) (entrychild jstep : Int) :
    Nat → List Int → BlossomCtx → Int →
    Except MatchErr (List Int × BlossomCtx)
  | 0, _, _, _ => .error .outOfFuel
  | fuel + 1, queue, c, j =>
    if iget childs j = entrychild then .ok (queue, c)
    else
      let bv := iget childs j
      if iget c.label bv = S_VERTEX then
        expandRelabelLoop2 childs entrychild jstep fuel queue c (j + jstep)
      else do
        let ls ← blossomLeaves c.nvertex c.blossomchilds bv fuel
        match ls.find? (fun v => iget c.label v != 0) with
        | none => expandRelabelLoop2 childs entrychild jstep fuel queue c (j + jstep)
        | some v => do
          jsAssert (iget c.label v = T_VERTEX)
          jsAssert (iget c.inblossom v = bv)
          let c := { c with label := iset c.label v 0 }
          let tgt := iget c.endpoint (iget c.mate (iget c.blossombase bv))
          let c := { c with label := iset c.label tgt 0 }
          let (queue, c) ← assignLabel fuel queue c v T_VERTEX (iget c.labelend v)
          expandRelabelLoop2 childs entrychild jstep fuel queue c (j + jstep)

mutual

/-- `expandBlossom` from `blossom.ts`: convert the subblossoms of `b`
into top-level blossoms (with endstage recursion into zero-dual
subblossoms), relabel if a T-blossom is expanded during a stage, and
recycle the blossom number. -/
def expandBlossom : Nat → List Int → BlossomCtx → Int → Bool →
    Except MatchErr (List Int × BlossomCtx)
  | 0, _, _, _, _ => .error .outOfFuel
  | fuel + 1, queue, c, b, endstage =>
    match igetO c.blossomchilds b with
    | none => .error .undefinedAccess
    | some childs => do
      let (queue, c) ← expandChilds fuel queue c endstage childs
      let (queue, c) ←
        if !endstage ∧ iget c.label b = T_VERTEX then do
          jsAssert (0 ≤ iget c.labelend b)
          let entrychild := iget c.inblossom (iget c.endpoint (followEdge (iget c.labelend b)))
          match igetO c.blossomchilds b, igetO c.blossomendps b with
          | some childsB, some endpsB => do
            let j0 : Int := match childsB.findIdx? (fun x => x == entrychild) with
              | none => -1
              | some nn => (nn : Int)
            let len : Int := (childsB.length : Int)
            let jstep : Int := if j0 % 2 = 1 then 1 else -1
            let endptrick : Int := if j0 % 2 = 1 then 0 else 1
            let stop : Int := if j0 % 2 = 1 then len else 0
            let base : Int := if j0 % 2 = 1 then 0 else len
            let p := iget c.labelend b
            let (queue, c, p) ← expandRelabelLoop endpsB jstep endptrick stop fuel queue c j0 p
            match childsB with
            | [] => .error .undefinedAccess
            | bv :: _ => do
              let ep := iget c.endpoint (followEdge p)
              let c := { c with label := iset (iset c.label ep T_VERTEX) bv T_VERTEX }
              let c := { c with labelend := iset (iset c.labelend ep p) bv p }
              let c := { c with bestedge := iset c.bestedge bv NoEdge }
              expandRelabelLoop2 childsB entrychild jstep fuel queue c (base + jstep)
          | _, _ => .error .undefinedAccess
        else (.ok (queue, c) : Except MatchErr (List Int × BlossomCtx))
      let c := { c with label := iset c.label b CLEARED,
                        labelend := iset c.labelend b NoEndpoint,
                        blossomchilds := iset c.blossomchilds b none,
                        blossomendps := iset c.blossomendps b none,
                        blossombase := iset c.blossombase b NoVertex,
                        blossombestedges := iset c.blossombestedges b none,
                        bestedge := iset c.bestedge b NoEdge,
                        unusedblossoms := c.unusedblossoms ++ [b] }
      .ok (queue, c)

/-- The child loop of `expandBlossom`: make each subblossom top-level,
recursing (at endstage) into subblossoms with zero dual. -/
def expandChilds : Nat → List Int → BlossomCtx → Bool → List Int →
    Except MatchErr (List Int × BlossomCtx)
  | 0, _, _, _, _ => .error .outOfFuel
  | _ + 1, queue, c, _, [] => .ok (queue, c)
  | fuel + 1, queue, c, endstage, s :: rest => do
    let c := { c with blossomparent := iset c.blossomparent s NoVertex }
    if s < c.nvertex then
      expandChilds fuel queue ({ c with inblossom := iset c.inblossom s s }) endstage rest
    else if endstage ∧ igetQ c.dualvar s = 0 then do
      let (queue, c) ← expandBlossom fuel queue c s endstage
      expandChilds fuel queue c endstage rest
    else do
      let ls ← blossomLeaves c.nvertex c.blossomchilds s fuel
      let c := ls.foldl (fun c v => { c with inblossom := iset c.inblossom v s }) c
      expandChilds fuel queue c endstage rest

end

/-- The climb loop at the start of `augmentBlossom`
(`while (blossomparent[t] !== b) t = blossomparent[t]`). -/
def abClimb (c : BlossomCtx) (b : Int) : Nat → Int → Except MatchErr Int
  | 0, _ => .error .outOfFuel
  | fuel + 1, t =>
    if iget c.blossomparent t = b then .ok t
    else abClimb c b fuel (iget c.blossomparent t)

mutual

/-- `augmentBlossom` from `blossom.ts`: swap matched/unmatched edges over
an alternating path through blossom `b` between vertex `v` and the base
vertex. -/
def augmentBlossom : Nat → BlossomCtx → Int → Int → Except MatchErr BlossomCtx
  | 0, _, _, _ => .error .outOfFuel
  | fuel + 1, c, b, v => do
    let t ← abClimb c b (fuel + 1) v
    let c ← (if t ≥ c.nvertex then augmentBlossom fuel c t v
             else (.ok c : Except MatchErr BlossomCtx))
    match igetO c.blossomchilds b, igetO c.blossomendps b with
    | some childs, some endps => do
      let j0 : Int := match childs.findIdx? (fun x => x == t) with
        | none => -1
        | some nn => (nn : Int)
      let len : Int := (childs.length : Int)
      let jstep : Int := if j0 % 2 = 1 then 1 else -1
      let endptrick : Int := if j0 % 2 = 1 then 0 else 1
      let stop : Int := if j0 % 2 = 1 then len else 0
      let c ← augmentLoop fuel c childs endps len jstep endptrick stop j0
      let childs2 := childs.drop j0.toNat ++ childs.take j0.toNat
      let endps2 := endps.drop j0.toNat ++ endps.take j0.toNat
      let c := { c with blossomchilds := iset c.blossomchilds b (some childs2),
                        blossomendps := iset c.blossomendps b (some endps2) }
      match childs2 with
      | [] => .error .undefinedAccess
      | h0 :: _ => do
        let c := { c with blossombase := iset c.blossombase b (iget c.blossombase h0) }
        jsAssert (iget c.blossombase b = v)
        .ok c
    | _, _ => .error .undefinedAccess

/-- The walk of `augmentBlossom` around the blossom from the entry
subblossom to the base, matching the interconnecting edges pairwise. -/
def augmentLoop : Nat → BlossomCtx → List Int → List Int → Int → Int → Int → Int → Int →
    Except MatchErr BlossomCtx
  | 0, _, _, _, _, _, _, _, _ => .error .outOfFuel
  | fuel + 1, c, childs, endps, len, jstep, endptrick, stop, j =>
    if j = stop then .ok c
    else do
      let j := j + jstep
      let t := iget childs j
      let p := xorTrick (iget endps (j - endptrick)) endptrick
      let c ← (if t ≥ c.nvertex then augmentBlossom fuel c t (iget c.endpoint p)
               else (.ok c : Except MatchErr BlossomCtx))
      let j := j + jstep
      let t2 := iget childs (((Int.tmod j len).natAbs : Nat) : Int)
      let c ← (if t2 ≥ c.nvertex then augmentBlossom fuel c t2 (iget c.endpoint (followEdge p))
               else (.ok c : Except MatchErr BlossomCtx))
      let c := { c with mate := iset c.mate (iget c.endpoint p) (followEdge p) }
      let c := { c with mate := iset c.mate (iget c.endpoint (followEdge p)) p }
      augmentLoop fuel c childs endps len jstep endptrick stop j

end

/-- `augmentMatchingDirection` from `blossom.ts`: match `s` to remote
endpoint `p`, then trace back to a single vertex, swapping matched and
unmatched edges (fueled `while (true)`). -/
def augmentMatchingDirection : Nat → BlossomCtx → Int → Int → Except MatchErr BlossomCtx
  | 0, _, _, _ => .error .outOfFuel
  | fuel + 1, c, s, p => do
    let bs := iget c.inblossom s
    jsAssert (iget c.label bs = S_VERTEX)
    jsAssert (iget c.labelend bs = iget c.mate (iget c.blossombase bs))
    let c ← (if bs ≥ c.nvertex then augmentBlossom (fuel + 1) c bs s
             else (.ok c : Except MatchErr BlossomCtx))
    let c := { c with mate := iset c.mate s p }
    if iget c.labelend bs = NoEndpoint then .ok c
    else do
      let t := iget c.endpoint (iget c.labelend bs)
      let bt := iget c.inblossom t
      jsAssert (iget c.label bt = T_VERTEX)
      jsAssert (0 ≤ iget c.labelend bt)
      let le := iget c.labelend bt
      let s2 := iget c.endpoint le
      let jj := iget c.endpoint (followEdge le)
      jsAssert (iget c.blossombase bt = t)
      let c ← (if bt ≥ c.nvertex then augmentBlossom (fuel + 1) c bt jj
               else (.ok c : Except MatchErr BlossomCtx))
      let c := { c with mate := iset c.mate jj le }
      augmentMatchingDirection fuel c s2 (followEdge le)

/-- `augmentMatching` from `blossom.ts`: augment through edge `k` in both
directions. -/
def augmentMatching (fuel : Nat) (c : BlossomCtx) (k : Int) :
    Except MatchErr BlossomCtx := do
  let e := c.edges.getD k.toNat (0, 0, 0)
  let c ← augmentMatchingDirection fuel c e.1 (2 * k + 1)
  augmentMatchingDirection fuel c e.2.1 (2 * k)

/-- One scan of the neighbour list of an S-vertex `v` in the substage
loop of `maxWeightMatching`; the boolean reports whether the matching was
augmented (which breaks the scan). -/
def scanNeighbours (fuel : Nat) (v : Int) :
    List Int → List Int → BlossomCtx → Except MatchErr (List Int × BlossomCtx × Bool)
  | [], queue, c => .ok (queue, c, false)
  | p :: ps, queue, c => do
    let k := endpointToEdgeID p
    let w := iget c.endpoint p
    if iget c.inblossom v = iget c.inblossom w then
      scanNeighbours fuel v ps queue c
    else do
      let kslack := slack c k
      let c :=
        if !(igetB c.allowedge k) ∧ kslack ≤ 0 then
          { c with allowedge := iset c.allowedge k true }
        else c
      if igetB c.allowedge k then
        if iget c.label (iget c.inblossom w) = NO_LABEL then do
          let (queue, c) ← assignLabel fuel queue c w T_VERTEX (followEdge p)
          scanNeighbours fuel v ps queue c
        else if iget c.label (iget c.inblossom w) = S_VERTEX then do
          let (c, base) ← scanBlossom c v w fuel
          if base ≠ NoVertex then do
            let (queue, c) ← addBlossom fuel queue c base k
            scanNeighbours fuel v ps queue c
          else do
            let c ← augmentMatching fuel c k
            .ok (queue, c, true)
        else if iget c.label w = NO_LABEL then do
          jsAssert (iget c.label (iget c.inblossom w) = T_VERTEX)
          let c := { c with label := iset c.label w T_VERTEX,
                            labelend := iset c.labelend w (followEdge p) }
          scanNeighbours fuel v ps queue c
        else
          scanNeighbours fuel v ps queue c
      else if iget c.label (iget c.inblossom w) = S_VERTEX then
        let b := iget c.inblossom v
        let c :=
          if iget c.bestedge b = NoEdge ∨ kslack < slack c (iget c.bestedge b) then
            { c with bestedge := iset c.bestedge b k }
          else c
        scanNeighbours fuel v ps queue c
      else if iget c.label w = NO_LABEL ∧
          (iget c.bestedge w = NoEdge ∨ kslack < slack c (iget c.bestedge w)) then
        let c := { c with bestedge := iset c.bestedge w k }
        scanNeighbours fuel v ps queue c
      else
        scanNeighbours fuel v ps queue c

/-- The labeling loop of a substage
(`while (queue.length > 0 && !augmented)`): pop an S-vertex off the back
of the queue and scan its neighbours. -/
def substageScan (fuel0 : Nat) :
    Nat → List Int → BlossomCtx → Except MatchErr (List Int × BlossomCtx × Bool)
  | 0, _, _ => .error .outOfFuel
  | fuel + 1, queue, c =>
    match queue.getLast? with
    | none => .ok (queue, c, false)
    | some v => do
      let queue := queue.dropLast
      jsAssert (iget c.label (iget c.inblossom v) = S_VERTEX)
      let (queue, c, augmented) ← scanNeighbours fuel0 v (igetL c.neighbend v) queue c
      if augmented then .ok (queue, c, true)
      else substageScan fuel0 fuel queue c

/-- `min(a, 0, nvertex)` from `blossom.ts` over the vertex duals. -/
def minDual (c : BlossomCtx) : Rat :=
  match c.dualvar.take c.nvertex.toNat with
  | [] => 0
  | x :: xs => xs.foldl min x

/-- The delta2 scan of `maxWeightMatching`: least slack on an edge
between an S-vertex and a free vertex.  State is
`(delta, deltatype, deltaedge, deltablossom)`. -/
def delta2Scan (c : BlossomCtx) :
    List Nat → Rat × Int × Int × Int → Rat × Int × Int × Int
  | [], acc => acc
  | v :: vs, (delta, deltatype, deltaedge, deltablossom) =>
    let vI : Int := (v : Int)
    let acc :=
      if iget c.label (iget c.inblossom vI) = NO_LABEL ∧ iget c.bestedge vI ≠ NoEdge then
        let d := slack c (iget c.bestedge vI)
        if d < delta then (d, 2, iget c.bestedge vI, deltablossom)
        else (delta, deltatype, deltaedge, deltablossom)
      else (delta, deltatype, deltaedge, deltablossom)
    delta2Scan c vs acc

/-- The delta3 scan of `maxWeightMatching`: half the least slack on an
edge between a pair of S-blossoms. -/
def delta3Scan (c : BlossomCtx) :
    List Nat → Rat × Int × Int × Int → Rat × Int × Int × Int
  | [], acc => acc
  | b :: bs, (delta, deltatype, deltaedge, deltablossom) =>
    let bI : Int := (b : Int)
    let acc :=
      if iget c.blossomparent bI = NoVertex ∧ iget c.label bI = S_VERTEX ∧
          iget c.bestedge bI ≠ NoEdge then
        let d := slack c (iget c.bestedge bI) / 2
        if d < delta then (d, 3, iget c.bestedge bI, deltablossom)
        else (delta, deltatype, deltaedge, deltablossom)
      else (delta, deltatype, deltaedge, deltablossom)
    delta3Scan c bs acc

/-- The delta4 scan of `maxWeightMatching`: least dual of a top-level
T-blossom (offsets are into the blossom half `[nvertex, 2 nvertex)`). -/
def delta4Scan (c : BlossomCtx) :
    List Nat → Rat × Int × Int × Int → Rat × Int × Int × Int
  | [], acc => acc
  | b :: bs, (delta, deltatype, deltaedge, deltablossom) =>
    let bI : Int := c.nvertex + (b : Int)
    let acc :=
      if iget c.blossombase bI ≠ NoVertex ∧ iget c.blossomparent bI = NoVertex ∧
          iget c.label bI = T_VERTEX ∧ igetQ c.dualvar bI < delta then
        (igetQ c.dualvar bI, 4, deltaedge, bI)
      else (delta, deltatype, deltaedge, deltablossom)
    delta4Scan c bs acc

/-- The dual-variable update of a substage. -/
def dualUpdate (c : BlossomCtx) (delta : Rat) : BlossomCtx :=
  let dv1 := (List.range c.nvertex.toNat).foldl (fun dv v =>
    let vI : Int := (v : Int)
    if iget c.label (iget c.inblossom vI) = S_VERTEX then iset dv vI (igetQ dv vI - delta)
    else if iget c.label (iget c.inblossom vI) = T_VERTEX then iset dv vI (igetQ dv vI + delta)
    else dv) c.dualvar
  let dv2 := (List.range c.nvertex.toNat).foldl (fun dv bb =>
    let bI : Int := c.nvertex + (bb : Int)
    if iget c.blossombase bI ≠ NoVertex ∧ iget c.blossomparent bI = NoVertex then
      (if iget c.label bI = S_VERTEX then iset dv bI (igetQ dv bI + delta)
       else if iget c.label bI = T_VERTEX then iset dv bI (igetQ dv bI - delta)
       else dv)
    else dv) dv1
  { c with dualvar := dv2 }

/-- The substage loop of `maxWeightMatching` (`while (true)` inside a
stage): run the labeling scan, then compute delta, update the duals and
act on the delta type; type 1 ends the stage without augmenting. -/
def substageLoop (fuel0 : Nat) :
    Nat → List Int → BlossomCtx → Except MatchErr (List Int × BlossomCtx × Bool)
  | 0, _, _ => .error .outOfFuel
  | fuel + 1, queue, c => do
    let (queue, c, augmented) ← substageScan fuel0 fuel0 queue c
    if augmented then .ok (queue, c, true)
    else do
      let acc := delta2Scan c (List.range c.nvertex.toNat) (minDual c, 1, NoEdge, NoVertex)
      let acc := delta3Scan c (List.range (2 * c.nvertex).toNat) acc
      let (delta, deltatype, deltaedge, deltablossom) :=
        delta4Scan c (List.range c.nvertex.toNat) acc
      let c := dualUpdate c delta
      if deltatype = 1 then .ok (queue, c, false)
      else if deltatype = 2 then do
        jsAssert (deltaedge ≠ NoEdge)
        let c := { c with allowedge := iset c.allowedge deltaedge true }
        let e := c.edges.getD deltaedge.toNat (0, 0, 0)
        let i1 := if iget c.label (iget c.inblossom e.1) = 0 then e.2.1 else e.1
        jsAssert (iget c.label (iget c.inblossom i1) = S_VERTEX)
        substageLoop fuel0 fuel (queue ++ [i1]) c
      else if deltatype = 3 then do
        let c := { c with allowedge := iset c.allowedge deltaedge true }
        let e := c.edges.getD deltaedge.toNat (0, 0, 0)
        jsAssert (iget c.label (iget c.inblossom e.1) = S_VERTEX)
        substageLoop fuel0 fuel (queue ++ [e.1]) c
      else do
        jsAssert (deltatype = 4)
        jsAssert (deltablossom ≠ NoVertex)
        let (queue, c) ← expandBlossom fuel0 queue c deltablossom false
        substageLoop fuel0 fuel queue c

/-- The initial labeling loop of a stage: label every single unlabeled
vertex with S. -/
def stageInitLabels (fuel : Nat) :
    List Nat → List Int → BlossomCtx → Except MatchErr (List Int × BlossomCtx)
  | [], queue, c => .ok (queue, c)
  | v :: vs, queue, c => do
    let vI : Int := (v : Int)
    if iget c.mate vI = NoEndpoint ∧ iget c.label (iget c.inblossom vI) = 0 then do
      let (queue, c) ← assignLabel fuel queue c vI S_VERTEX NoEndpoint
      stageInitLabels fuel vs queue c
    else stageInitLabels fuel vs queue c

/-- The end-of-stage expansion: expand all top-level S-blossoms with zero
dual (offsets are into the blossom half). -/
def stageExpand (fuel : Nat) :
    List Nat → List Int → BlossomCtx → Except MatchErr (List Int × BlossomCtx)
  | [], queue, c => .ok (queue, c)
  | bb :: bs, queue, c => do
    let bI : Int := c.nvertex + (bb : Int)
    if iget c.blossomparent bI = NoVertex ∧ iget c.blossombase bI ≠ NoVertex ∧
        iget c.label bI = S_VERTEX ∧ igetQ c.dualvar bI = 0 then do
      let (queue, c) ← expandBlossom fuel queue c bI true
      stageExpand fuel bs queue c
    else stageExpand fuel bs queue c

/-- The stage loop of `maxWeightMatching` (`for (const t of allVertices)`),
with the early `break` when a stage fails to augment. -/
def stageLoop (fuel0 : Nat) : Nat → BlossomCtx → Except MatchErr BlossomCtx
  | 0, c => .ok c
  | t + 1, c => do
    let c := { c with
      label := List.replicate (2 * c.nvertex).toNat 0,
      bestedge := List.replicate (2 * c.nvertex).toNat NoEdge,
      blossombestedges := c.blossombestedges.take c.nvertex.toNat ++
        List.replicate c.nvertex.toNat none,
      allowedge := List.replicate c.edges.length false }
    let (queue, c) ← stageInitLabels fuel0 (List.range c.nvertex.toNat) [] c
    let (queue, c, augmented) ← substageLoop fuel0 fuel0 queue c
    if !augmented then .ok c
    else do
      let (_, c) ← stageExpand fuel0 (List.range c.nvertex.toNat) queue c
      stageLoop fuel0 t c

/-- `maxWeightMatching` from `blossom.ts`.  All loops are bounded by
fuel; the consistency checks (`checkDelta2`, `checkDelta3`,
`verifyOptimum`) are disabled in the source (`ENABLE_CHECKS = false`) and
therefore not modelled.  Returns the `[from, to]` mate pairs. -/
def maxWeightMatching (edges : List (Int × Int × Int)) (fuel : Nat) :
    Except MatchErr (List (Int × Int)) :=
  if edges.length = 0 then .ok []
  else do
    let c ← buildContext edges
    let c ← stageLoop fuel c.nvertex.toNat c
    .ok ((List.range c.nvertex.toNat).foldl (fun res frm =>
      let frmI : Int := (frm : Int)
      let itsMate := iget c.mate frmI
      if itsMate ≠ NoEndpoint then
        let toV := iget c.endpoint itsMate
        if toV ≠ NoVertex then res ++ [(frmI, toV)] else res
      else res) [])

/-- The `edgesByNodes` map of `BlossomMatcher`: keys are
`fromID + "/" + toID`; `Map.set` overwrites, so a lookup returns the
entry of the last edge with a given key (modelled by reversing the
association list built in input order). -/
def edgesByNodes (g : Graph) : List ((Int × Int) × Nat) :=
  ((indexedEdges g).map (fun p =>
    ((((p.2.frm : Int), (p.2.toN : Int)) : Int × Int), p.1))).reverse

/-- `Map.get` on `edgesByNodes`. -/
def ebnLookup (m : List ((Int × Int) × Nat)) (key : Int × Int) : Option Nat :=
  (m.find? (fun q => q.1 == key)).map (fun q => q.2)

/-- The decompress loop of `BlossomMatcher`: skip `to == NoVertex`
pairs, drop mate pairs whose endpoints were already claimed
(`inMatching`), look the input edge up by the node pair in either order,
and `assert` that it was found. -/
def decompressGo (g : Graph) :
    List (Int × Int) → List Int → List Nat → Except MatchErr (List Nat)
  | [], _, acc => .ok acc
  | (frm, toV) :: rest, inM, acc =>
    if toV = NoVertex then decompressGo g rest inM acc
    else if frm ∈ inM ∨ toV ∈ inM then decompressGo g rest inM acc
    else
      let inM := frm :: toV :: inM
      match ebnLookup (edgesByNodes g) (frm, toV) with
      | some i => decompressGo g rest inM (acc ++ [i])
      | none =>
        match ebnLookup (edgesByNodes g) (toV, frm) with
        | some i => decompressGo g rest inM (acc ++ [i])
        | none => .error .assertFailed

/-- `BlossomMatcher` from `blossom.ts`: compress the input to id
triples, run `maxWeightMatching`, and decompress the resulting mate
pairs back to input edges (returned as edge indices). -/
def blossomMatcher (g : Graph) (fuel : Nat) : Except MatchErr (List Nat) := do
  let edges := g.edges.map (fun e =>
    (((e.frm : Int), (e.toN : Int), e.weight) : Int × Int × Int))
  let resultMates ← maxWeightMatching edges fuel
  decompressGo g resultMates [] []

-- =========================================================================
-- Theorems
-- =========================================================================

theorem clashFree_cons (used : List Nat) (e : Edge) (rest : List Edge) :
    ClashFree used (e :: rest) ↔
      (e.frm ∉ used ∧ e.toN ∉ used) ∧ ClashFree (e.frm :: e.toN :: used) rest := by
  constructor
  · intro H
    refine ⟨(H 0 (by simp)).1, ?_⟩
    intro j hj
    have Hj := H (j + 1) (by simpa using Nat.succ_lt_succ hj)
    simp only [List.getD_cons_succ] at Hj
    refine ⟨?_, ?_⟩
    · have h0 := Hj.2 0 (Nat.succ_pos _)
      simp only [List.getD_cons_zero, edgeNodes] at h0
      have h1 := Hj.1
      simp only [List.mem_cons, List.mem_singleton] at h0 ⊢
      tauto
    · intro i hi
      have := Hj.2 (i + 1) (Nat.succ_lt_succ hi)
      simpa using this
  · rintro ⟨⟨hf, ht⟩, H⟩
    intro j hj
    match j with
    | 0 =>
      refine ⟨by simpa using ⟨hf, ht⟩, ?_⟩
      intro i hi; omega
    | j + 1 =>
      have hj' : j < rest.length := by simpa using Nat.lt_of_succ_lt_succ hj
      have Hj := H j hj'
      simp only [List.getD_cons_succ]
      constructor
      · constructor
        · have := Hj.1.1; simp only [List.mem_cons] at this; tauto
        · have := Hj.1.2; simp only [List.mem_cons] at this; tauto
      · intro i hi
        match i with
        | 0 =>
          simp only [List.getD_cons_zero, edgeNodes, List.mem_cons, List.mem_singleton]
          have h1 := Hj.1.1
          have h2 := Hj.1.2
          simp only [List.mem_cons] at h1 h2
          tauto
        | i + 1 =>
          have := Hj.2 i (by omega)
          simpa using this

theorem verifyGo_eq_true_iff (out : List Edge) :
    ∀ used, verifyGo used out = true ↔ ClashFree used out := by
  induction out with
  | nil =>
    intro used
    simp [verifyGo, ClashFree]
  | cons e rest ih =>
    intro used
    rw [clashFree_cons]
    simp only [verifyGo]
    by_cases h1 : e.frm ∈ used
    · simp only [if_pos h1]
      constructor
      · intro h; cases h
      · intro h; exact absurd h1 h.1.1
    · by_cases h2 : e.toN ∈ used
      · simp only [if_neg h1, if_pos h2]
        constructor
        · intro h; cases h
        · intro h; exact absurd h2 h.1.2
      · rw [if_neg h1, if_neg h2, ih (e.frm :: e.toN :: used)]
        constructor
        · intro h; exact ⟨⟨h1, h2⟩, h⟩
        · intro h; exact h.2

/-- C10: `verifyMatching(input, output)` throws iff some later output edge
touches (by identity) an endpoint of an earlier output edge; it never
reads `input`; and it accepts a single self-loop edge. -/
theorem claimC10_verifyMatching_characterization :
    (∀ input output, verifyMatching input output = false ↔
      ∃ j, j < output.length ∧ ∃ i, i < j ∧
        ((output.getD j dummyEdge).frm ∈ edgeNodes (output.getD i dummyEdge) ∨
         (output.getD j dummyEdge).toN ∈ edgeNodes (output.getD i dummyEdge))) ∧
    (∀ input input' output, verifyMatching input output = verifyMatching input' output) ∧
    (∀ input e, verifyMatching input [e] = true) := by
  refine ⟨?_, fun _ _ _ => rfl, fun input e => by simp [verifyMatching, verifyGo]⟩
  intro input output
  have hchar := verifyGo_eq_true_iff output []
  constructor
  · intro hfalse
    by_contra hno
    push_neg at hno
    have : ClashFree [] output := by
      intro j hj
      refine ⟨by simp, ?_⟩
      intro i hi
      have := hno j hj i hi
      tauto
    rw [← hchar] at this
    have hf2 : verifyGo [] output = false := hfalse
    rw [this] at hf2
    cases hf2
  · intro ⟨j, hj, i, hi, hclash⟩
    by_contra hne
    have htrue : verifyGo [] output = true := by
      cases hv : verifyGo [] output
      · exact absurd hv hne
      · rfl
    rw [hchar] at htrue
    have := (htrue j hj).2 i hi
    tauto

theorem runGo_ok (k : Nat) : ∀ s, s + k < MAX_STEPS → runGo s k = .ok (s + k + 1) := by
  induction k with
  | zero => intro s _; simp [runGo]
  | succ k ih =>
    intro s hs
    rw [runGo, if_pos (by omega)]
    have := ih (s + 1) (by omega)
    rw [this]
    congr 1
    omega

theorem runGo_err (k : Nat) : ∀ s, MAX_STEPS ≤ s + k → 1 ≤ k →
    runGo s k = .error .maxStepsExceeded := by
  induction k with
  | zero => intro s _ h1; omega
  | succ k ih =>
    intro s hs _
    rw [runGo]
    by_cases hlt : s + 1 < MAX_STEPS
    · rw [if_pos hlt]
      exact ih (s + 1) (by omega) (by omega)
    · rw [if_neg hlt]

/-- C9: if the matcher's generator completes within `MAX_STEPS` calls to
`next()` (it makes `yields + 1` of them) and the post-hoc validity check
passes, `run` returns `{matching, steps, score}` with the exact call
count and the summed score; if it does not complete within `MAX_STEPS`
calls, `run` fails with a fatal error. -/
theorem claimC9_run_characterization (input : Graph) (yields : Nat) (matching : List Edge) :
    (yields + 1 ≤ MAX_STEPS → verifyMatching input matching = true →
      run input yields matching = .ok ⟨matching, yields + 1, getScore matching⟩) ∧
    (MAX_STEPS < yields + 1 →
      run input yields matching = .error .maxStepsExceeded) := by
  constructor
  · intro hle hver
    rw [run, runGo_ok yields 0 (by omega)]
    simp only [Nat.zero_add, hver, if_pos]
  · intro hgt
    rw [run, runGo_err yields 0 (by omega)
      (by have hM : MAX_STEPS = 100000000 := rfl; omega)]

theorem claimC9_run_characterization_witness :
    run ⟨2, []⟩ 2 [⟨0, 1, 5⟩] = .ok ⟨[⟨0, 1, 5⟩], 3, 5⟩ ∧
    run ⟨2, []⟩ MAX_STEPS [] = .error .maxStepsExceeded :=
  ⟨(claimC9_run_characterization ⟨2, []⟩ 2 [⟨0, 1, 5⟩]).1 (by decide) (by decide),
   (claimC9_run_characterization ⟨2, []⟩ MAX_STEPS []).2 (by decide)⟩

/-- C7 (refuting the heap claim, a bug in `BinaryHeap.swap`): after
inserting value `0` with score `1` and value `1` with score `2` into an
empty heap, the first `removeMax` returns value `1` and the second
`removeMax` returns value `1` again — value `0` was overwritten by the
broken `swap` (which writes `heap[b] = heap[a]` after `heap[a]` was
already overwritten), so the inserted values are not each returned
exactly once. -/
theorem claimC7_heap_removeMax_duplicates :
    (heapRemoveMax (heapInsert (heapInsert ([] : List (HeapEntry Nat)) 0 1) 1 2)).1 = some 1 ∧
    (heapRemoveMax ((heapRemoveMax
        (heapInsert (heapInsert ([] : List (HeapEntry Nat)) 0 1) 1 2)).2)).1 = some 1 ∧
    heapInsert (heapInsert ([] : List (HeapEntry Nat)) 0 1) 1 2 = [⟨1, 2⟩, ⟨1, 2⟩] := by
  decide

-- ------------------------- C6: greedy = spec greedy ---------------------

theorem greedyGo_eq_specScan (l : List (Nat × Edge)) :
    ∀ used, greedyGo used l = specGreedyScan used l := by
  induction l with
  | nil => intro used; rfl
  | cons x rest ih =>
    intro used
    obtain ⟨i, e⟩ := x
    simp only [greedyGo, specGreedyScan]
    by_cases h1 : e.frm ∈ used
    · rw [if_pos h1, if_pos (Or.inl h1), ih]
    · by_cases h2 : e.toN ∈ used
      · rw [if_neg h1, if_pos h2, if_pos (Or.inr h2), ih]
      · rw [if_neg h1, if_neg h2, if_neg (by tauto), ih]

theorem insertByWeightDesc_perm (x : Nat × Edge) (l : List (Nat × Edge)) :
    List.Perm (insertByWeightDesc x l) (x :: l) := by
  induction l with
  | nil => rfl
  | cons y ys ih =>
    rw [insertByWeightDesc]
    by_cases h : x.2.weight ≥ y.2.weight
    · rw [if_pos h]
    · rw [if_neg h]
      exact ((ih.cons y).trans (List.Perm.swap x y ys))

theorem sortByWeightDesc_perm (l : List (Nat × Edge)) : List.Perm (sortByWeightDesc l) l := by
  induction l with
  | nil => rfl
  | cons x xs ih =>
    have : sortByWeightDesc (x :: xs) = insertByWeightDesc x (sortByWeightDesc xs) := rfl
    rw [this]
    exact (insertByWeightDesc_perm x _).trans (ih.cons x)

theorem insertByWeightDesc_pairwise (x : Nat × Edge) (l : List (Nat × Edge))
    (hl : l.Pairwise specKeyLe) (hidx : ∀ y ∈ l, x.1 < y.1) :
    (insertByWeightDesc x l).Pairwise specKeyLe := by
  induction l with
  | nil => simp [insertByWeightDesc]
  | cons y ys ih =>
    rw [insertByWeightDesc]
    rw [List.pairwise_cons] at hl
    by_cases h : x.2.weight ≥ y.2.weight
    · rw [if_pos h]
      refine List.Pairwise.cons ?_ (List.Pairwise.cons hl.1 hl.2)
      intro z hz
      rw [List.mem_cons] at hz
      rcases hz with rfl | hz
      · rcases lt_or_eq_of_le h with hlt | heq
        · exact Or.inl hlt
        · exact Or.inr ⟨heq.symm, Nat.le_of_lt (hidx z (by simp))⟩
      · have hyz := hl.1 z hz
        have hzw : z.2.weight ≤ y.2.weight := by
          rcases hyz with h3 | ⟨h3, _⟩
          · exact le_of_lt h3
          · exact le_of_eq h3.symm
        have : z.2.weight ≤ x.2.weight := le_trans hzw h
        rcases lt_or_eq_of_le this with hlt | heq
        · exact Or.inl hlt
        · exact Or.inr ⟨heq.symm, Nat.le_of_lt (hidx z (by simp [hz]))⟩
    · rw [if_neg h]
      refine List.Pairwise.cons ?_ (ih hl.2 (fun z hz => hidx z (by simp [hz])))
      intro z hz
      have hz' : z ∈ x :: ys := (insertByWeightDesc_perm x ys).mem_iff.mp hz
      rw [List.mem_cons] at hz'
      rcases hz' with rfl | hz'
      · exact Or.inl (lt_of_not_ge h)
      · exact hl.1 z hz'

theorem sortByWeightDesc_pairwise (l : List (Nat × Edge))
    (hidx : l.Pairwise (fun a b => a.1 < b.1)) :
    (sortByWeightDesc l).Pairwise specKeyLe := by
  induction l with
  | nil => simp [sortByWeightDesc]
  | cons x xs ih =>
    rw [List.pairwise_cons] at hidx
    have : sortByWeightDesc (x :: xs) = insertByWeightDesc x (sortByWeightDesc xs) := rfl
    rw [this]
    refine insertByWeightDesc_pairwise x _ (ih hidx.2) ?_
    intro y hy
    exact hidx.1 y ((sortByWeightDesc_perm xs).mem_iff.mp hy)

theorem sorted_unique_by_fst :
    ∀ (l1 l2 : List (Nat × Edge)), List.Perm l1 l2 → (l1.map Prod.fst).Nodup →
      l1.Pairwise specKeyLe → l2.Pairwise specKeyLe → l1 = l2 := by
  intro l1
  induction l1 with
  | nil =>
    intro l2 hp _ _ _
    exact List.Perm.nil_eq hp
  | cons x xs ih =>
    intro l2 hp hnd hs1 hs2
    match l2 with
    | [] => exact absurd hp.symm (by simp)
    | y :: ys =>
      have hxy : x = y := by
        by_contra hne
        have hxmem : x ∈ y :: ys := hp.mem_iff.mp (by simp)
        have hymem : y ∈ x :: xs := hp.mem_iff.mpr (by simp)
        rw [List.mem_cons] at hxmem hymem
        have hxys : x ∈ ys := by
          rcases hxmem with h | h
          · exact absurd h hne
          · exact h
        have hyxs : y ∈ xs := by
          rcases hymem with h | h
          · exact absurd h.symm hne
          · exact h
        rw [List.pairwise_cons] at hs1 hs2
        have h1 : specKeyLe x y := hs1.1 y hyxs
        have h2 : specKeyLe y x := hs2.1 x hxys
        have hfst : x.1 = y.1 := by
          rcases h1 with ha | ⟨ha, hai⟩ <;> rcases h2 with hb | ⟨hb, hbi⟩
          · exact absurd hb (by omega)
          · exact absurd hb.symm (by omega)
          · exact absurd ha.symm (by omega)
          · omega
        rw [List.map_cons, List.nodup_cons] at hnd
        exact hnd.1 (hfst ▸ List.mem_map_of_mem Prod.fst hyxs)
      subst hxy
      have htail : List.Perm xs ys := hp.cons_inv
      rw [List.pairwise_cons] at hs1 hs2
      rw [List.map_cons, List.nodup_cons] at hnd
      rw [ih ys htail hnd.2 hs1.2 hs2.2]

theorem indexedEdges_pairwise_fst (g : Graph) :
    (indexedEdges g).Pairwise (fun a b => a.1 < b.1) := by
  have h1 : ((indexedEdges g).map Prod.fst).Pairwise (· < ·) := by
    rw [indexedEdges, List.enum_map_fst]
    exact List.pairwise_lt_range _
  exact (List.pairwise_map.mp h1)

/-- C6: `GreedyMatcher` equals the spec's reference greedy algorithm:
same processing order (weight descending, stable on input order), same
add-iff-both-endpoints-unused rule, same output sequence. -/
theorem claimC6_greedy_equals_spec (g : Graph) : greedy g = specGreedy g := by
  rw [greedy, specGreedy, greedyGo_eq_specScan]
  congr 1
  have hperm : List.Perm (sortByWeightDesc (indexedEdges g))
      (List.insertionSort specKeyLe (indexedEdges g)) :=
    (sortByWeightDesc_perm _).trans (List.perm_insertionSort specKeyLe _).symm
  have hnd : ((sortByWeightDesc (indexedEdges g)).map Prod.fst).Nodup := by
    have := List.nodup_enum_map_fst (g.edges)
    have hp : List.Perm ((sortByWeightDesc (indexedEdges g)).map Prod.fst)
        ((indexedEdges g).map Prod.fst) :=
      (sortByWeightDesc_perm _).map Prod.fst
    exact hp.nodup_iff.mpr this
  exact sorted_unique_by_fst _ _ hperm hnd
    (sortByWeightDesc_pairwise _ (indexedEdges_pairwise_fst g))
    (List.sorted_insertionSort specKeyLe _)

-- ------------------------- C5: M1/M2 assignment -------------------------

/-- C5 counterexample: the claim says an edge is appended to M1 whenever
`|M1| ≤ |M2|`; but the selection step of both path-growing matchers
(`pgAssign`) uses the strict comparison `|M1| < |M2|`, so with equal
lengths the edge goes to M2.  Concretely, on the single-edge graph the
standard matcher ends with M1 empty and the edge in M2. -/
theorem claimC5_counterexample :
    ¬ (∀ (m1 m2 : List Nat) (e : Nat), m1.length ≤ m2.length →
        pgAssign m1 m2 e = (m1 ++ [e], m2)) ∧
    pathGrowingSolutions ⟨2, [⟨0, 1, 5⟩]⟩ 5 = .ok ([], [0]) := by
  constructor
  · intro h
    have h2 := h [] [] 0 (Nat.le_refl 0)
    simp [pgAssign] at h2
  · rfl

/-- C5 as amended: at the moment an edge `e` of a walk is selected, `e`
is appended to M1 if `|M1| < |M2|` (strictly), and appended to M2
otherwise — in particular when the two candidate matchings have equal
length it is appended to M2. -/
theorem claimC5_amended_assignment (m1 m2 : List Nat) (e : Nat) :
    (m1.length < m2.length → pgAssign m1 m2 e = (m1 ++ [e], m2)) ∧
    (¬ m1.length < m2.length → pgAssign m1 m2 e = (m1, m2 ++ [e])) ∧
    (m1.length = m2.length → pgAssign m1 m2 e = (m1, m2 ++ [e])) := by
  refine ⟨fun h => ?_, fun h => ?_, fun h => ?_⟩
  · rw [pgAssign, if_pos h]
  · rw [pgAssign, if_neg h]
  · rw [pgAssign, if_neg (by omega)]

theorem claimC5_amended_assignment_witness :
    pgAssign [5] [0, 1] 2 = ([5, 2], [0, 1]) ∧ pgAssign [] [] 0 = ([], [0]) :=
  ⟨(claimC5_amended_assignment [5] [0, 1] 2).1 (by decide),
   (claimC5_amended_assignment [] [] 0).2.2 (by decide)⟩

-- ------------------------- C3: naive matcher ----------------------------

theorem alGet_set_ne (lst : List (Option (List Nat))) (a v : Nat)
    (x : Option (List Nat)) (h : a ≠ v) : (lst.set a x).getD v none = lst.getD v none := by
  simp [List.getD_eq_getElem?_getD, List.getElem?_set_ne h]

theorem alGet_set_self (lst : List (Option (List Nat))) (a : Nat)
    (x : Option (List Nat)) (h : a < lst.length) : (lst.set a x).getD a none = x := by
  simp [List.getD_eq_getElem?_getD, List.getElem?_set_self, h]

theorem edge_mem (g : Graph) (i : Nat) (h : i < g.edges.length) : g.edge i ∈ g.edges := by
  rw [Graph.edge, List.getD_eq_getElem g.edges _ h]
  exact List.getElem_mem h

theorem fwList_mem (g : Graph) (v i : Nat) :
    i ∈ fwList g v ↔ ∃ e, g.edges[i]? = some e ∧ e.frm = v := by
  rw [fwList, indexedEdges]
  simp only [List.mem_map, List.mem_filter]
  constructor
  · rintro ⟨⟨j, e⟩, ⟨hmem, hfrm⟩, rfl⟩
    rw [List.mk_mem_enum_iff_getElem?] at hmem
    exact ⟨e, hmem, by simpa using hfrm⟩
  · rintro ⟨e, hget, hfrm⟩
    exact ⟨(i, e), ⟨List.mk_mem_enum_iff_getElem?.mpr hget, by simpa using hfrm⟩, rfl⟩

theorem fwList_mem' (g : Graph) (v i : Nat) :
    i ∈ fwList g v ↔ i < g.edges.length ∧ (g.edge i).frm = v := by
  rw [fwList_mem]
  constructor
  · rintro ⟨e, hget, hfrm⟩
    have hlt : i < g.edges.length := by
      by_contra hge
      rw [List.getElem?_eq_none (by omega)] at hget
      cases hget
    refine ⟨hlt, ?_⟩
    rw [Graph.edge, List.getD_eq_getElem g.edges _ hlt]
    rw [List.getElem?_eq_getElem hlt] at hget
    injection hget with h
    rw [h, hfrm]
  · rintro ⟨hlt, hfrm⟩
    refine ⟨g.edge i, ?_, hfrm⟩
    rw [Graph.edge, List.getD_eq_getElem g.edges _ hlt, List.getElem?_eq_getElem hlt]

theorem alFillForwardGo_length (l : List (Nat × Edge)) :
    ∀ st : AdjListD, (alFillForwardGo st l).lst.length = st.lst.length := by
  induction l with
  | nil => intro st; rfl
  | cons p rest ih =>
    intro st
    obtain ⟨i, e⟩ := p
    rw [alFillForwardGo]
    rw [ih]
    by_cases h : (alGet st e.frm).isSome <;> simp [h, alSet]

theorem alFillForwardGo_get (l : List (Nat × Edge)) :
    ∀ (st : AdjListD) (v : Nat), v < st.lst.length →
      (∀ p ∈ l, (p : Nat × Edge).2.frm < st.lst.length) →
      alGet (alFillForwardGo st l) v =
        match alGet st v, (l.filter (fun p => p.2.frm = v)).map Prod.fst with
        | none, [] => none
        | none, ex => some ex
        | some cur, ex => some (cur ++ ex) := by
  induction l with
  | nil =>
    intro st v _ _
    rcases h : alGet st v with _ | cur <;> simp [alFillForwardGo, h]
  | cons p rest ih =>
    intro st v hv hfr
    obtain ⟨i, e⟩ := p
    rw [alFillForwardGo]
    have hfrm_lt : e.frm < st.lst.length := hfr (i, e) (by simp)
    by_cases hveq : e.frm = v
    · -- this edge extends v's list
      subst hveq
      have hst2get : ∀ st1 : AdjListD, alGet (alSet st1 e.frm (some (alEdgesOf st1 e.frm ++ [i]))) e.frm
          = some (alEdgesOf st1 e.frm ++ [i]) → True := fun _ _ => trivial
      set st1 := if (alGet st e.frm).isSome then st else ⟨st.lst.set e.frm (some []), st.count + 1⟩ with hst1
      have hlen1 : st1.lst.length = st.lst.length := by
        rw [hst1]; by_cases h : (alGet st e.frm).isSome <;> simp [h]
      have hget1 : alGet st1 e.frm = some ((alGet st e.frm).getD []) := by
        rw [hst1]
        rcases h : alGet st e.frm with _ | cur
        · simp only [h, Option.isSome_none, Bool.false_eq_true, if_false]
          show (st.lst.set e.frm (some [])).getD e.frm none = _
          rw [alGet_set_self _ _ _ hfrm_lt]
          rfl
        · simp [h]
      have hget2 : alGet (alSet st1 e.frm (some (alEdgesOf st1 e.frm ++ [i]))) e.frm
          = some ((alGet st e.frm).getD [] ++ [i]) := by
        show ((st1.lst.set e.frm _).getD e.frm none) = _
        rw [alGet_set_self _ _ _ (by rw [hlen1]; exact hfrm_lt)]
        rw [alEdgesOf, hget1]
        rfl
      rw [ih _ e.frm (by simp [alSet, hlen1, hfrm_lt]) ?hfr]
      case hfr =>
        intro p hp
        simp only [alSet, List.length_set, hlen1]
        exact hfr p (by simp [hp])
      rw [hget2]
      rcases h : alGet st e.frm with _ | cur
      · simp [h, List.filter_cons]
      · simp [h, List.filter_cons]
    · -- this edge does not affect v's list
      rw [ih _ v ?hv2 ?hfr2]
      case hv2 =>
        simp only [alSet, List.length_set]
        rw [show ((if (alGet st e.frm).isSome then st
            else ⟨st.lst.set e.frm (some []), st.count + 1⟩) : AdjListD).lst.length
            = st.lst.length by by_cases h : (alGet st e.frm).isSome <;> simp [h]]
        exact hv
      case hfr2 =>
        intro p hp
        simp only [alSet, List.length_set]
        rw [show ((if (alGet st e.frm).isSome then st
            else ⟨st.lst.set e.frm (some []), st.count + 1⟩) : AdjListD).lst.length
            = st.lst.length by by_cases h : (alGet st e.frm).isSome <;> simp [h]]
        exact hfr p (by simp [hp])
      have hgv : alGet (alSet (if (alGet st e.frm).isSome then st
          else ⟨st.lst.set e.frm (some []), st.count + 1⟩) e.frm
            (some (alEdgesOf (if (alGet st e.frm).isSome then st
              else ⟨st.lst.set e.frm (some []), st.count + 1⟩) e.frm ++ [i]))) v
          = alGet st v := by
        show (List.set _ e.frm _).getD v none = _
        rw [alGet_set_ne _ _ _ _ hveq]
        by_cases h : (alGet st e.frm).isSome
        · rw [if_pos h]; rfl
        · simp only [h, Bool.false_eq_true, if_false]
          show (st.lst.set e.frm (some [])).getD v none = _
          rw [alGet_set_ne _ _ _ _ hveq]
          rfl
      rw [hgv]
      have : (List.filter (fun p => decide (p.2.frm = v)) ((i, e) :: rest))
          = List.filter (fun p => decide (p.2.frm = v)) rest := by
        rw [List.filter_cons]
        simp [hveq]
      rw [this]

theorem alFillForward_length (g : Graph) : (alFillForward g).lst.length = g.n := by
  rw [alFillForward, alFillForwardGo_length]
  simp

theorem indexedEdges_frm_lt (g : Graph) (hr : EdgesInRange g = true) :
    ∀ p ∈ indexedEdges g, (p : Nat × Edge).2.frm < g.n := by
  rintro ⟨i, e⟩ hp
  rw [indexedEdges, List.mk_mem_enum_iff_getElem?] at hp
  have he : e ∈ g.edges := by
    have := List.getElem?_mem hp
    exact this
  rw [EdgesInRange, List.all_eq_true] at hr
  have := hr e he
  simp only [Bool.and_eq_true, decide_eq_true_eq] at this
  exact this.1

theorem alFillForward_get (g : Graph) (hr : EdgesInRange g = true) (v : Nat) (hv : v < g.n) :
    alGet (alFillForward g) v = if fwList g v = [] then none else some (fwList g v) := by
  rw [alFillForward, alFillForwardGo_get _ _ _ (by simpa using hv)
    (by intro p hp; simpa using indexedEdges_frm_lt g hr p hp)]
  have hinit : alGet (⟨List.replicate g.n none, 0⟩ : AdjListD) v = none := by
    show (List.replicate g.n none).getD v none = none
    rw [List.getD_eq_getElem?_getD]
    rcases Nat.lt_or_ge v g.n with h | h
    · simp [List.getElem?_replicate, h]
    · simp [List.getElem?_eq_none (show (List.replicate g.n (none : Option (List Nat))).length ≤ v by
        rw [List.length_replicate]; exact h)]
  rw [hinit, fwList]
  rcases h : (List.filter (fun p => decide (p.2.frm = v)) (indexedEdges g)).map Prod.fst with _ | ⟨x, xs⟩
  · simp [h]
  · simp [h]

theorem alEntries_mem (g : Graph) (hr : EdgesInRange g = true) (v : Nat) (l : List Nat) :
    (v, l) ∈ alEntries (alFillForward g) ↔ v < g.n ∧ l = fwList g v ∧ l ≠ [] := by
  rw [alEntries, List.mem_filterMap]
  constructor
  · rintro ⟨a, ha, hfa⟩
    rw [List.mem_range, alFillForward_length] at ha
    rw [show (alFillForward g).lst.getD a none = alGet (alFillForward g) a from rfl,
      alFillForward_get g hr a ha] at hfa
    by_cases hfw : fwList g a = []
    · rw [if_pos hfw] at hfa; cases hfa
    · rw [if_neg hfw] at hfa
      rcases hw : fwList g a with _ | ⟨x, xs⟩
      · exact absurd hw hfw
      · rw [hw] at hfa
        simp only at hfa
        injection hfa with h1
        injection h1 with h1 h2
        subst h1
        refine ⟨ha, ?_, ?_⟩
        · rw [hw, h2]
        · rw [← h2]
          simp
  · rintro ⟨hv, hl, hne⟩
    refine ⟨v, by rw [List.mem_range, alFillForward_length]; exact hv, ?_⟩
    rw [show (alFillForward g).lst.getD v none = alGet (alFillForward g) v from rfl,
      alFillForward_get g hr v hv, if_neg (by rw [← hl]; exact hne)]
    rcases hw : fwList g v with _ | ⟨x, xs⟩
    · exact absurd (hl.trans hw) hne
    · rw [hl, hw]

theorem filterMap_fst_sublist {α : Type} (f : Nat → Option (Nat × α))
    (hf : ∀ a p, f a = some p → (p : Nat × α).1 = a) :
    ∀ l : List Nat, List.Sublist ((l.filterMap f).map Prod.fst) l := by
  intro l
  induction l with
  | nil => simp
  | cons x xs ih =>
    rw [List.filterMap_cons]
    rcases h : f x with _ | p
    · exact ih.cons x
    · rw [List.map_cons, hf x p h]
      exact ih.cons₂ x

theorem alEntries_keys_nodup (st : AdjListD) : ((alEntries st).map Prod.fst).Nodup := by
  rw [alEntries]
  refine (List.nodup_range _).sublist (filterMap_fst_sublist _ ?_ _)
  intro a p hp
  have hp' : (match st.lst.getD a none with
    | none => none
    | some [] => none
    | some l => some (a, l)) = some p := hp
  rcases hg : st.lst.getD a none with _ | l
  · rw [hg] at hp'; cases hp'
  · rcases l with _ | ⟨x, xs⟩
    · rw [hg] at hp'; cases hp'
    · rw [hg] at hp'
      simp only at hp'
      injection hp' with h1
      subst h1
      rfl

theorem self_mem_naiveEnum (g : Graph) :
    ∀ (FL : List (Nat × List Nat)) (sol : List Nat), sol ∈ naiveEnum g FL sol := by
  intro FL
  induction FL with
  | nil => intro sol; simp [naiveEnum]
  | cons p rest ih =>
    intro sol
    obtain ⟨v, edges⟩ := p
    rw [naiveEnum]
    exact List.mem_append_left _ (ih sol)

theorem matchingEndpoints_append (g : Graph) (a b : List Nat) :
    matchingEndpoints g (a ++ b) = matchingEndpoints g a ++ matchingEndpoints g b := by
  simp [matchingEndpoints]

theorem pickable_of_valid (g : Graph) :
    ∀ (FL : List (Nat × List Nat)) (s : List Nat),
      (∀ j ∈ s, ∃ p ∈ FL, (g.edge j).frm = (p : Nat × List Nat).1 ∧ j ∈ p.2) →
      (s.map (fun j => (g.edge j).frm)).Nodup →
      ((FL.map Prod.fst).Nodup) →
      ∃ t, List.Perm t s ∧ Pickable g FL t := by
  intro FL
  induction FL with
  | nil =>
    intro s hfind _ _
    match s with
    | [] => exact ⟨[], List.Perm.refl [], Pickable.nil []⟩
    | j :: s' =>
      obtain ⟨p, hp, _⟩ := hfind j (by simp)
      cases hp
  | cons p rest ih =>
    intro s hfind hnd hkeys
    obtain ⟨v, edges⟩ := p
    rw [List.map_cons, List.nodup_cons] at hkeys
    have hinj := List.inj_on_of_nodup_map hnd
    have hnds : s.Nodup := List.Nodup.of_map _ hnd
    by_cases hhas : ∃ i ∈ s, (g.edge i).frm = v
    · obtain ⟨i, his, hifrm⟩ := hhas
      have hfrm_ne : ∀ j ∈ s.erase i, (g.edge j).frm ≠ v := by
        intro j hj hjv
        have hjs : j ∈ s := (s.erase_sublist i).mem hj
        have hje : j = i := hinj hjs his (by rw [hjv, hifrm])
        subst hje
        exact hnds.not_mem_erase hj
      have hfind' : ∀ j ∈ s.erase i,
          ∃ q ∈ rest, (g.edge j).frm = (q : Nat × List Nat).1 ∧ j ∈ q.2 := by
        intro j hj
        obtain ⟨q, hq, hqf, hqm⟩ := hfind j ((s.erase_sublist i).mem hj)
        rcases List.mem_cons.mp hq with rfl | hq'
        · exact absurd hqf (hfrm_ne j hj)
        · exact ⟨q, hq', hqf, hqm⟩
      have hnd' : ((s.erase i).map (fun j => (g.edge j).frm)).Nodup :=
        hnd.sublist ((s.erase_sublist i).map _)
      obtain ⟨t', hperm', hpick'⟩ := ih (s.erase i) hfind' hnd' hkeys.2
      obtain ⟨q, hq, hqf, hqm⟩ := hfind i his
      have hq_eq : q = (v, edges) := by
        rcases List.mem_cons.mp hq with rfl | hq'
        · rfl
        · exfalso
          apply hkeys.1
          have hmem : (q : Nat × List Nat).1 ∈ rest.map Prod.fst :=
            List.mem_map_of_mem Prod.fst hq'
          rwa [← hqf, hifrm] at hmem
      refine ⟨i :: t', ?_, Pickable.pick v edges rest i t' (by rw [hq_eq] at hqm; exact hqm)
        hpick' (fun j hj => hfrm_ne j (hperm'.mem_iff.mp hj))⟩
      exact (hperm'.cons i).trans (List.perm_cons_erase his).symm
    · push_neg at hhas
      have hfind' : ∀ j ∈ s,
          ∃ q ∈ rest, (g.edge j).frm = (q : Nat × List Nat).1 ∧ j ∈ q.2 := by
        intro j hj
        obtain ⟨q, hq, hqf, hqm⟩ := hfind j hj
        rcases List.mem_cons.mp hq with rfl | hq'
        · exact absurd hqf (hhas j hj)
        · exact ⟨q, hq', hqf, hqm⟩
      obtain ⟨t, hperm, hpick⟩ := ih s hfind' hnd hkeys.2
      exact ⟨t, hperm, Pickable.skip v edges rest t hpick
        (fun j hj => hhas j (hperm.mem_iff.mp hj))⟩

theorem enum_mem_of_pickable (g : Graph) {FL : List (Nat × List Nat)} {t : List Nat}
    (hpick : Pickable g FL t) :
    ∀ sol, (∀ p ∈ FL, ∀ i ∈ (p : Nat × List Nat).2,
        i < g.edges.length ∧ (g.edge i).frm = p.1) →
      (matchingEndpoints g (sol ++ t)).Nodup →
      sol ++ t ∈ naiveEnum g FL sol := by
  induction hpick with
  | nil FL =>
    intro sol _ _
    simpa using self_mem_naiveEnum g FL sol
  | skip v edges rest t hp hv ih =>
    intro sol hsound hnd
    rw [naiveEnum]
    exact List.mem_append_left _ (ih sol (fun p hp2 => hsound p (by simp [hp2])) hnd)
  | pick v edges rest i t hi hp hv ih =>
    intro sol hsound hnd
    rw [naiveEnum]
    refine List.mem_append_right _ ?_
    have hie := hsound (v, edges) (by simp) i hi
    have hfrm : (g.edge i).frm = v := hie.2
    have hndsplit : (matchingEndpoints g sol
        ++ ((g.edge i).frm :: (g.edge i).toN :: matchingEndpoints g t)).Nodup := by
      have : matchingEndpoints g (sol ++ i :: t)
          = matchingEndpoints g sol ++ ((g.edge i).frm :: (g.edge i).toN :: matchingEndpoints g t) := by
        rw [matchingEndpoints_append]
        rfl
      rwa [this] at hnd
    have hvnot : v ∉ matchingEndpoints g sol := by
      intro hvin
      rw [List.nodup_append] at hndsplit
      exact hndsplit.2.2 hvin (by rw [← hfrm] at hvin ⊢; simp)
    rw [if_neg hvnot]
    rw [List.mem_flatMap]
    refine ⟨i, hi, ?_⟩
    have htne : (g.edge i).toN ∉ v :: matchingEndpoints g sol := by
      rw [List.nodup_append] at hndsplit
      intro hin
      rcases List.mem_cons.mp hin with heq | hin'
      · rw [← hfrm] at heq
        have := hndsplit.2.1
        rw [List.nodup_cons] at this
        exact this.1 (by rw [heq]; simp)
      · exact hndsplit.2.2 hin' (by simp)
    rw [if_neg htne]
    have hassoc : sol ++ i :: t = (sol ++ [i]) ++ t := by simp
    rw [hassoc]
    refine ih (sol ++ [i]) (fun p hp2 => hsound p (by simp [hp2])) ?_
    rw [← hassoc]
    exact hnd

theorem naiveEnum_valid (g : Graph) :
    ∀ (FL : List (Nat × List Nat)) (sol t : List Nat), t ∈ naiveEnum g FL sol →
      (∀ p ∈ FL, ∀ i ∈ (p : Nat × List Nat).2,
          i < g.edges.length ∧ (g.edge i).frm = p.1) →
      ValidMatching g sol → ValidMatching g t := by
  intro FL
  induction FL with
  | nil =>
    intro sol t hmem _ hsol
    rw [naiveEnum, List.mem_singleton] at hmem
    rwa [hmem]
  | cons p rest ih =>
    intro sol t hmem hsound hsol
    obtain ⟨v, edges⟩ := p
    rw [naiveEnum] at hmem
    rcases List.mem_append.mp hmem with hl | hr
    · exact ih sol t hl (fun q hq => hsound q (by simp [hq])) hsol
    · by_cases hv : v ∈ matchingEndpoints g sol
      · rw [if_pos hv] at hr
        cases hr
      · rw [if_neg hv] at hr
        rw [List.mem_flatMap] at hr
        obtain ⟨i, hi, hmem2⟩ := hr
        by_cases ht : (g.edge i).toN ∈ v :: matchingEndpoints g sol
        · rw [if_pos ht] at hmem2
          cases hmem2
        · rw [if_neg ht] at hmem2
          have hie := hsound (v, edges) (by simp) i hi
          have hfrmv : (g.edge i).frm = v := hie.2
          refine ih (sol ++ [i]) t hmem2 (fun q hq => hsound q (by simp [hq])) ?_
          constructor
          · intro j hj
            rcases List.mem_append.mp hj with hj1 | hj2
            · exact hsol.1 j hj1
            · rw [List.mem_singleton] at hj2
              subst hj2
              exact hie.1
          · rw [matchingEndpoints_append]
            have hsingle : matchingEndpoints g [i] = [(g.edge i).frm, (g.edge i).toN] := rfl
            rw [hsingle, List.nodup_append]
            refine ⟨hsol.2, ?_, ?_⟩
            · rw [List.nodup_cons]
              constructor
              · intro hm
                rw [List.mem_singleton] at hm
                apply ht
                rw [← hm, hfrmv]
                simp
              · simp
            · intro a ha hb
              rcases List.mem_cons.mp hb with rfl | hb'
              · rw [hfrmv] at ha
                exact hv ha
              · rw [List.mem_singleton] at hb'
                subst hb'
                exact ht (List.mem_cons_of_mem _ ha)

theorem naiveBest_mem (g : Graph) :
    ∀ (l : List (List Nat)) (best : List Nat),
      naiveBest g l best = best ∨ naiveBest g l best ∈ l := by
  intro l
  induction l with
  | nil => intro best; left; rfl
  | cons s rest ih =>
    intro best
    rw [naiveBest]
    by_cases h : scoreIdx g s > scoreIdx g best
    · rw [if_pos h]
      rcases ih s with h1 | h1
      · right; rw [h1]; simp
      · right; exact List.mem_cons_of_mem _ h1
    · rw [if_neg h]
      rcases ih best with h1 | h1
      · left; exact h1
      · right; exact List.mem_cons_of_mem _ h1

theorem naiveBest_ge (g : Graph) :
    ∀ (l : List (List Nat)) (best : List Nat),
      scoreIdx g best ≤ scoreIdx g (naiveBest g l best) ∧
      ∀ s ∈ l, scoreIdx g s ≤ scoreIdx g (naiveBest g l best) := by
  intro l
  induction l with
  | nil => intro best; exact ⟨le_refl _, by simp⟩
  | cons s rest ih =>
    intro best
    rw [naiveBest]
    by_cases h : scoreIdx g s > scoreIdx g best
    · rw [if_pos h]
      obtain ⟨h1, h2⟩ := ih s
      refine ⟨le_trans (le_of_lt h) h1, ?_⟩
      intro u hu
      rcases List.mem_cons.mp hu with rfl | hu'
      · exact h1
      · exact h2 u hu'
    · rw [if_neg h]
      obtain ⟨h1, h2⟩ := ih best
      refine ⟨h1, ?_⟩
      intro u hu
      rcases List.mem_cons.mp hu with rfl | hu'
      · exact le_trans (not_lt.mp h) h1
      · exact h2 u hu'

theorem frm_map_sublist_endpoints (g : Graph) (s : List Nat) :
    List.Sublist (s.map (fun j => (g.edge j).frm)) (matchingEndpoints g s) := by
  induction s with
  | nil => simp [matchingEndpoints]
  | cons j rest ih =>
    rw [List.map_cons]
    show List.Sublist _ ((g.edge j).frm :: (g.edge j).toN :: matchingEndpoints g rest)
    exact (ih.cons _).cons₂ _

/-- C3: for inputs of at most 50 nodes the naive matcher returns a valid
matching of maximal score; above 50 nodes it returns the empty matching.
(`EdgesInRange` requires edge endpoints to be node ids, as in any input
graph.) -/
theorem claimC3_naive_optimal (g : Graph) (hr : EdgesInRange g = true) :
    (g.n ≤ 50 → ValidMatching g (naive g) ∧
      ∀ s, ValidMatching g s → scoreIdx g s ≤ scoreIdx g (naive g)) ∧
    (50 < g.n → naive g = []) := by
  have hsound : ∀ p ∈ alEntries (alFillForward g), ∀ i ∈ (p : Nat × List Nat).2,
      i < g.edges.length ∧ (g.edge i).frm = p.1 := by
    rintro ⟨v, l⟩ hp i hi
    rw [alEntries_mem g hr] at hp
    obtain ⟨hv, hl, _⟩ := hp
    subst hl
    exact (fwList_mem' g v i).mp hi
  constructor
  · intro hle
    have hnaive : naive g = naiveBest g (naiveEnum g (alEntries (alFillForward g)) []) [] := by
      rw [naive, if_neg (by omega)]
    constructor
    · rw [hnaive]
      rcases naiveBest_mem g (naiveEnum g (alEntries (alFillForward g)) []) [] with h | h
      · rw [h]
        exact ⟨by simp, by simp [matchingEndpoints]⟩
      · exact naiveEnum_valid g _ [] _ h hsound ⟨by simp, by simp [matchingEndpoints]⟩
    · intro s hs
      -- reorder s into a pickable selection t
      have hfind : ∀ j ∈ s, ∃ p ∈ alEntries (alFillForward g),
          (g.edge j).frm = (p : Nat × List Nat).1 ∧ j ∈ p.2 := by
        intro j hj
        have hjl := hs.1 j hj
        have hfrm_lt : (g.edge j).frm < g.n := by
          rw [EdgesInRange, List.all_eq_true] at hr
          have := hr (g.edge j) (edge_mem g j hjl)
          simp only [Bool.and_eq_true, decide_eq_true_eq] at this
          exact this.1
        have hjmem : j ∈ fwList g (g.edge j).frm := (fwList_mem' g _ j).mpr ⟨hjl, rfl⟩
        refine ⟨((g.edge j).frm, fwList g (g.edge j).frm), ?_, rfl, hjmem⟩
        rw [alEntries_mem g hr]
        exact ⟨hfrm_lt, rfl, by intro hcon; rw [hcon] at hjmem; cases hjmem⟩
      have hndf : (s.map (fun j => (g.edge j).frm)).Nodup :=
        hs.2.sublist (frm_map_sublist_endpoints g s)
      obtain ⟨t, hperm, hpick⟩ := pickable_of_valid g _ s hfind hndf
        (alEntries_keys_nodup (alFillForward g))
      have hndt : (matchingEndpoints g ([] ++ t)).Nodup := by
        rw [List.nil_append]
        have hpermE : List.Perm (matchingEndpoints g t) (matchingEndpoints g s) :=
          hperm.flatMap_right _
        exact hpermE.nodup_iff.mpr hs.2
      have htmem : [] ++ t ∈ naiveEnum g (alEntries (alFillForward g)) [] :=
        enum_mem_of_pickable g hpick [] hsound hndt
      rw [List.nil_append] at htmem
      have hscore : scoreIdx g s = scoreIdx g t := by
        rw [scoreIdx, scoreIdx]
        exact ((hperm.map _).sum_eq).symm
      rw [hnaive, hscore]
      exact (naiveBest_ge g _ []).2 t htmem
  · intro hgt
    rw [naive, if_pos hgt]

theorem claimC3_naive_optimal_witness :
    (ValidMatching ⟨3, [⟨0, 1, 2⟩, ⟨1, 2, 3⟩]⟩ (naive ⟨3, [⟨0, 1, 2⟩, ⟨1, 2, 3⟩]⟩) ∧
      scoreIdx ⟨3, [⟨0, 1, 2⟩, ⟨1, 2, 3⟩]⟩ [0] ≤
        scoreIdx ⟨3, [⟨0, 1, 2⟩, ⟨1, 2, 3⟩]⟩ (naive ⟨3, [⟨0, 1, 2⟩, ⟨1, 2, 3⟩]⟩)) ∧
    naive ⟨51, []⟩ = [] := by
  have h1 := (claimC3_naive_optimal ⟨3, [⟨0, 1, 2⟩, ⟨1, 2, 3⟩]⟩ (by decide)).1 (by decide)
  have h2 := (claimC3_naive_optimal ⟨51, []⟩ (by decide)).2 (by decide)
  exact ⟨⟨h1.1, h1.2 [0] ⟨by decide, by decide⟩⟩, h2⟩

-- ------------------------- C2: validity lemmas --------------------------

theorem sameUnordered_eq_true_iff (e f : Edge) :
    sameUnordered e f = true ↔
      (e.frm = f.frm ∧ e.toN = f.toN) ∨ (e.frm = f.toN ∧ e.toN = f.frm) := by
  simp [sameUnordered]

theorem sameUnordered_symm (e f : Edge) : sameUnordered e f = sameUnordered f e := by
  by_cases h : sameUnordered f e = true
  · rw [h]
    rw [sameUnordered_eq_true_iff] at h ⊢
    rcases h with ⟨a, b⟩ | ⟨a, b⟩
    · exact Or.inl ⟨a.symm, b.symm⟩
    · exact Or.inr ⟨b.symm, a.symm⟩
  · have h2 : sameUnordered f e = false := by
      rcases hb : sameUnordered f e
      · rfl
      · exact absurd hb h
    rw [h2]
    by_contra h3
    have h4 : sameUnordered e f = true := by
      rcases hb : sameUnordered e f
      · exact absurd hb h3
      · rfl
    rw [sameUnordered_eq_true_iff] at h4
    apply h
    rw [sameUnordered_eq_true_iff]
    rcases h4 with ⟨a, b⟩ | ⟨a, b⟩
    · exact Or.inl ⟨a.symm, b.symm⟩
    · exact Or.inr ⟨b.symm, a.symm⟩

theorem wf_edge_facts (g : Graph) (h : WellFormed g = true) (i : Nat)
    (hi : i < g.edges.length) :
    (g.edge i).frm < g.n ∧ (g.edge i).toN < g.n ∧
    (g.edge i).frm ≠ (g.edge i).toN ∧ 0 ≤ (g.edge i).weight := by
  rw [WellFormed, Bool.and_eq_true] at h
  have h1 := h.1
  rw [List.all_eq_true] at h1
  have h2 := h1 (g.edge i) (edge_mem g i hi)
  simp only [Bool.and_eq_true, decide_eq_true_eq] at h2
  exact ⟨h2.1.1.1, h2.1.1.2, h2.1.2, h2.2⟩

theorem wellFormedEdges_pairwise (l : List Edge) (h : wellFormedEdges l = true) :
    l.Pairwise (fun e f => sameUnordered e f = false) := by
  induction l with
  | nil => simp
  | cons e rest ih =>
    rw [wellFormedEdges, Bool.and_eq_true, List.all_eq_true] at h
    refine List.Pairwise.cons ?_ (ih h.2)
    intro f hf
    have := h.1 f hf
    simp only [Bool.not_eq_true'] at this
    exact this

theorem wf_distinct_pairs (g : Graph) (h : WellFormed g = true) (i j : Nat)
    (hi : i < g.edges.length) (hj : j < g.edges.length) (hne : i ≠ j) :
    sameUnordered (g.edge i) (g.edge j) = false := by
  rw [WellFormed, Bool.and_eq_true] at h
  have hp := wellFormedEdges_pairwise _ h.2
  rw [List.pairwise_iff_getElem] at hp
  have hg : ∀ k (hk : k < g.edges.length), g.edge k = g.edges[k] := by
    intro k hk
    rw [Graph.edge, List.getD_eq_getElem g.edges _ hk]
  rcases Nat.lt_or_ge i j with hij | hij
  · rw [hg i hi, hg j hj]
    exact hp i j hi hj hij
  · have hji : j < i := by omega
    rw [hg i hi, hg j hj, sameUnordered_symm]
    exact hp j i hj hi hji

theorem other_spec (g : Graph) (i v : Nat) (hiv : Incident g i v) :
    ((g.edge i).frm = v ∧ (g.edge i).toN = otherEnd g i v) ∨
    ((g.edge i).toN = v ∧ (g.edge i).frm = otherEnd g i v) := by
  rw [otherEnd]
  by_cases h : (g.edge i).frm = v
  · rw [if_pos h]
    exact Or.inl ⟨h, rfl⟩
  · rcases hiv with h2 | h2
    · exact absurd h2 h
    · rw [if_neg h]
      exact Or.inr ⟨h2, rfl⟩

theorem wf_other_ne (g : Graph) (h : WellFormed g = true) (v i j : Nat)
    (hi : i < g.edges.length) (hj : j < g.edges.length) (hne : i ≠ j)
    (hiv : Incident g i v) (hjv : Incident g j v) :
    otherEnd g i v ≠ otherEnd g j v := by
  intro heq
  have hd := wf_distinct_pairs g h i j hi hj hne
  have hsu : sameUnordered (g.edge i) (g.edge j) = true := by
    rw [sameUnordered_eq_true_iff]
    rcases other_spec g i v hiv with ⟨a1, b1⟩ | ⟨a1, b1⟩ <;>
      rcases other_spec g j v hjv with ⟨a2, b2⟩ | ⟨a2, b2⟩
    · exact Or.inl ⟨a1.trans a2.symm, b1.trans (heq.trans b2.symm)⟩
    · exact Or.inr ⟨a1.trans a2.symm, b1.trans (heq.trans b2.symm)⟩
    · exact Or.inr ⟨b1.trans (heq.trans b2.symm), a1.trans a2.symm⟩
    · exact Or.inl ⟨b1.trans (heq.trans b2.symm), a1.trans a2.symm⟩
  rw [hd] at hsu
  cases hsu

theorem greedyGo_valid (g : Graph) :
    ∀ (l : List (Nat × Edge)) (used : List Nat),
      (∀ p ∈ l, (p : Nat × Edge).1 < g.edges.length ∧
        (g.edge p.1).frm = p.2.frm ∧ (g.edge p.1).toN = p.2.toN ∧
        (g.edge p.1).frm ≠ (g.edge p.1).toN) →
      (∀ i ∈ greedyGo used l, i < g.edges.length) ∧
      (matchingEndpoints g (greedyGo used l)).Nodup ∧
      (∀ x ∈ matchingEndpoints g (greedyGo used l), x ∉ used) := by
  intro l
  induction l with
  | nil =>
    intro used _
    refine ⟨by simp [greedyGo], by simp [greedyGo, matchingEndpoints], by simp [greedyGo, matchingEndpoints]⟩
  | cons p rest ih =>
    intro used hfacts
    obtain ⟨i, e⟩ := p
    have hih := fun u => ih u (fun q hq => hfacts q (by simp [hq]))
    obtain ⟨hlt, hfrm, htoN, hneq⟩ := hfacts (i, e) (by simp)
    rw [greedyGo]
    by_cases h1 : e.frm ∈ used
    · rw [if_pos h1]
      exact hih used
    · rw [if_neg h1]
      by_cases h2 : e.toN ∈ used
      · rw [if_pos h2]
        exact hih used
      · rw [if_neg h2]
        obtain ⟨ih1, ih2, ih3⟩ := hih (e.frm :: e.toN :: used)
        have hme : matchingEndpoints g (i :: greedyGo (e.frm :: e.toN :: used) rest)
            = (g.edge i).frm :: (g.edge i).toN :: matchingEndpoints g (greedyGo (e.frm :: e.toN :: used) rest) := rfl
        refine ⟨?_, ?_, ?_⟩
        · intro j hj
          rcases List.mem_cons.mp hj with rfl | hj'
          · exact hlt
          · exact ih1 j hj'
        · rw [hme, List.nodup_cons, List.nodup_cons]
          refine ⟨?_, ?_, ih2⟩
          · intro hmem
            rcases List.mem_cons.mp hmem with heq | hmem'
            · exact hneq heq
            · have := ih3 _ hmem'
              rw [hfrm] at this
              exact this (by simp)
          · intro hmem
            have := ih3 _ hmem
            rw [htoN] at this
            exact this (by simp)
        · intro x hx
          rw [hme] at hx
          rcases List.mem_cons.mp hx with rfl | hx'
          · rw [hfrm]; exact h1
          · rcases List.mem_cons.mp hx' with rfl | hx2
            · rw [htoN]; exact h2
            · have := ih3 x hx2
              intro hxu
              exact this (by simp [hxu])

/-- `GreedyMatcher` returns a valid matching on well-formed inputs. -/
theorem greedy_valid (g : Graph) (h : WellFormed g = true) :
    ValidMatching g (greedy g) := by
  rw [greedy]
  have hfacts : ∀ p ∈ sortByWeightDesc (indexedEdges g), (p : Nat × Edge).1 < g.edges.length ∧
      (g.edge p.1).frm = p.2.frm ∧ (g.edge p.1).toN = p.2.toN ∧
      (g.edge p.1).frm ≠ (g.edge p.1).toN := by
    intro p hp
    have hmem : p ∈ indexedEdges g := (sortByWeightDesc_perm _).mem_iff.mp hp
    rw [indexedEdges, List.mem_enum_iff_getElem?] at hmem
    have hlt : p.1 < g.edges.length := by
      by_contra hge
      rw [List.getElem?_eq_none (by omega)] at hmem
      cases hmem
    have hedge : g.edge p.1 = p.2 := by
      rw [List.getElem?_eq_getElem hlt] at hmem
      injection hmem with h2
      rw [Graph.edge, List.getD_eq_getElem g.edges _ hlt, h2]
    refine ⟨hlt, by rw [hedge], by rw [hedge], (wf_edge_facts g h p.1 hlt).2.2.1⟩
  obtain ⟨h1, h2, _⟩ := greedyGo_valid g (sortByWeightDesc (indexedEdges g)) [] hfacts
  exact ⟨h1, h2⟩

-- adjacency map helper lemmas

theorem mem_adjKeys_iff (adj : AdjMap) (v : Nat) :
    v ∈ adjKeys adj ↔ ∃ l, (v, l) ∈ adj := by
  rw [adjKeys, List.mem_map]
  constructor
  · rintro ⟨⟨a, l⟩, hm, rfl⟩
    exact ⟨l, hm⟩
  · rintro ⟨l, hm⟩
    exact ⟨(v, l), hm, rfl⟩

theorem adjLookup_mem (adj : AdjMap) (v : Nat) (l : List Nat)
    (h : adjLookup adj v = some l) : (v, l) ∈ adj := by
  rw [adjLookup] at h
  rcases hf : adj.find? (fun p => p.1 = v) with _ | p
  · rw [hf] at h; cases h
  · rw [hf] at h
    injection h with h
    have hm := List.mem_of_find?_eq_some hf
    have hp := List.find?_some hf
    simp only [decide_eq_true_eq] at hp
    obtain ⟨a, b⟩ := p
    simp only at hp h
    subst hp h
    exact hm

theorem adjLookup_isSome (adj : AdjMap) (v : Nat) :
    (adjLookup adj v).isSome = true ↔ v ∈ adjKeys adj := by
  rw [adjLookup]
  constructor
  · intro h
    rcases hf : adj.find? (fun p => p.1 = v) with _ | p
    · rw [hf] at h; cases h
    · have hm := List.mem_of_find?_eq_some hf
      have hp := List.find?_some hf
      simp only [decide_eq_true_eq] at hp
      rw [mem_adjKeys_iff]
      obtain ⟨a, b⟩ := p
      simp only at hp
      subst hp
      exact ⟨b, hm⟩
  · intro h
    rw [mem_adjKeys_iff] at h
    obtain ⟨l, hm⟩ := h
    rcases hf : adj.find? (fun p => p.1 = v) with _ | p
    · exfalso
      have := List.find?_eq_none.mp hf (v, l) hm
      simp at this
    · rw [hf]; rfl

theorem adjLookup_eq_of_mem (adj : AdjMap) (hk : (adjKeys adj).Nodup) (v : Nat) (l : List Nat)
    (h : (v, l) ∈ adj) : adjLookup adj v = some l := by
  rcases hf : adjLookup adj v with _ | l2
  · exfalso
    have : (adjLookup adj v).isSome = true := by
      rw [adjLookup_isSome, mem_adjKeys_iff]
      exact ⟨l, h⟩
    rw [hf] at this
    cases this
  · have h2 := adjLookup_mem adj v l2 hf
    -- two entries with the same key and nodup keys: equal
    have : l = l2 := by
      by_contra hne
      have hne2 : (v, l) ≠ (v, l2) := by
        intro hcon
        injection hcon with _ h2'
        exact hne h2'
      obtain ⟨pre1, suf1, hsplit⟩ := List.append_of_mem h
      rw [hsplit] at h2 hk
      rw [adjKeys, List.map_append, List.map_cons] at hk
      rcases List.mem_append.mp h2 with hin | hin
      · have := (List.nodup_append.mp hk).2.2
        exact this (List.mem_map_of_mem Prod.fst hin) (by simp)
      · rcases List.mem_cons.mp hin with heq | hin'
        · exact hne2 heq.symm
        · have := (List.nodup_append.mp hk).2.1
          rw [List.nodup_cons] at this
          exact this.1 (by simpa using List.mem_map_of_mem Prod.fst hin')
    rw [this]

theorem adjDelete_mem (adj : AdjMap) (v : Nat) (p : Nat × List Nat) :
    p ∈ adjDelete adj v ↔ p ∈ adj ∧ p.1 ≠ v := by
  rw [adjDelete, List.mem_filter]
  simp

theorem adjDelete_keys (adj : AdjMap) (v x : Nat) :
    x ∈ adjKeys (adjDelete adj v) ↔ x ∈ adjKeys adj ∧ x ≠ v := by
  rw [mem_adjKeys_iff, mem_adjKeys_iff]
  constructor
  · rintro ⟨l, hm⟩
    rw [adjDelete_mem] at hm
    exact ⟨⟨l, hm.1⟩, hm.2⟩
  · rintro ⟨⟨l, hm⟩, hx⟩
    exact ⟨l, (adjDelete_mem adj v (x, l)).mpr ⟨hm, hx⟩⟩

theorem adjDelete_keys_sublist (adj : AdjMap) (v : Nat) :
    List.Sublist (adjKeys (adjDelete adj v)) (adjKeys adj) := by
  rw [adjKeys, adjKeys, adjDelete]
  exact (List.filter_sublist adj).map Prod.fst

theorem adjUpdate_keys (adj : AdjMap) (v : Nat) (l : List Nat) :
    adjKeys (adjUpdate adj v l) = adjKeys adj := by
  rw [adjKeys, adjKeys, adjUpdate, List.map_map]
  congr 1
  funext p
  by_cases h : p.1 = v <;> simp [h]

theorem adjUpdate_mem (adj : AdjMap) (v : Nat) (l : List Nat) (p : Nat × List Nat)
    (hp : p ∈ adjUpdate adj v l) :
    (p ∈ adj ∧ p.1 ≠ v) ∨ (p.1 = v ∧ p.2 = l ∧ ∃ old, (v, old) ∈ adj) := by
  rw [adjUpdate, List.mem_map] at hp
  obtain ⟨q, hq, hqe⟩ := hp
  by_cases h : q.1 = v
  · rw [if_pos h] at hqe
    right
    refine ⟨by rw [← hqe]; exact h, by rw [← hqe], ⟨q.2, ?_⟩⟩
    rw [← h]
    exact hq
  · rw [if_neg h] at hqe
    left
    rw [← hqe]
    exact ⟨hq, h⟩

theorem adjUpdate_mem_self (adj : AdjMap) (v : Nat)
    (old l : List Nat) (h : (v, old) ∈ adj) : (v, l) ∈ adjUpdate adj v l := by
  rw [adjUpdate, List.mem_map]
  exact ⟨(v, old), h, by simp⟩

theorem removeFirst_sublist (i : Nat) (l : List Nat) : List.Sublist (removeFirst i l) l := by
  induction l with
  | nil => simp [removeFirst]
  | cons j js ih =>
    rw [removeFirst]
    by_cases h : j = i
    · rw [if_pos h]
      exact (List.sublist_cons_self j js)
    · rw [if_neg h]
      exact ih.cons₂ j

theorem removeFirst_not_mem (i : Nat) (l : List Nat) (hnd : l.Nodup) :
    i ∉ removeFirst i l := by
  induction l with
  | nil => simp [removeFirst]
  | cons j js ih =>
    rw [removeFirst]
    rw [List.nodup_cons] at hnd
    by_cases h : j = i
    · rw [if_pos h]
      rw [← h]
      exact hnd.1
    · rw [if_neg h]
      intro hmem
      rcases List.mem_cons.mp hmem with heq | hmem'
      · exact h heq.symm
      · exact ih hnd.2 hmem'

theorem removeFirst_mem_of_ne (i j : Nat) (l : List Nat) (hne : j ≠ i) (hj : j ∈ l) :
    j ∈ removeFirst i l := by
  induction l with
  | nil => cases hj
  | cons x xs ih =>
    rw [removeFirst]
    by_cases h : x = i
    · rw [if_pos h]
      rcases List.mem_cons.mp hj with rfl | hj'
      · exact absurd h hne
      · exact hj'
    · rw [if_neg h]
      rcases List.mem_cons.mp hj with rfl | hj'
      · simp
      · exact List.mem_cons_of_mem _ (ih hj')

theorem reduceHeaviest_mem (g : Graph) :
    ∀ (l : List Nat) (acc : Nat), reduceHeaviest g acc l ∈ acc :: l := by
  intro l
  induction l with
  | nil => intro acc; simp [reduceHeaviest]
  | cons j js ih =>
    intro acc
    rw [reduceHeaviest]
    by_cases h : (g.edge acc).weight > (g.edge j).weight
    · rw [if_pos h]
      have := ih acc
      rcases List.mem_cons.mp this with heq | hmem
      · rw [heq]; simp
      · exact List.mem_cons_of_mem _ (List.mem_cons_of_mem _ hmem)
    · rw [if_neg h]
      have := ih j
      rcases List.mem_cons.mp this with heq | hmem
      · rw [heq]; simp
      · exact List.mem_cons_of_mem _ (List.mem_cons_of_mem _ hmem)

theorem otherEnd_ne_self (g : Graph) (i v : Nat) (hne : (g.edge i).frm ≠ (g.edge i).toN)
    (hiv : Incident g i v) : otherEnd g i v ≠ v := by
  rcases other_spec g i v hiv with ⟨a, b⟩ | ⟨a, b⟩
  · rw [← b, ← a]
    exact fun hcon => hne hcon.symm
  · rw [← b, ← a]
    exact hne

theorem incident_other_eq (g : Graph) (i cur x : Nat) (hic : Incident g i cur)
    (hix : Incident g i x) (hne : x ≠ cur) : x = otherEnd g i cur := by
  rw [otherEnd]
  by_cases h : (g.edge i).frm = cur
  · rw [if_pos h]
    rcases hix with h2 | h2
    · exact absurd (h2.symm.trans h) hne
    · exact h2.symm
  · rw [if_neg h]
    rcases hic with h2 | h2
    · exact absurd h2 h
    · rcases hix with h3 | h3
      · exact h3.symm
      · exact absurd (h3.symm.trans h2) hne

theorem pgPurge_post (g : Graph) (cur : Nat) :
    ∀ (dep : List Nat) (adjC adj2 : AdjMap),
      pgPurge g cur adjC dep = .ok adj2 →
      PurgeInv g cur adjC dep →
      AdjInv g adj2 ∧ (∀ x ∈ adjKeys adj2, x ∈ adjKeys adjC) ∧ cur ∉ adjKeys adj2 := by
  intro dep
  induction dep with
  | nil =>
    intro adjC adj2 hok hinv
    rw [pgPurge] at hok
    injection hok with hok
    subst hok
    obtain ⟨h1, h2, h3, h4, h5, _, _, _⟩ := hinv
    refine ⟨⟨h1, h3, ?_, h5⟩, fun x hx => hx, h2⟩
    intro p hp i hi
    obtain ⟨ha, hb, hc⟩ := h4 p hp i hi
    rcases hc with hc | hc
    · exact ⟨ha, hb, hc⟩
    · exact absurd hc.2 (by simp)
  | cons i rest ih =>
    intro adjC adj2 hok hinv
    obtain ⟨h1, h2, h3, h4, h5, h6, h7, h8⟩ := hinv
    simp only [pgPurge] at hok
    rw [show (if (g.edge i).frm = cur then (g.edge i).toN else (g.edge i).frm)
      = otherEnd g i cur from rfl] at hok
    rcases hlk : adjLookup adjC (otherEnd g i cur) with _ | od
    · -- other endpoint no longer present
      rw [hlk] at hok
      have hnotin : otherEnd g i cur ∉ adjKeys adjC := by
        intro hcon
        have := (adjLookup_isSome adjC (otherEnd g i cur)).mpr hcon
        rw [hlk] at this
        cases this
      refine ih adjC adj2 hok ⟨h1, h2, h3, ?_, h5, ?_, ?_, ?_⟩
      · intro p hp j hj
        obtain ⟨ha, hb, hc⟩ := h4 p hp j hj
        refine ⟨ha, hb, ?_⟩
        rcases hc with hc | ⟨hc1, hc2⟩
        · exact Or.inl hc
        · rcases List.mem_cons.mp hc2 with rfl | hc3
          · exfalso
            have hpo := h8 p hp j (by simp) hj
            have hpk : (p : Nat × List Nat).1 ∈ adjKeys adjC := List.mem_map_of_mem Prod.fst hp
            rw [hpo] at hpk
            exact hnotin hpk
          · exact Or.inr ⟨hc1, hc3⟩
      · exact fun j hj => h6 j (by simp [hj])
      · rw [List.map_cons, List.nodup_cons] at h7
        exact h7.2
      · exact fun p hp j hj => h8 p hp j (by simp [hj])
    · -- the other endpoint still has an entry `od`
      rw [hlk] at hok
      have hmem_od : (otherEnd g i cur, od) ∈ adjC := adjLookup_mem _ _ _ hlk
      have hod_nodup : od.Nodup := h3 (otherEnd g i cur, od) hmem_od
      replace hok : (if od.length = 1 then
          if od.headD 0 = i then pgPurge g cur (adjDelete adjC (otherEnd g i cur)) rest
          else Except.error MatchErr.assertFailed
        else
          if i ∈ od then pgPurge g cur (adjUpdate adjC (otherEnd g i cur) (removeFirst i od)) rest
          else Except.error MatchErr.assertFailed) = Except.ok adj2 := hok
      by_cases hlen : od.length = 1
      · rw [if_pos hlen] at hok
        by_cases hhd : od.headD 0 = i
        · rw [if_pos hhd] at hok
          have hod_eq : od = [i] := by
            rcases od with _ | ⟨x, xs⟩
            · simp at hlen
            · rcases xs with _ | ⟨y, ys⟩
              · rw [List.headD_cons] at hhd
                rw [hhd]
              · rw [List.length_cons, List.length_cons] at hlen
                omega
          subst hod_eq
          have hsub := adjDelete_keys_sublist adjC (otherEnd g i cur)
          have hinv2 : PurgeInv g cur (adjDelete adjC (otherEnd g i cur)) rest := by
            refine ⟨h1.sublist hsub, fun hcon => h2 (hsub.subset hcon), ?_, ?_, ?_, ?_, ?_, ?_⟩
            · intro p hp
              exact h3 p ((adjDelete_mem _ _ p).mp hp).1
            · intro p hp j hj
              obtain ⟨hpA, hpne⟩ := (adjDelete_mem _ _ p).mp hp
              obtain ⟨ha, hb, hc⟩ := h4 p hpA j hj
              refine ⟨ha, hb, ?_⟩
              rcases hc with hc | ⟨hc1, hc2⟩
              · by_cases ho : otherEnd g j (p : Nat × List Nat).1 = otherEnd g i cur
                · exfalso
                  have hjod := h5 p hpA (otherEnd g i cur, [i]) hmem_od j hj ho
                  have hjod2 : j = i := by
                    have hjod3 : j ∈ [i] := hjod
                    simpa using hjod3
                  subst hjod2
                  exact hpne (h8 p hpA _ (by simp) hj)
                · exact Or.inl ((adjDelete_keys _ _ _).mpr ⟨hc, ho⟩)
              · rcases List.mem_cons.mp hc2 with heq | hc3
                · subst heq
                  exact absurd (h8 p hpA _ (by simp) hj) hpne
                · exact Or.inr ⟨hc1, hc3⟩
            · intro p hp q hq j hj heq
              exact h5 p ((adjDelete_mem _ _ p).mp hp).1 q ((adjDelete_mem _ _ q).mp hq).1 j hj heq
            · exact fun j hj => h6 j (by simp [hj])
            · rw [List.map_cons, List.nodup_cons] at h7
              exact h7.2
            · intro p hp j hj
              exact h8 p ((adjDelete_mem _ _ p).mp hp).1 j (by simp [hj])
          have hrec := ih (adjDelete adjC (otherEnd g i cur)) adj2 hok hinv2
          exact ⟨hrec.1, fun x hx => hsub.subset (hrec.2.1 x hx), hrec.2.2⟩
        · rw [if_neg hhd] at hok
          cases hok
      · rw [if_neg hlen] at hok
        by_cases hiod : i ∈ od
        · rw [if_pos hiod] at hok
          have hkeq := adjUpdate_keys adjC (otherEnd g i cur) (removeFirst i od)
          have hfromold : ∀ p : Nat × List Nat,
              p ∈ adjUpdate adjC (otherEnd g i cur) (removeFirst i od) →
              (p ∈ adjC ∧ p.1 ≠ otherEnd g i cur) ∨
              (p.1 = otherEnd g i cur ∧ p.2 = removeFirst i od) := by
            intro p hp
            rcases adjUpdate_mem adjC _ _ p hp with ⟨hpA, hpne⟩ | ⟨hpe, hpl, _⟩
            · exact Or.inl ⟨hpA, hpne⟩
            · exact Or.inr ⟨hpe, hpl⟩
          have hPtoOld : ∀ p : Nat × List Nat,
              p ∈ adjUpdate adjC (otherEnd g i cur) (removeFirst i od) →
              ∀ j ∈ p.2, j ≠ i ∧ ∃ pl, (p.1, pl) ∈ adjC ∧ j ∈ pl := by
            intro p hp j hj
            rcases hfromold p hp with ⟨hpA, hpne⟩ | ⟨hpe, hpl⟩
            · refine ⟨?_, p.2, hpA, hj⟩
              intro hji
              subst hji
              exact hpne (h8 p hpA _ (by simp) hj)
            · rw [hpl] at hj
              refine ⟨?_, od, by rw [hpe]; exact hmem_od, (removeFirst_sublist i od).subset hj⟩
              intro hji
              subst hji
              exact removeFirst_not_mem _ od hod_nodup hj
          have hOldToNew : ∀ q : Nat × List Nat,
              q ∈ adjUpdate adjC (otherEnd g i cur) (removeFirst i od) →
              ∀ ql, (q.1, ql) ∈ adjC → ∀ j ∈ ql, j ≠ i → j ∈ q.2 := by
            intro q hq ql hql j hjql hjne
            rcases hfromold q hq with ⟨hqA, hqne⟩ | ⟨hqe, hqel⟩
            · have he1 := adjLookup_eq_of_mem adjC h1 q.1 ql hql
              have he2 := adjLookup_eq_of_mem adjC h1 q.1 q.2 hqA
              rw [he1] at he2
              injection he2 with he2
              rw [← he2]
              exact hjql
            · have he1 := adjLookup_eq_of_mem adjC h1 q.1 ql hql
              have he2 : adjLookup adjC q.1 = some od := by
                rw [hqe]
                exact adjLookup_eq_of_mem adjC h1 _ od hmem_od
              rw [he1] at he2
              injection he2 with he2
              rw [hqel]
              exact removeFirst_mem_of_ne i j od hjne (he2 ▸ hjql)
          have hinv2 : PurgeInv g cur (adjUpdate adjC (otherEnd g i cur) (removeFirst i od)) rest := by
            refine ⟨by rw [hkeq]; exact h1, by rw [hkeq]; exact h2, ?_, ?_, ?_, ?_, ?_, ?_⟩
            · intro p hp
              rcases hfromold p hp with ⟨hpA, _⟩ | ⟨_, hpl⟩
              · exact h3 p hpA
              · rw [hpl]
                exact hod_nodup.sublist (removeFirst_sublist i od)
            · intro p hp j hj
              obtain ⟨hjne, pl, hpl_mem, hjpl⟩ := hPtoOld p hp j hj
              obtain ⟨ha, hb, hc⟩ := h4 (p.1, pl) hpl_mem j hjpl
              refine ⟨ha, hb, ?_⟩
              rcases hc with hc | ⟨hc1, hc2⟩
              · rw [hkeq]
                exact Or.inl hc
              · rcases List.mem_cons.mp hc2 with heq | hc3
                · exact absurd heq hjne
                · exact Or.inr ⟨hc1, hc3⟩
            · intro p hp q hq j hj heq
              obtain ⟨hjne, pl, hpl_mem, hjpl⟩ := hPtoOld p hp j hj
              have hqkey : (q : Nat × List Nat).1 ∈ adjKeys adjC := by
                rw [← hkeq]
                exact List.mem_map_of_mem Prod.fst hq
              obtain ⟨ql, hql⟩ := (mem_adjKeys_iff adjC _).mp hqkey
              have hjq : j ∈ ql := h5 (p.1, pl) hpl_mem ((q : Nat × List Nat).1, ql) hql j hjpl heq
              exact hOldToNew q hq ql hql j hjq hjne
            · exact fun j hj => h6 j (by simp [hj])
            · rw [List.map_cons, List.nodup_cons] at h7
              exact h7.2
            · intro p hp j hj hjm
              obtain ⟨hjne2, pl, hpl_mem, hjpl⟩ := hPtoOld p hp _ hjm
              exact h8 (p.1, pl) hpl_mem j (by simp [hj]) hjpl
          have hrec := ih (adjUpdate adjC (otherEnd g i cur) (removeFirst i od)) adj2 hok hinv2
          refine ⟨hrec.1, ?_, hrec.2.2⟩
          intro x hx
          have hxk := hrec.2.1 x hx
          rw [hkeq] at hxk
          exact hxk
        · rw [if_neg hiod] at hok
          cases hok

theorem others_nodup (g : Graph) (hwf : WellFormed g = true) (cur : Nat)
    (dep : List Nat) (hnd : dep.Nodup)
    (hfacts : ∀ i ∈ dep, i < g.edges.length ∧ Incident g i cur) :
    (dep.map (fun i => otherEnd g i cur)).Nodup := by
  refine List.Nodup.map_on ?_ hnd
  intro x hx y hy heq
  by_contra hne
  exact wf_other_ne g hwf cur x y (hfacts x hx).1 (hfacts y hy).1 hne
    (hfacts x hx).2 (hfacts y hy).2 heq

theorem validMatching_append_edge (g : Graph) (s : List Nat) (i : Nat)
    (hv : ValidMatching g s) (hi : i < g.edges.length)
    (hf : (g.edge i).frm ∉ matchingEndpoints g s)
    (ht : (g.edge i).toN ∉ matchingEndpoints g s)
    (hne : (g.edge i).frm ≠ (g.edge i).toN) :
    ValidMatching g (s ++ [i]) := by
  obtain ⟨hv1, hv2⟩ := hv
  have hm1 : matchingEndpoints g [i] = [(g.edge i).frm, (g.edge i).toN] := by
    simp [matchingEndpoints]
  constructor
  · intro j hj
    rcases List.mem_append.mp hj with hj | hj
    · exact hv1 j hj
    · rw [List.mem_singleton] at hj
      subst hj
      exact hi
  · rw [matchingEndpoints_append, hm1, List.nodup_append]
    refine ⟨hv2, by simp [hne], ?_⟩
    intro a ha hab
    rcases List.mem_cons.mp hab with heq | hab
    · subst heq
      exact hf ha
    · rw [List.mem_singleton] at hab
      subst hab
      exact ht ha

theorem walkStep_sep (g : Graph) (hwf : WellFormed g = true)
    (adj adjP : AdjMap) (s1 s2 : List Nat) (cur ei : Nat)
    (hws : WalkSep g adj s1 s2 cur)
    (hlt : ei < g.edges.length) (hinc : Incident g ei cur)
    (hkeynxt : otherEnd g ei cur ∈ adjKeys adj)
    (hsubP : ∀ x ∈ adjKeys adjP, x ∈ adjKeys adj)
    (hcurP : cur ∉ adjKeys adjP) :
    WalkSep g adjP (pgAssign s1 s2 ei).1 (pgAssign s1 s2 ei).2 (otherEnd g ei cur) := by
  obtain ⟨w1, w2, w3, w4, w5, w6, w7⟩ := hws
  have hne := (wf_edge_facts g hwf ei hlt).2.2.1
  have hnxt_ne_cur : otherEnd g ei cur ≠ cur := otherEnd_ne_self g ei cur hne hinc
  have hnxt_not_old : otherEnd g ei cur ∉ matchingEndpoints g (s1 ++ s2) := by
    intro hmem
    exact hnxt_ne_cur (w5 _ hmem hkeynxt)
  have hnxt_not_s1 : otherEnd g ei cur ∉ matchingEndpoints g s1 := by
    intro hmem
    exact hnxt_not_old (by rw [matchingEndpoints_append]; exact List.mem_append_left _ hmem)
  have hnxt_not_s2 : otherEnd g ei cur ∉ matchingEndpoints g s2 := by
    intro hmem
    exact hnxt_not_old (by rw [matchingEndpoints_append]; exact List.mem_append_right _ hmem)
  have hold_not_P : ∀ x ∈ matchingEndpoints g (s1 ++ s2), x ∉ adjKeys adjP := by
    intro x hx hxP
    have hxc := w5 x hx (hsubP x hxP)
    subst hxc
    exact hcurP hxP
  have hends : matchingEndpoints g [ei] = [(g.edge ei).frm, (g.edge ei).toN] := by
    simp [matchingEndpoints]
  have hepair : ∀ x ∈ matchingEndpoints g [ei], x = cur ∨ x = otherEnd g ei cur := by
    intro x hx
    rw [hends] at hx
    rcases List.mem_cons.mp hx with heq | hx2
    · subst heq
      rcases other_spec g ei cur hinc with ⟨a, _⟩ | ⟨_, b⟩
      · exact Or.inl a
      · exact Or.inr b
    · rw [List.mem_singleton] at hx2
      subst hx2
      rcases other_spec g ei cur hinc with ⟨_, b⟩ | ⟨a, _⟩
      · exact Or.inr b
      · exact Or.inl a
  by_cases hlen : s1.length < s2.length
  · have hassign : pgAssign s1 s2 ei = (s1 ++ [ei], s2) := by
      rw [pgAssign, if_pos hlen]
    rw [hassign]
    have hs2len : s2.length = s1.length + 1 := by omega
    have hcur_not_s1 : cur ∉ matchingEndpoints g s1 := w6 hs2len
    have hei_not_s1 : ∀ x ∈ matchingEndpoints g [ei], x ∉ matchingEndpoints g s1 := by
      intro x hx
      rcases hepair x hx with heq | heq
      · subst heq
        exact hcur_not_s1
      · subst heq
        exact hnxt_not_s1
    refine ⟨?_, w2, by simp; omega, by simp; omega, ?_, ?_, ?_⟩
    · refine validMatching_append_edge g s1 ei w1 hlt ?_ ?_ hne
      · exact hei_not_s1 _ (by rw [hends]; simp)
      · exact hei_not_s1 _ (by rw [hends]; simp)
    · intro x hx hxP
      rw [matchingEndpoints_append, matchingEndpoints_append] at hx
      rcases List.mem_append.mp hx with hx1 | hx2
      · rcases List.mem_append.mp hx1 with hx1a | hx1b
        · exact absurd hxP (hold_not_P x
            (by rw [matchingEndpoints_append]; exact List.mem_append_left _ hx1a))
        · rcases hepair x hx1b with heq | heq
          · subst heq
            exact absurd hxP hcurP
          · exact heq
      · exact absurd hxP (hold_not_P x
          (by rw [matchingEndpoints_append]; exact List.mem_append_right _ hx2))
    · intro hcon
      exfalso
      rw [List.length_append] at hcon
      simp at hcon
      omega
    · intro _
      exact hnxt_not_s2
  · have hlen2 : s1.length = s2.length := by omega
    have hassign : pgAssign s1 s2 ei = (s1, s2 ++ [ei]) := by
      rw [pgAssign, if_neg hlen]
    rw [hassign]
    have hcur_not_s2 : cur ∉ matchingEndpoints g s2 := w7 hlen2
    have hei_not_s2 : ∀ x ∈ matchingEndpoints g [ei], x ∉ matchingEndpoints g s2 := by
      intro x hx
      rcases hepair x hx with heq | heq
      · subst heq
        exact hcur_not_s2
      · subst heq
        exact hnxt_not_s2
    refine ⟨w1, ?_, by simp; omega, by simp; omega, ?_, ?_, ?_⟩
    · refine validMatching_append_edge g s2 ei w2 hlt ?_ ?_ hne
      · exact hei_not_s2 _ (by rw [hends]; simp)
      · exact hei_not_s2 _ (by rw [hends]; simp)
    · intro x hx hxP
      rw [matchingEndpoints_append, matchingEndpoints_append] at hx
      rcases List.mem_append.mp hx with hx1 | hx2
      · exact absurd hxP (hold_not_P x
          (by rw [matchingEndpoints_append]; exact List.mem_append_left _ hx1))
      · rcases List.mem_append.mp hx2 with hx2a | hx2b
        · exact absurd hxP (hold_not_P x
            (by rw [matchingEndpoints_append]; exact List.mem_append_right _ hx2a))
        · rcases hepair x hx2b with heq | heq
          · subst heq
            exact absurd hxP hcurP
          · exact heq
    · intro _
      exact hnxt_not_s1
    · intro hcon
      exfalso
      rw [List.length_append] at hcon
      simp at hcon
      omega

theorem pgWalk_post (g : Graph) (hwf : WellFormed g = true) :
    ∀ (fuel : Nat) (adj : AdjMap) (s1 s2 : List Nat) (cur : Nat)
      (adjF : AdjMap) (t1 t2 : List Nat),
      pgWalk g fuel adj s1 s2 cur = .ok (adjF, t1, t2) →
      AdjInv g adj →
      WalkSep g adj s1 s2 cur →
      AdjInv g adjF ∧ ValidMatching g t1 ∧ ValidMatching g t2 ∧
      t1.length ≤ t2.length ∧ t2.length ≤ t1.length + 1 ∧
      (∀ x ∈ matchingEndpoints g (t1 ++ t2), x ∉ adjKeys adjF) := by
  intro fuel
  induction fuel with
  | zero =>
    intro adj s1 s2 cur adjF t1 t2 hok
    rw [pgWalk] at hok
    cases hok
  | succ fuel ih =>
    intro adj s1 s2 cur adjF t1 t2 hok hai hws
    rw [pgWalk] at hok
    rcases hlk : adjLookup adj cur with _ | dep
    · rw [hlk] at hok
      replace hok : (Except.error MatchErr.undefinedAccess :
          Except MatchErr (AdjMap × List Nat × List Nat)) = Except.ok (adjF, t1, t2) := hok
      cases hok
    · rw [hlk] at hok
      rcases dep with _ | ⟨d, ds⟩
      · replace hok : (Except.error MatchErr.undefinedAccess :
            Except MatchErr (AdjMap × List Nat × List Nat)) = Except.ok (adjF, t1, t2) := hok
        cases hok
      · replace hok : (match pgPurge g cur (adjDelete adj cur) (d :: ds) with
          | .error err => (Except.error err : Except MatchErr (AdjMap × List Nat × List Nat))
          | .ok adjP =>
            if (adjLookup adjP (otherEnd g (reduceHeaviest g d ds) cur)).isSome then
              pgWalk g fuel adjP (pgAssign s1 s2 (reduceHeaviest g d ds)).1
                (pgAssign s1 s2 (reduceHeaviest g d ds)).2
                (otherEnd g (reduceHeaviest g d ds) cur)
            else Except.ok (adjP, (pgAssign s1 s2 (reduceHeaviest g d ds)).1,
              (pgAssign s1 s2 (reduceHeaviest g d ds)).2)) = Except.ok (adjF, t1, t2) := hok
        rcases hpg : pgPurge g cur (adjDelete adj cur) (d :: ds) with err | adjP
        · rw [hpg] at hok
          replace hok : (Except.error err :
              Except MatchErr (AdjMap × List Nat × List Nat)) = Except.ok (adjF, t1, t2) := hok
          cases hok
        · rw [hpg] at hok
          replace hok : (if (adjLookup adjP (otherEnd g (reduceHeaviest g d ds) cur)).isSome then
              pgWalk g fuel adjP (pgAssign s1 s2 (reduceHeaviest g d ds)).1
                (pgAssign s1 s2 (reduceHeaviest g d ds)).2
                (otherEnd g (reduceHeaviest g d ds) cur)
            else Except.ok (adjP, (pgAssign s1 s2 (reduceHeaviest g d ds)).1,
              (pgAssign s1 s2 (reduceHeaviest g d ds)).2)) = Except.ok (adjF, t1, t2) := hok
          obtain ⟨a1, a2, a3, a4⟩ := hai
          have hmem_cur : (cur, d :: ds) ∈ adj := adjLookup_mem _ _ _ hlk
          have hhm : reduceHeaviest g d ds ∈ d :: ds := reduceHeaviest_mem g ds d
          obtain ⟨hlt, hinc, hkeynxt⟩ := a3 (cur, d :: ds) hmem_cur _ hhm
          have hpi : PurgeInv g cur (adjDelete adj cur) (d :: ds) := by
            refine ⟨a1.sublist (adjDelete_keys_sublist adj cur), ?_, ?_, ?_, ?_, ?_, ?_, ?_⟩
            · intro hcon
              exact ((adjDelete_keys adj cur cur).mp hcon).2 rfl
            · intro p hp
              exact a2 p ((adjDelete_mem _ _ p).mp hp).1
            · intro p hp j hj
              obtain ⟨hpA, hpne⟩ := (adjDelete_mem _ _ p).mp hp
              obtain ⟨ha, hb, hc⟩ := a3 p hpA j hj
              refine ⟨ha, hb, ?_⟩
              by_cases ho : otherEnd g j (p : Nat × List Nat).1 = cur
              · exact Or.inr ⟨ho, a4 p hpA (cur, d :: ds) hmem_cur j hj ho⟩
              · exact Or.inl ((adjDelete_keys _ _ _).mpr ⟨hc, ho⟩)
            · intro p hp q hq j hj heq
              exact a4 p ((adjDelete_mem _ _ p).mp hp).1 q
                ((adjDelete_mem _ _ q).mp hq).1 j hj heq
            · intro j hj
              obtain ⟨ha, hb, _⟩ := a3 (cur, d :: ds) hmem_cur j hj
              exact ⟨ha, hb⟩
            · refine others_nodup g hwf cur (d :: ds) (a2 (cur, d :: ds) hmem_cur) ?_
              intro j hj
              obtain ⟨ha, hb, _⟩ := a3 (cur, d :: ds) hmem_cur j hj
              exact ⟨ha, hb⟩
            · intro p hp j hj hjm
              obtain ⟨hpA, hpne⟩ := (adjDelete_mem _ _ p).mp hp
              obtain ⟨_, hb2, _⟩ := a3 p hpA j hjm
              obtain ⟨_, hbc, _⟩ := a3 (cur, d :: ds) hmem_cur j hj
              exact incident_other_eq g j cur (p : Nat × List Nat).1 hbc hb2 hpne
          obtain ⟨haiP, hsubP, hcurP⟩ :=
            pgPurge_post g cur (d :: ds) (adjDelete adj cur) adjP hpg hpi
          have hsubP2 : ∀ x ∈ adjKeys adjP, x ∈ adjKeys adj := by
            intro x hx
            exact ((adjDelete_keys adj cur x).mp (hsubP x hx)).1
          have hwsP : WalkSep g adjP (pgAssign s1 s2 (reduceHeaviest g d ds)).1
              (pgAssign s1 s2 (reduceHeaviest g d ds)).2
              (otherEnd g (reduceHeaviest g d ds) cur) :=
            walkStep_sep g hwf adj adjP s1 s2 cur (reduceHeaviest g d ds)
              ⟨(hws.1), hws.2.1, hws.2.2.1, hws.2.2.2.1, hws.2.2.2.2.1,
                hws.2.2.2.2.2.1, hws.2.2.2.2.2.2⟩ hlt hinc hkeynxt hsubP2 hcurP
          by_cases hnext :
              (adjLookup adjP (otherEnd g (reduceHeaviest g d ds) cur)).isSome = true
          · rw [if_pos hnext] at hok
            exact ih adjP _ _ _ adjF t1 t2 hok haiP hwsP
          · rw [if_neg hnext] at hok
            injection hok with hok
            injection hok with h1e h2e
            subst h1e
            injection h2e with h3e h4e
            subst h3e
            subst h4e
            obtain ⟨v1, v2, v3, v4, v5, v6, v7⟩ := hwsP
            refine ⟨haiP, v1, v2, v3, v4, ?_⟩
            intro x hx hxP
            have hxc := v5 x hx hxP
            subst hxc
            exact hnext ((adjLookup_isSome adjP _).mpr hxP)


theorem adjAdd_mem_of (adj : AdjMap) (v : Nat) (p : Nat × List Nat) (hp : p ∈ adj) :
    p ∈ adjAddKeyIfAbsent adj v := by
  rw [adjAddKeyIfAbsent]
  rcases h : adjLookup adj v with _ | l
  · simp only [h]
    exact List.mem_append_left _ hp
  · simp only [h]
    exact hp

theorem adjAdd_mem (adj : AdjMap) (v : Nat) (p : Nat × List Nat)
    (hp : p ∈ adjAddKeyIfAbsent adj v) : p ∈ adj ∨ p = (v, []) := by
  rw [adjAddKeyIfAbsent] at hp
  rcases h : adjLookup adj v with _ | l
  · simp only [h] at hp
    rcases List.mem_append.mp hp with h1 | h1
    · exact Or.inl h1
    · rw [List.mem_singleton] at h1
      exact Or.inr h1
  · simp only [h] at hp
    exact Or.inl hp

theorem adjAdd_keys_iff (adj : AdjMap) (v x : Nat) :
    x ∈ adjKeys (adjAddKeyIfAbsent adj v) ↔ x ∈ adjKeys adj ∨ x = v := by
  constructor
  · intro hx
    rw [mem_adjKeys_iff] at hx
    obtain ⟨l, hl⟩ := hx
    rcases adjAdd_mem adj v (x, l) hl with h1 | h1
    · exact Or.inl (List.mem_map_of_mem Prod.fst h1)
    · right
      injection h1 with h1a _
  · intro hx
    rcases hx with hx | hx
    · rw [mem_adjKeys_iff] at hx ⊢
      obtain ⟨l, hl⟩ := hx
      exact ⟨l, adjAdd_mem_of adj v (x, l) hl⟩
    · subst hx
      rw [adjAddKeyIfAbsent]
      rcases h : adjLookup adj x with _ | l
      · simp only [h]
        rw [adjKeys, List.map_append]
        exact List.mem_append_right _ (by simp)
      · simp only [h]
        rw [← adjLookup_isSome, h]
        rfl

theorem adjAdd_keys_nodup (adj : AdjMap) (v : Nat) (h : (adjKeys adj).Nodup) :
    (adjKeys (adjAddKeyIfAbsent adj v)).Nodup := by
  rw [adjAddKeyIfAbsent]
  rcases hl : adjLookup adj v with _ | l
  · simp only [hl]
    rw [adjKeys, List.map_append, List.nodup_append]
    refine ⟨h, by simp, ?_⟩
    intro a ha hab
    have hav : a = v := by simpa using hab
    subst hav
    have hsome : (adjLookup adj a).isSome = true := (adjLookup_isSome adj a).mpr ha
    rw [hl] at hsome
    cases hsome
  · simp only [hl]
    exact h

theorem adjPush_keys (adj : AdjMap) (v i : Nat) :
    adjKeys (adjPush adj v i) = adjKeys adj := by
  rw [adjKeys, adjKeys, adjPush, List.map_map]
  congr 1
  funext p
  by_cases h : p.1 = v <;> simp [h]

theorem adjPush_mem (adj : AdjMap) (v i : Nat) (p : Nat × List Nat)
    (hp : p ∈ adjPush adj v i) :
    (∃ l, (v, l) ∈ adj ∧ p = (v, l ++ [i])) ∨ (p ∈ adj ∧ (p : Nat × List Nat).1 ≠ v) := by
  rw [adjPush, List.mem_map] at hp
  obtain ⟨q, hq, hqe⟩ := hp
  by_cases h : q.1 = v
  · left
    refine ⟨q.2, ?_, ?_⟩
    · rw [← h]
      exact hq
    · rw [← hqe, if_pos h, h]
  · right
    rw [if_neg h] at hqe
    subst hqe
    exact ⟨hq, h⟩

theorem adjPush_mem_of_ne (adj : AdjMap) (v i : Nat) (p : Nat × List Nat)
    (hp : p ∈ adj) (hne : (p : Nat × List Nat).1 ≠ v) : p ∈ adjPush adj v i := by
  rw [adjPush, List.mem_map]
  exact ⟨p, hp, by rw [if_neg hne]⟩

theorem adjPush_mem_self (adj : AdjMap) (v i : Nat) (l : List Nat)
    (h : (v, l) ∈ adj) : (v, l ++ [i]) ∈ adjPush adj v i := by
  rw [adjPush, List.mem_map]
  exact ⟨(v, l), h, by simp⟩

theorem indexedEdges_mem_facts (g : Graph) (p : Nat × Edge) (hp : p ∈ indexedEdges g) :
    (p : Nat × Edge).1 < g.edges.length ∧ g.edge p.1 = p.2 := by
  rcases p with ⟨i, e⟩
  rw [indexedEdges, List.mk_mem_enum_iff_getElem?] at hp
  have hlt : i < g.edges.length := by
    by_contra hge
    rw [List.getElem?_eq_none (by omega)] at hp
    cases hp
  refine ⟨hlt, ?_⟩
  rw [List.getElem?_eq_getElem hlt] at hp
  injection hp with hp
  rw [Graph.edge, List.getD_eq_getElem g.edges _ hlt, hp]

theorem indexedEdges_fst_nodup (g : Graph) :
    ((indexedEdges g).map Prod.fst).Nodup := by
  rw [indexedEdges, List.enum_map_fst]
  exact List.nodup_range _

theorem adjAdd_mem_keyed (adj : AdjMap) (v : Nat) (p : Nat × List Nat)
    (hp : p ∈ adjAddKeyIfAbsent adj v) (hk : (p : Nat × List Nat).1 ∈ adjKeys adj) :
    p ∈ adj := by
  rw [adjAddKeyIfAbsent] at hp
  rcases h : adjLookup adj v with _ | l
  · simp only [h] at hp
    rcases List.mem_append.mp hp with h1 | h1
    · exact h1
    · exfalso
      rw [List.mem_singleton] at h1
      subst h1
      have hs : (adjLookup adj v).isSome = true := (adjLookup_isSome adj v).mpr hk
      rw [h] at hs
      cases hs
  · simp only [h] at hp
    exact hp

theorem pgFillGo_inv (g : Graph) (hwf : WellFormed g = true) :
    ∀ (rest : List (Nat × Edge)) (adj : AdjMap),
      (adjKeys adj).Nodup →
      (∀ p ∈ adj, (p : Nat × List Nat).2.Nodup) →
      (∀ p ∈ adj, ∀ j ∈ (p : Nat × List Nat).2,
        j < g.edges.length ∧ Incident g j p.1 ∧ otherEnd g j p.1 ∈ adjKeys adj) →
      (∀ p ∈ adj, ∀ q ∈ adj, ∀ j ∈ (p : Nat × List Nat).2,
        otherEnd g j (p : Nat × List Nat).1 = (q : Nat × List Nat).1 →
          j ∈ (q : Nat × List Nat).2) →
      (∀ p ∈ adj, ∀ j ∈ (p : Nat × List Nat).2, j ∉ rest.map Prod.fst) →
      (∀ ie ∈ rest, (ie : Nat × Edge).1 < g.edges.length ∧ g.edge ie.1 = ie.2) →
      (rest.map Prod.fst).Nodup →
      AdjInv g (pgFillGo adj rest) := by
  intro rest
  induction rest with
  | nil =>
    intro adj k1 k2 k3 k4 _ _ _
    rw [pgFillGo]
    exact ⟨k1, k2, k3, k4⟩
  | cons ie rest ih =>
    rcases ie with ⟨i, e⟩
    intro adj k1 k2 k3 k4 k5 k6 k7
    have hilen : i < g.edges.length := (k6 (i, e) (by simp)).1
    have hie : g.edge i = e := (k6 (i, e) (by simp)).2
    subst hie
    have hne : (g.edge i).frm ≠ (g.edge i).toN := (wf_edge_facts g hwf i hilen).2.2.1
    rw [pgFillGo]
    have hk2nodup : (adjKeys (adjAddKeyIfAbsent (adjAddKeyIfAbsent adj (g.edge i).frm) (g.edge i).toN)).Nodup := adjAdd_keys_nodup _ _ (adjAdd_keys_nodup adj _ k1)
    have hkeys2 : ∀ x, x ∈ adjKeys (adjAddKeyIfAbsent (adjAddKeyIfAbsent adj (g.edge i).frm) (g.edge i).toN) ↔
        x ∈ adjKeys adj ∨ x = (g.edge i).frm ∨ x = (g.edge i).toN := by
      intro x
      rw [adjAdd_keys_iff, adjAdd_keys_iff]
      tauto
    have hA2old : ∀ p : Nat × List Nat, p ∈ (adjAddKeyIfAbsent (adjAddKeyIfAbsent adj (g.edge i).frm) (g.edge i).toN) →
        p ∈ adj ∨ p = ((g.edge i).frm, []) ∨ p = ((g.edge i).toN, []) := by
      intro p hp
      rcases adjAdd_mem _ _ p hp with hp1 | hp1
      · rcases adjAdd_mem adj _ p hp1 with hp0 | hp0
        · exact Or.inl hp0
        · exact Or.inr (Or.inl hp0)
      · exact Or.inr (Or.inr hp1)
    have hA2keyed : ∀ p : Nat × List Nat, p ∈ (adjAddKeyIfAbsent (adjAddKeyIfAbsent adj (g.edge i).frm) (g.edge i).toN) →
        (p : Nat × List Nat).1 ∈ adjKeys adj → p ∈ adj := by
      intro p hp hk
      have hp1 : p ∈ (adjAddKeyIfAbsent adj (g.edge i).frm) :=
        adjAdd_mem_keyed _ _ p hp ((adjAdd_keys_iff adj _ _).mpr (Or.inl hk))
      exact adjAdd_mem_keyed adj _ p hp1 hk
    have hA2facts : ∀ p : Nat × List Nat, p ∈ (adjAddKeyIfAbsent (adjAddKeyIfAbsent adj (g.edge i).frm) (g.edge i).toN) → ∀ j ∈ (p : Nat × List Nat).2,
        p ∈ adj ∧ (j < g.edges.length ∧ Incident g j p.1 ∧ otherEnd g j p.1 ∈ adjKeys adj) := by
      intro p hp j hj
      rcases hA2old p hp with hp0 | hp0 | hp0
      · exact ⟨hp0, k3 p hp0 j hj⟩
      · rw [hp0] at hj
        simp at hj
      · rw [hp0] at hj
        simp at hj
    have hA2nodup : ∀ p : Nat × List Nat, p ∈ (adjAddKeyIfAbsent (adjAddKeyIfAbsent adj (g.edge i).frm) (g.edge i).toN) → (p : Nat × List Nat).2.Nodup := by
      intro p hp
      rcases hA2old p hp with h0 | h0 | h0
      · exact k2 p h0
      · rw [h0]
        simp
      · rw [h0]
        simp
    have hfresh2 : ∀ p : Nat × List Nat, p ∈ (adjAddKeyIfAbsent (adjAddKeyIfAbsent adj (g.edge i).frm) (g.edge i).toN) → i ∉ (p : Nat × List Nat).2 := by
      intro p hp hcon
      have hpadj := (hA2facts p hp i hcon).1
      exact k5 p hpadj i hcon (by simp)
    have hmem4 : ∀ p : Nat × List Nat, p ∈ (adjPush (adjPush (adjAddKeyIfAbsent (adjAddKeyIfAbsent adj (g.edge i).frm) (g.edge i).toN) (g.edge i).frm i) (g.edge i).toN i) →
        (p ∈ (adjAddKeyIfAbsent (adjAddKeyIfAbsent adj (g.edge i).frm) (g.edge i).toN) ∧ (p : Nat × List Nat).1 ≠ (g.edge i).frm ∧
          (p : Nat × List Nat).1 ≠ (g.edge i).toN) ∨
        (∃ l, ((g.edge i).frm, l) ∈ (adjAddKeyIfAbsent (adjAddKeyIfAbsent adj (g.edge i).frm) (g.edge i).toN) ∧ p = ((g.edge i).frm, l ++ [i])) ∨
        (∃ l, ((g.edge i).toN, l) ∈ (adjAddKeyIfAbsent (adjAddKeyIfAbsent adj (g.edge i).frm) (g.edge i).toN) ∧ p = ((g.edge i).toN, l ++ [i])) := by
      intro p hp
      rcases adjPush_mem _ _ i p hp with ⟨l, hl, hpe⟩ | ⟨hp3, hpne⟩
      · right
        right
        refine ⟨l, ?_, hpe⟩
        rcases adjPush_mem _ _ i ((g.edge i).toN, l) hl with ⟨l2, _, hle⟩ | ⟨hlA2, _⟩
        · exfalso
          injection hle with ha _
          exact hne ha.symm
        · exact hlA2
      · rcases adjPush_mem _ _ i p hp3 with ⟨l, hl, hpe⟩ | ⟨hpA2, hpne2⟩
        · right
          left
          exact ⟨l, hl, hpe⟩
        · left
          exact ⟨hpA2, hpne2, hpne⟩
    have hkeys4 : adjKeys (adjPush (adjPush (adjAddKeyIfAbsent (adjAddKeyIfAbsent adj (g.edge i).frm) (g.edge i).toN) (g.edge i).frm i) (g.edge i).toN i) = adjKeys (adjAddKeyIfAbsent (adjAddKeyIfAbsent adj (g.edge i).frm) (g.edge i).toN) := by
      rw [adjPush_keys, adjPush_keys]
    have hoe1 : otherEnd g i (g.edge i).frm = (g.edge i).toN := by
      rw [otherEnd, if_pos rfl]
    have hoe2 : otherEnd g i (g.edge i).toN = (g.edge i).frm := by
      rw [otherEnd, if_neg hne]
    have huniq2 : ∀ (v : Nat) (l1 l2 : List Nat),
        (v, l1) ∈ (adjAddKeyIfAbsent (adjAddKeyIfAbsent adj (g.edge i).frm) (g.edge i).toN) → (v, l2) ∈ (adjAddKeyIfAbsent (adjAddKeyIfAbsent adj (g.edge i).frm) (g.edge i).toN) → l1 = l2 := by
      intro v l1 l2 hm1 hm2
      have e1 := adjLookup_eq_of_mem _ hk2nodup v l1 hm1
      have e2 := adjLookup_eq_of_mem _ hk2nodup v l2 hm2
      rw [e1] at e2
      injection e2 with e2
    have huniqA : ∀ (v : Nat) (l1 l2 : List Nat),
        (v, l1) ∈ adj → (v, l2) ∈ adj → l1 = l2 := by
      intro v l1 l2 hm1 hm2
      have e1 := adjLookup_eq_of_mem adj k1 v l1 hm1
      have e2 := adjLookup_eq_of_mem adj k1 v l2 hm2
      rw [e1] at e2
      injection e2 with e2
    have hsnoc : ∀ l : List Nat, l.Nodup → i ∉ l → (l ++ [i]).Nodup := by
      intro l hl hi
      rw [List.nodup_append]
      refine ⟨hl, by simp, ?_⟩
      intro a ha hab
      rw [List.mem_singleton] at hab
      subst hab
      exact hi ha
    have htoQ : ∀ q : Nat × List Nat, q ∈ (adjPush (adjPush (adjAddKeyIfAbsent (adjAddKeyIfAbsent adj (g.edge i).frm) (g.edge i).toN) (g.edge i).frm i) (g.edge i).toN i) → ∀ pa : Nat × List Nat, pa ∈ adj →
        ∀ j ∈ (pa : Nat × List Nat).2,
        otherEnd g j (pa : Nat × List Nat).1 = (q : Nat × List Nat).1 →
        j ∈ (q : Nat × List Nat).2 := by
      intro q hq pa hpa j hj heq
      have hkey : (q : Nat × List Nat).1 ∈ adjKeys adj := by
        rw [← heq]
        exact (k3 pa hpa j hj).2.2
      obtain ⟨lq, hlq⟩ := (mem_adjKeys_iff adj _).mp hkey
      have hjlq : j ∈ lq := k4 pa hpa ((q : Nat × List Nat).1, lq) hlq j hj heq
      rcases hmem4 q hq with ⟨hqA2, _, _⟩ | ⟨l2, hl2, hqe⟩ | ⟨l2, hl2, hqe⟩
      · have hqadj : q ∈ adj := hA2keyed q hqA2 hkey
        exact (huniqA (q : Nat × List Nat).1 lq q.2 hlq hqadj) ▸ hjlq
      · subst hqe
        have hlqA2 : ((g.edge i).frm, lq) ∈ (adjAddKeyIfAbsent (adjAddKeyIfAbsent adj (g.edge i).frm) (g.edge i).toN) :=
          adjAdd_mem_of _ _ _ (adjAdd_mem_of adj _ _ hlq)
        have hll : lq = l2 := huniq2 (g.edge i).frm lq l2 hlqA2 hl2
        exact List.mem_append_left _ (hll ▸ hjlq)
      · subst hqe
        have hlqA2 : ((g.edge i).toN, lq) ∈ (adjAddKeyIfAbsent (adjAddKeyIfAbsent adj (g.edge i).frm) (g.edge i).toN) :=
          adjAdd_mem_of _ _ _ (adjAdd_mem_of adj _ _ hlq)
        have hll : lq = l2 := huniq2 (g.edge i).toN lq l2 hlqA2 hl2
        exact List.mem_append_left _ (hll ▸ hjlq)
    refine ih (adjPush (adjPush (adjAddKeyIfAbsent (adjAddKeyIfAbsent adj (g.edge i).frm) (g.edge i).toN) (g.edge i).frm i) (g.edge i).toN i) ?_ ?_ ?_ ?_ ?_ ?_ ?_
    · rw [hkeys4]
      exact hk2nodup
    · intro p hp
      rcases hmem4 p hp with ⟨hpA2, _, _⟩ | ⟨l, hl, hpe⟩ | ⟨l, hl, hpe⟩
      · exact hA2nodup p hpA2
      · subst hpe
        exact hsnoc l (hA2nodup _ hl) (hfresh2 _ hl)
      · subst hpe
        exact hsnoc l (hA2nodup _ hl) (hfresh2 _ hl)
    · intro p hp j hj
      rcases hmem4 p hp with ⟨hpA2, _, _⟩ | ⟨l, hl, hpe⟩ | ⟨l, hl, hpe⟩
      · obtain ⟨_, hf1, hf2, hf3⟩ := hA2facts p hpA2 j hj
        exact ⟨hf1, hf2, by rw [hkeys4]; exact (hkeys2 _).mpr (Or.inl hf3)⟩
      · subst hpe
        rcases List.mem_append.mp hj with hjl | hji
        · obtain ⟨_, hf1, hf2, hf3⟩ := hA2facts _ hl j hjl
          exact ⟨hf1, hf2, by rw [hkeys4]; exact (hkeys2 _).mpr (Or.inl hf3)⟩
        · rw [List.mem_singleton] at hji
          subst hji
          refine ⟨hilen, Or.inl rfl, ?_⟩
          rw [hkeys4]
          exact (hkeys2 _).mpr (Or.inr (Or.inr hoe1))
      · subst hpe
        rcases List.mem_append.mp hj with hjl | hji
        · obtain ⟨_, hf1, hf2, hf3⟩ := hA2facts _ hl j hjl
          exact ⟨hf1, hf2, by rw [hkeys4]; exact (hkeys2 _).mpr (Or.inl hf3)⟩
        · rw [List.mem_singleton] at hji
          subst hji
          refine ⟨hilen, Or.inr rfl, ?_⟩
          rw [hkeys4]
          exact (hkeys2 _).mpr (Or.inr (Or.inl hoe2))
    · intro p hp q hq j hj heq
      rcases hmem4 p hp with ⟨hpA2, _, _⟩ | ⟨l, hl, hpe⟩ | ⟨l, hl, hpe⟩
      · have hpadj := (hA2facts p hpA2 j hj).1
        exact htoQ q hq p hpadj j hj heq
      · subst hpe
        rcases List.mem_append.mp hj with hjl | hji
        · have hpadj := (hA2facts _ hl j hjl).1
          exact htoQ q hq _ hpadj j hjl heq
        · rw [List.mem_singleton] at hji
          subst hji
          have hq1 : (q : Nat × List Nat).1 = (g.edge j).toN := by
            rw [← heq]
            exact hoe1
          rcases hmem4 q hq with ⟨_, _, hqt⟩ | ⟨l2, hl2, hqe⟩ | ⟨l2, hl2, hqe⟩
          · exact absurd hq1 hqt
          · exfalso
            rw [hqe] at hq1
            exact hne hq1
          · subst hqe
            exact List.mem_append_right _ (by simp)
      · subst hpe
        rcases List.mem_append.mp hj with hjl | hji
        · have hpadj := (hA2facts _ hl j hjl).1
          exact htoQ q hq _ hpadj j hjl heq
        · rw [List.mem_singleton] at hji
          subst hji
          have hq1 : (q : Nat × List Nat).1 = (g.edge j).frm := by
            rw [← heq]
            exact hoe2
          rcases hmem4 q hq with ⟨_, hqf, _⟩ | ⟨l2, hl2, hqe⟩ | ⟨l2, hl2, hqe⟩
          · exact absurd hq1 hqf
          · subst hqe
            exact List.mem_append_right _ (by simp)
          · exfalso
            rw [hqe] at hq1
            exact hne hq1.symm
    · intro p hp j hj
      rcases hmem4 p hp with ⟨hpA2, _, _⟩ | ⟨l, hl, hpe⟩ | ⟨l, hl, hpe⟩
      · have hpadj := (hA2facts p hpA2 j hj).1
        intro hcon
        exact k5 p hpadj j hj (by simp [hcon])
      · subst hpe
        rcases List.mem_append.mp hj with hjl | hji
        · have hpadj := (hA2facts _ hl j hjl).1
          intro hcon
          exact k5 _ hpadj j hjl (by simp [hcon])
        · rw [List.mem_singleton] at hji
          subst hji
          rw [List.map_cons, List.nodup_cons] at k7
          exact k7.1
      · subst hpe
        rcases List.mem_append.mp hj with hjl | hji
        · have hpadj := (hA2facts _ hl j hjl).1
          intro hcon
          exact k5 _ hpadj j hjl (by simp [hcon])
        · rw [List.mem_singleton] at hji
          subst hji
          rw [List.map_cons, List.nodup_cons] at k7
          exact k7.1
    · intro ie2 hie2
      exact k6 ie2 (List.mem_cons_of_mem _ hie2)
    · rw [List.map_cons, List.nodup_cons] at k7
      exact k7.2

theorem pgFill_inv (g : Graph) (hwf : WellFormed g = true) : AdjInv g (pgFill g) := by
  rw [pgFill]
  refine pgFillGo_inv g hwf (indexedEdges g) [] (by simp [adjKeys]) (by simp) (by simp)
    (by simp) (by simp) ?_ ?_
  · intro ie hie
    exact indexedEdges_mem_facts g ie hie
  · exact indexedEdges_fst_nodup g

theorem pgOuter_post (g : Graph) (hwf : WellFormed g = true) :
    ∀ (fuel : Nat) (adj : AdjMap) (s1 s2 t1 t2 : List Nat),
      pgOuter g fuel adj s1 s2 = .ok (t1, t2) →
      AdjInv g adj →
      ValidMatching g s1 → ValidMatching g s2 →
      s1.length ≤ s2.length → s2.length ≤ s1.length + 1 →
      (∀ x ∈ matchingEndpoints g (s1 ++ s2), x ∉ adjKeys adj) →
      ValidMatching g t1 ∧ ValidMatching g t2 := by
  intro fuel
  induction fuel with
  | zero =>
    intro adj s1 s2 t1 t2 hok
    rw [pgOuter.eq_def] at hok
    replace hok : (Except.error MatchErr.outOfFuel :
      Except MatchErr (List Nat × List Nat)) = Except.ok (t1, t2) := hok
    cases hok
  | succ fuel ih =>
    intro adj s1 s2 t1 t2 hok hai hv1 hv2 hl1 hl2 hdisj
    rw [pgOuter.eq_def] at hok
    rcases adj with _ | ⟨⟨v, lv⟩, adjr⟩
    · replace hok : (Except.ok (s1, s2) : Except MatchErr (List Nat × List Nat)) =
        Except.ok (t1, t2) := hok
      injection hok with hok
      injection hok with h1e h2e
      subst h1e
      subst h2e
      exact ⟨hv1, hv2⟩
    · replace hok : (match pgWalk g fuel ((v, lv) :: adjr) s1 s2 v with
        | .error err => (Except.error err : Except MatchErr (List Nat × List Nat))
        | .ok (adj2, u1, u2) => pgOuter g fuel adj2 u1 u2) = Except.ok (t1, t2) := hok
      rcases hwk : pgWalk g fuel ((v, lv) :: adjr) s1 s2 v with err | ⟨adj2, u1, u2⟩
      · rw [hwk] at hok
        replace hok : (Except.error err : Except MatchErr (List Nat × List Nat)) =
          Except.ok (t1, t2) := hok
        cases hok
      · rw [hwk] at hok
        replace hok : pgOuter g fuel adj2 u1 u2 = Except.ok (t1, t2) := hok
        have hvkey : v ∈ adjKeys ((v, lv) :: adjr) := by simp [adjKeys]
        have hws : WalkSep g ((v, lv) :: adjr) s1 s2 v := by
          refine ⟨hv1, hv2, hl1, hl2, ?_, ?_, ?_⟩
          · intro x hx hxk
            exact absurd hxk (hdisj x hx)
          · intro _ hvmem
            exact hdisj v
              (by rw [matchingEndpoints_append]; exact List.mem_append_left _ hvmem) hvkey
          · intro _ hvmem
            exact hdisj v
              (by rw [matchingEndpoints_append]; exact List.mem_append_right _ hvmem) hvkey
        obtain ⟨hai2, hu1, hu2, hul1, hul2, hud⟩ :=
          pgWalk_post g hwf fuel ((v, lv) :: adjr) s1 s2 v adj2 u1 u2 hwk hai hws
        exact ih adj2 u1 u2 t1 t2 hok hai2 hu1 hu2 hul1 hul2 hud

theorem pathGrowing_valid (g : Graph) (hwf : WellFormed g = true) (fuel : Nat) (m : List Nat)
    (hok : pathGrowing g fuel = .ok m) : ValidMatching g m := by
  rw [pathGrowing] at hok
  rcases hps : pathGrowingSolutions g fuel with err | ⟨s1, s2⟩
  · rw [hps] at hok
    replace hok : (Except.error err : Except MatchErr (List Nat)) = Except.ok m := hok
    cases hok
  · rw [hps] at hok
    replace hok : (Except.ok (if getScore (s1.map g.edge) > getScore (s2.map g.edge)
        then s1 else s2) : Except MatchErr (List Nat)) = Except.ok m := hok
    injection hok with hok
    rw [pathGrowingSolutions] at hps
    obtain ⟨h1, h2⟩ := pgOuter_post g hwf fuel (pgFill g) [] [] s1 s2 hps
      (pgFill_inv g hwf) ⟨by simp, by simp [matchingEndpoints]⟩
      ⟨by simp, by simp [matchingEndpoints]⟩ (by simp) (by simp)
      (by simp [matchingEndpoints])
    subst hok
    by_cases hsc : getScore (s1.map g.edge) > getScore (s2.map g.edge)
    · rw [if_pos hsc]
      exact h1
    · rw [if_neg hsc]
      exact h2

theorem alGet_lt (st : AdjListD) (v : Nat) (l : List Nat) (h : alGet st v = some l) :
    v < st.lst.length := by
  by_contra hge
  rw [alGet, List.getD_eq_getElem?_getD, List.getElem?_eq_none (Nat.le_of_not_lt hge)] at h
  simp at h

theorem alGet_mk (lst : List (Option (List Nat))) (c v : Nat) :
    alGet ⟨lst, c⟩ v = lst.getD v none := rfl

theorem alGet_alSet_ne (st : AdjListD) (a v : Nat) (x : Option (List Nat)) (h : a ≠ v) :
    alGet (alSet st a x) v = alGet st v := by
  rw [alSet, alGet_mk]
  exact alGet_set_ne st.lst a v x h

theorem alGet_alSet_self (st : AdjListD) (a : Nat) (x : Option (List Nat))
    (h : a < st.lst.length) : alGet (alSet st a x) a = x := by
  rw [alSet, alGet_mk]
  exact alGet_set_self st.lst a x h

theorem alEdgesOf_eq_of_get (st : AdjListD) (v : Nat) (l : List Nat)
    (h : alGet st v = some l) : alEdgesOf st v = l := by
  rw [alEdgesOf, h]
  rfl

theorem alGet_of_edges_ne_nil (st : AdjListD) (v : Nat) (h : alEdgesOf st v ≠ []) :
    alGet st v = some (alEdgesOf st v) := by
  rw [alEdgesOf] at h ⊢
  rcases hg : alGet st v with _ | l
  · rw [hg] at h
    simp at h
  · rfl

theorem alPurge_shrink (g : Graph) (cur : Nat) :
    ∀ (dep : List Nat) (st st2 : AdjListD), alPurge g cur st dep = .ok st2 →
      ∀ v l2, alGet st2 v = some l2 → ∃ l1, alGet st v = some l1 ∧ List.Sublist l2 l1 := by
  intro dep
  induction dep with
  | nil =>
    intro st st2 hok v l2 h2
    rw [alPurge] at hok
    injection hok with hok
    subst hok
    exact ⟨l2, h2, List.Sublist.refl l2⟩
  | cons i rest ih =>
    intro st st2 hok v l2 h2
    rw [alPurge] at hok
    rw [show (if (g.edge i).frm = cur then (g.edge i).toN else (g.edge i).frm)
      = otherEnd g i cur from rfl] at hok
    rcases hlk : alGet st (otherEnd g i cur) with _ | od
    · rw [hlk] at hok
      replace hok : alPurge g cur st rest = .ok st2 := hok
      exact ih st st2 hok v l2 h2
    · rw [hlk] at hok
      have hother_lt : otherEnd g i cur < st.lst.length := alGet_lt st _ od hlk
      replace hok : (if od.length = 1 then
          if od.headD 0 = i then alPurge g cur ⟨st.lst.set (otherEnd g i cur) none,
            st.count - 1⟩ rest
          else .error .assertFailed
        else
          if i ∈ od then alPurge g cur (alSet st (otherEnd g i cur)
            (some (removeFirst i od))) rest
          else .error .assertFailed) = Except.ok st2 := hok
      by_cases hlen : od.length = 1
      · rw [if_pos hlen] at hok
        by_cases hhd : od.headD 0 = i
        · rw [if_pos hhd] at hok
          obtain ⟨l1, hl1, hsub⟩ := ih _ st2 hok v l2 h2
          rw [alGet_mk] at hl1
          by_cases hv : otherEnd g i cur = v
          · rw [← hv, alGet_set_self st.lst _ none hother_lt] at hl1
            cases hl1
          · rw [alGet_set_ne st.lst _ v none hv] at hl1
            exact ⟨l1, hl1, hsub⟩
        · rw [if_neg hhd] at hok
          cases hok
      · rw [if_neg hlen] at hok
        by_cases hiod : i ∈ od
        · rw [if_pos hiod] at hok
          obtain ⟨l1, hl1, hsub⟩ := ih _ st2 hok v l2 h2
          by_cases hv : otherEnd g i cur = v
          · rw [← hv, alGet_alSet_self st _ _ hother_lt] at hl1
            injection hl1 with hl1
            subst hl1
            exact ⟨od, by rw [← hv]; exact hlk, hsub.trans (removeFirst_sublist i od)⟩
          · rw [alGet_alSet_ne st _ v _ hv] at hl1
            exact ⟨l1, hl1, hsub⟩
        · rw [if_neg hiod] at hok
          cases hok

theorem alPurge_post (g : Graph) (cur : Nat) :
    ∀ (dep : List Nat) (st st2 : AdjListD),
      alPurge g cur st dep = .ok st2 →
      ALPurgeInv g cur st dep →
      ALInv g st2 ∧ alGet st2 cur = none := by
  intro dep
  induction dep with
  | nil =>
    intro st st2 hok hinv
    rw [alPurge] at hok
    injection hok with hok
    subst hok
    obtain ⟨h1, h2, h3, _, _, _⟩ := hinv
    refine ⟨⟨h2, ?_⟩, h1⟩
    intro v l hv j hj
    obtain ⟨ha, hb, hc⟩ := h3 v l hv j hj
    rcases hc with hc | hc
    · exact ⟨ha, hb, hc⟩
    · exact absurd hc.2 (by simp)
  | cons i rest ih =>
    intro st st2 hok hinv
    obtain ⟨h1, h2, h3, h4, h5, h6⟩ := hinv
    rw [alPurge] at hok
    rw [show (if (g.edge i).frm = cur then (g.edge i).toN else (g.edge i).frm)
      = otherEnd g i cur from rfl] at hok
    rcases hlk : alGet st (otherEnd g i cur) with _ | od
    · rw [hlk] at hok
      replace hok : alPurge g cur st rest = .ok st2 := hok
      refine ih st st2 hok ⟨h1, h2, ?_, ?_, ?_, ?_⟩
      · intro v l hv j hj
        obtain ⟨ha, hb, hc⟩ := h3 v l hv j hj
        refine ⟨ha, hb, ?_⟩
        rcases hc with hc | ⟨hc1, hc2⟩
        · exact Or.inl hc
        · rcases List.mem_cons.mp hc2 with heq | hc3
          · exfalso
            subst heq
            have hveq := h6 v l hv j (by simp) hj
            rw [hveq] at hv
            rw [hv] at hlk
            cases hlk
          · exact Or.inr ⟨hc1, hc3⟩
      · exact fun j hj => h4 j (by simp [hj])
      · rw [List.map_cons, List.nodup_cons] at h5
        exact h5.2
      · exact fun v l hv j hj => h6 v l hv j (by simp [hj])
    · rw [hlk] at hok
      have hother_lt : otherEnd g i cur < st.lst.length := alGet_lt st _ od hlk
      have hother_ne_cur : otherEnd g i cur ≠ cur := by
        intro hcon
        rw [hcon, h1] at hlk
        cases hlk
      replace hok : (if od.length = 1 then
          if od.headD 0 = i then alPurge g cur ⟨st.lst.set (otherEnd g i cur) none,
            st.count - 1⟩ rest
          else .error .assertFailed
        else
          if i ∈ od then alPurge g cur (alSet st (otherEnd g i cur)
            (some (removeFirst i od))) rest
          else .error .assertFailed) = Except.ok st2 := hok
      by_cases hlen : od.length = 1
      · rw [if_pos hlen] at hok
        by_cases hhd : od.headD 0 = i
        · rw [if_pos hhd] at hok
          have hod_eq : od = [i] := by
            rcases od with _ | ⟨x, xs⟩
            · simp at hlen
            · rcases xs with _ | ⟨y, ys⟩
              · rw [List.headD_cons] at hhd
                rw [hhd]
              · rw [List.length_cons, List.length_cons] at hlen
                omega
          subst hod_eq
          have hget : ∀ w, alGet ⟨st.lst.set (otherEnd g i cur) none, st.count - 1⟩ w =
              if otherEnd g i cur = w then none else alGet st w := by
            intro w
            rw [alGet_mk]
            by_cases hw : otherEnd g i cur = w
            · rw [if_pos hw, ← hw, alGet_set_self st.lst _ none hother_lt]
            · rw [if_neg hw, alGet_set_ne st.lst _ w none hw]
              rfl
          refine ih _ st2 hok ⟨?_, ?_, ?_, ?_, ?_, ?_⟩
          · rw [hget, if_neg hother_ne_cur]
            exact h1
          · intro v l hv
            rw [hget] at hv
            by_cases hw : otherEnd g i cur = v
            · rw [if_pos hw] at hv
              cases hv
            · rw [if_neg hw] at hv
              exact h2 v l hv
          · intro v l hv j hj
            rw [hget] at hv
            by_cases hw : otherEnd g i cur = v
            · rw [if_pos hw] at hv
              cases hv
            · rw [if_neg hw] at hv
              obtain ⟨ha, hb, hc⟩ := h3 v l hv j hj
              refine ⟨ha, hb, ?_⟩
              rcases hc with ⟨lw, hlw, hjw⟩ | ⟨hc1, hc2⟩
              · by_cases ho : otherEnd g j v = otherEnd g i cur
                · exfalso
                  rw [ho, hlk] at hlw
                  injection hlw with hlw
                  subst hlw
                  rw [List.mem_singleton] at hjw
                  subst hjw
                  exact hw (h6 v l hv j (by simp) hj).symm
                · refine Or.inl ⟨lw, ?_, hjw⟩
                  rw [hget, if_neg (fun hcon => ho hcon.symm)]
                  exact hlw
              · rcases List.mem_cons.mp hc2 with heq | hc3
                · exfalso
                  subst heq
                  exact hw (h6 v l hv j (by simp) hj).symm
                · exact Or.inr ⟨hc1, hc3⟩
          · exact fun j hj => h4 j (by simp [hj])
          · rw [List.map_cons, List.nodup_cons] at h5
            exact h5.2
          · intro v l hv j hj
            rw [hget] at hv
            by_cases hw : otherEnd g i cur = v
            · rw [if_pos hw] at hv
              cases hv
            · rw [if_neg hw] at hv
              exact h6 v l hv j (by simp [hj])
        · rw [if_neg hhd] at hok
          cases hok
      · rw [if_neg hlen] at hok
        by_cases hiod : i ∈ od
        · rw [if_pos hiod] at hok
          have hod_nodup : od.Nodup := h2 _ od hlk
          have hget : ∀ w, alGet (alSet st (otherEnd g i cur) (some (removeFirst i od))) w =
              if otherEnd g i cur = w then some (removeFirst i od) else alGet st w := by
            intro w
            by_cases hw : otherEnd g i cur = w
            · rw [if_pos hw, ← hw, alGet_alSet_self st _ _ hother_lt]
            · rw [if_neg hw, alGet_alSet_ne st _ w _ hw]
          refine ih _ st2 hok ⟨?_, ?_, ?_, ?_, ?_, ?_⟩
          · rw [hget, if_neg hother_ne_cur]
            exact h1
          · intro v l hv
            rw [hget] at hv
            by_cases hw : otherEnd g i cur = v
            · rw [if_pos hw] at hv
              injection hv with hv
              subst hv
              exact hod_nodup.sublist (removeFirst_sublist i od)
            · rw [if_neg hw] at hv
              exact h2 v l hv
          · intro v l hv j hj
            rw [hget] at hv
            have hvod : ∃ lold, alGet st v = some lold ∧ j ∈ lold ∧ j ≠ i := by
              by_cases hw : otherEnd g i cur = v
              · rw [if_pos hw] at hv
                injection hv with hv
                subst hv
                refine ⟨od, by rw [← hw]; exact hlk, (removeFirst_sublist i od).subset hj, ?_⟩
                intro hji
                subst hji
                exact removeFirst_not_mem j od hod_nodup hj
              · rw [if_neg hw] at hv
                refine ⟨l, hv, hj, ?_⟩
                intro hji
                subst hji
                exact hw (h6 v l hv j (by simp) hj).symm
            obtain ⟨lold, hlold, hjold, hjne⟩ := hvod
            obtain ⟨ha, hb, hc⟩ := h3 v lold hlold j hjold
            refine ⟨ha, hb, ?_⟩
            rcases hc with ⟨lw, hlw, hjw⟩ | ⟨hc1, hc2⟩
            · by_cases ho : otherEnd g j v = otherEnd g i cur
              · rw [ho, hlk] at hlw
                injection hlw with hlw
                subst hlw
                refine Or.inl ⟨removeFirst i od, ?_, removeFirst_mem_of_ne i j od hjne hjw⟩
                rw [hget, if_pos ho.symm]
              · refine Or.inl ⟨lw, ?_, hjw⟩
                rw [hget, if_neg (fun hcon => ho hcon.symm)]
                exact hlw
            · rcases List.mem_cons.mp hc2 with heq | hc3
              · exact absurd heq hjne
              · exact Or.inr ⟨hc1, hc3⟩
          · exact fun j hj => h4 j (by simp [hj])
          · rw [List.map_cons, List.nodup_cons] at h5
            exact h5.2
          · intro v l hv j hj
            rw [hget] at hv
            by_cases hw : otherEnd g i cur = v
            · rw [if_pos hw] at hv
              injection hv with hv
              subst hv
              intro hjl
              rw [← hw]
              exact h6 _ od hlk j (by simp [hj]) ((removeFirst_sublist i od).subset hjl)
            · rw [if_neg hw] at hv
              exact h6 v l hv j (by simp [hj])
        · rw [if_neg hiod] at hok
          cases hok

theorem alRemove_shrink (g : Graph) (st st2 : AdjListD) (cur : Nat)
    (hok : alRemove g st cur = .ok st2) :
    ∀ v l2, alGet st2 v = some l2 → ∃ l1, alGet st v = some l1 ∧ List.Sublist l2 l1 := by
  rw [alRemove] at hok
  rcases hlk : alGet st cur with _ | dep
  · rw [hlk] at hok
    replace hok : (Except.ok st : Except MatchErr AdjListD) = .ok st2 := hok
    injection hok with hok
    subst hok
    exact fun v l2 h2 => ⟨l2, h2, List.Sublist.refl l2⟩
  · rw [hlk] at hok
    replace hok : alPurge g cur ⟨st.lst.set cur none, st.count - 1⟩ dep = .ok st2 := hok
    intro v l2 h2
    obtain ⟨l1, hl1, hsub⟩ := alPurge_shrink g cur dep _ st2 hok v l2 h2
    rw [alGet_mk] at hl1
    by_cases hv : cur = v
    · rw [← hv, alGet_set_self st.lst _ none (alGet_lt st cur dep hlk)] at hl1
      cases hl1
    · rw [alGet_set_ne st.lst _ v none hv] at hl1
      exact ⟨l1, hl1, hsub⟩

theorem alRemove_post (g : Graph) (hwf : WellFormed g = true) (st st2 : AdjListD) (cur : Nat)
    (hok : alRemove g st cur = .ok st2) (hai : ALInv g st) :
    ALInv g st2 ∧ alGet st2 cur = none := by
  obtain ⟨a1, a2⟩ := hai
  rw [alRemove] at hok
  rcases hlk : alGet st cur with _ | dep
  · rw [hlk] at hok
    replace hok : (Except.ok st : Except MatchErr AdjListD) = .ok st2 := hok
    injection hok with hok
    subst hok
    exact ⟨⟨a1, a2⟩, hlk⟩
  · rw [hlk] at hok
    replace hok : alPurge g cur ⟨st.lst.set cur none, st.count - 1⟩ dep = .ok st2 := hok
    have hcur_lt : cur < st.lst.length := alGet_lt st cur dep hlk
    have hget : ∀ w, alGet ⟨st.lst.set cur none, st.count - 1⟩ w =
        if cur = w then none else alGet st w := by
      intro w
      rw [alGet_mk]
      by_cases hw : cur = w
      · rw [if_pos hw, ← hw, alGet_set_self st.lst _ none hcur_lt]
      · rw [if_neg hw, alGet_set_ne st.lst _ w none hw]
        rfl
    refine alPurge_post g cur dep _ st2 hok ⟨?_, ?_, ?_, ?_, ?_, ?_⟩
    · rw [hget, if_pos rfl]
    · intro v l hv
      rw [hget] at hv
      by_cases hw : cur = v
      · rw [if_pos hw] at hv
        cases hv
      · rw [if_neg hw] at hv
        exact a1 v l hv
    · intro v l hv j hj
      rw [hget] at hv
      by_cases hw : cur = v
      · rw [if_pos hw] at hv
        cases hv
      · rw [if_neg hw] at hv
        obtain ⟨ha, hb, lw, hlw, hjw⟩ := a2 v l hv j hj
        refine ⟨ha, hb, ?_⟩
        by_cases ho : otherEnd g j v = cur
        · rw [ho, hlk] at hlw
          injection hlw with hlw
          subst hlw
          exact Or.inr ⟨ho, hjw⟩
        · refine Or.inl ⟨lw, ?_, hjw⟩
          rw [hget, if_neg (fun hcon => ho hcon.symm)]
          exact hlw
    · intro j hj
      obtain ⟨ha, hb, _⟩ := a2 cur dep hlk j hj
      exact ⟨ha, hb⟩
    · refine others_nodup g hwf cur dep (a1 cur dep hlk) ?_
      intro j hj
      obtain ⟨ha, hb, _⟩ := a2 cur dep hlk j hj
      exact ⟨ha, hb⟩
    · intro v l hv j hj hjl
      rw [hget] at hv
      by_cases hw : cur = v
      · rw [if_pos hw] at hv
        cases hv
      · rw [if_neg hw] at hv
        obtain ⟨_, hbv, _⟩ := a2 v l hv j hjl
        obtain ⟨_, hbc, _⟩ := a2 cur dep hlk j hj
        exact incident_other_eq g j cur v hbc hbv (fun hcon => hw hcon.symm)

theorem al_dead_persist (st stP : AdjListD)
    (hshrink : ∀ v l2, alGet stP v = some l2 →
      ∃ l1, alGet st v = some l1 ∧ List.Sublist l2 l1)
    (x : Nat) (hd : alEdgesOf st x = []) : alEdgesOf stP x = [] := by
  rcases hg : alGet stP x with _ | l2
  · rw [alEdgesOf, hg]
    rfl
  · obtain ⟨l1, hl1, hsub⟩ := hshrink x l2 hg
    have he : alEdgesOf st x = l1 := alEdgesOf_eq_of_get st x l1 hl1
    rw [hd] at he
    rw [alEdgesOf_eq_of_get stP x l2 hg]
    rw [← he] at hsub
    exact List.sublist_nil.mp hsub

theorem alWalkStep_sep (g : Graph) (hwf : WellFormed g = true)
    (st stP : AdjListD) (s1 s2 : List Nat) (cur ei : Nat)
    (hws : ALWalkSep g st s1 s2 cur)
    (hlt : ei < g.edges.length) (hinc : Incident g ei cur)
    (hnxt_live : alEdgesOf st (otherEnd g ei cur) ≠ [])
    (hshrink : ∀ v l2, alGet stP v = some l2 →
      ∃ l1, alGet st v = some l1 ∧ List.Sublist l2 l1)
    (hcurP : alGet stP cur = none) :
    ALWalkSep g stP (pgAssign s1 s2 ei).1 (pgAssign s1 s2 ei).2 (otherEnd g ei cur) := by
  obtain ⟨w1, w2, w3, w4, w5, w6, w7⟩ := hws
  have hne := (wf_edge_facts g hwf ei hlt).2.2.1
  have hnxt_ne_cur : otherEnd g ei cur ≠ cur := otherEnd_ne_self g ei cur hne hinc
  have hnxt_not_old : otherEnd g ei cur ∉ matchingEndpoints g (s1 ++ s2) := by
    intro hmem
    rcases w5 _ hmem with hd | hc
    · exact hnxt_live hd
    · exact hnxt_ne_cur hc
  have hnxt_not_s1 : otherEnd g ei cur ∉ matchingEndpoints g s1 := by
    intro hmem
    exact hnxt_not_old (by rw [matchingEndpoints_append]; exact List.mem_append_left _ hmem)
  have hnxt_not_s2 : otherEnd g ei cur ∉ matchingEndpoints g s2 := by
    intro hmem
    exact hnxt_not_old (by rw [matchingEndpoints_append]; exact List.mem_append_right _ hmem)
  have hold_dead_P : ∀ x ∈ matchingEndpoints g (s1 ++ s2), alEdgesOf stP x = [] := by
    intro x hx
    rcases w5 x hx with hd | hc
    · exact al_dead_persist st stP hshrink x hd
    · subst hc
      rw [alEdgesOf, hcurP]
      rfl
  have hends : matchingEndpoints g [ei] = [(g.edge ei).frm, (g.edge ei).toN] := by
    simp [matchingEndpoints]
  have hepair : ∀ x ∈ matchingEndpoints g [ei], x = cur ∨ x = otherEnd g ei cur := by
    intro x hx
    rw [hends] at hx
    rcases List.mem_cons.mp hx with heq | hx2
    · subst heq
      rcases other_spec g ei cur hinc with ⟨a, _⟩ | ⟨_, b⟩
      · exact Or.inl a
      · exact Or.inr b
    · rw [List.mem_singleton] at hx2
      subst hx2
      rcases other_spec g ei cur hinc with ⟨_, b⟩ | ⟨a, _⟩
      · exact Or.inr b
      · exact Or.inl a
  have hcurP_dead : alEdgesOf stP cur = [] := by
    rw [alEdgesOf, hcurP]
    rfl
  by_cases hlen : s1.length < s2.length
  · have hassign : pgAssign s1 s2 ei = (s1 ++ [ei], s2) := by
      rw [pgAssign, if_pos hlen]
    rw [hassign]
    have hs2len : s2.length = s1.length + 1 := by omega
    have hcur_not_s1 : cur ∉ matchingEndpoints g s1 := w6 hs2len
    have hei_not_s1 : ∀ x ∈ matchingEndpoints g [ei], x ∉ matchingEndpoints g s1 := by
      intro x hx
      rcases hepair x hx with heq | heq
      · subst heq
        exact hcur_not_s1
      · subst heq
        exact hnxt_not_s1
    refine ⟨?_, w2, by simp; omega, by simp; omega, ?_, ?_, ?_⟩
    · refine validMatching_append_edge g s1 ei w1 hlt ?_ ?_ hne
      · exact hei_not_s1 _ (by rw [hends]; simp)
      · exact hei_not_s1 _ (by rw [hends]; simp)
    · intro x hx
      rw [matchingEndpoints_append, matchingEndpoints_append] at hx
      rcases List.mem_append.mp hx with hx1 | hx2
      · rcases List.mem_append.mp hx1 with hx1a | hx1b
        · exact Or.inl (hold_dead_P x
            (by rw [matchingEndpoints_append]; exact List.mem_append_left _ hx1a))
        · rcases hepair x hx1b with heq | heq
          · subst heq
            exact Or.inl hcurP_dead
          · exact Or.inr heq
      · exact Or.inl (hold_dead_P x
          (by rw [matchingEndpoints_append]; exact List.mem_append_right _ hx2))
    · intro hcon
      exfalso
      rw [List.length_append] at hcon
      simp at hcon
      omega
    · intro _
      exact hnxt_not_s2
  · have hlen2 : s1.length = s2.length := by omega
    have hassign : pgAssign s1 s2 ei = (s1, s2 ++ [ei]) := by
      rw [pgAssign, if_neg hlen]
    rw [hassign]
    have hcur_not_s2 : cur ∉ matchingEndpoints g s2 := w7 hlen2
    have hei_not_s2 : ∀ x ∈ matchingEndpoints g [ei], x ∉ matchingEndpoints g s2 := by
      intro x hx
      rcases hepair x hx with heq | heq
      · subst heq
        exact hcur_not_s2
      · subst heq
        exact hnxt_not_s2
    refine ⟨w1, ?_, by simp; omega, by simp; omega, ?_, ?_, ?_⟩
    · refine validMatching_append_edge g s2 ei w2 hlt ?_ ?_ hne
      · exact hei_not_s2 _ (by rw [hends]; simp)
      · exact hei_not_s2 _ (by rw [hends]; simp)
    · intro x hx
      rw [matchingEndpoints_append, matchingEndpoints_append] at hx
      rcases List.mem_append.mp hx with hx1 | hx2
      · exact Or.inl (hold_dead_P x
          (by rw [matchingEndpoints_append]; exact List.mem_append_left _ hx1))
      · rcases List.mem_append.mp hx2 with hx2a | hx2b
        · exact Or.inl (hold_dead_P x
            (by rw [matchingEndpoints_append]; exact List.mem_append_right _ hx2a))
        · rcases hepair x hx2b with heq | heq
          · subst heq
            exact Or.inl hcurP_dead
          · exact Or.inr heq
    · intro _
      exact hnxt_not_s1
    · intro hcon
      exfalso
      rw [List.length_append] at hcon
      simp at hcon
      omega

theorem pgAssign_endpoints_split (g : Graph) (s1 s2 : List Nat) (ei : Nat) :
    ∀ x, x ∈ matchingEndpoints g ((pgAssign s1 s2 ei).1 ++ (pgAssign s1 s2 ei).2) →
      x ∈ matchingEndpoints g (s1 ++ s2) ∨ x ∈ matchingEndpoints g [ei] := by
  intro x hx
  by_cases hl : s1.length < s2.length
  · rw [pgAssign, if_pos hl] at hx
    have hx2 : x ∈ matchingEndpoints g ((s1 ++ [ei]) ++ s2) := hx
    rw [matchingEndpoints_append, matchingEndpoints_append] at hx2
    rcases List.mem_append.mp hx2 with h1 | h2
    · rcases List.mem_append.mp h1 with h1a | h1b
      · exact Or.inl (by rw [matchingEndpoints_append]; exact List.mem_append_left _ h1a)
      · exact Or.inr h1b
    · exact Or.inl (by rw [matchingEndpoints_append]; exact List.mem_append_right _ h2)
  · rw [pgAssign, if_neg hl] at hx
    have hx2 : x ∈ matchingEndpoints g (s1 ++ (s2 ++ [ei])) := hx
    rw [matchingEndpoints_append, matchingEndpoints_append] at hx2
    rcases List.mem_append.mp hx2 with h1 | h2
    · exact Or.inl (by rw [matchingEndpoints_append]; exact List.mem_append_left _ h1)
    · rcases List.mem_append.mp h2 with h2a | h2b
      · exact Or.inl (by rw [matchingEndpoints_append]; exact List.mem_append_right _ h2a)
      · exact Or.inr h2b

theorem pgpWalk_post (g : Graph) (hwf : WellFormed g = true) :
    ∀ (fuel : Nat) (st : AdjListD) (s1 s2 : List Nat) (cur : Nat)
      (stF : AdjListD) (t1 t2 : List Nat),
      pgpWalk g fuel st s1 s2 cur = .ok (stF, t1, t2) →
      ALInv g st →
      ALWalkSep g st s1 s2 cur →
      ALInv g stF ∧ ValidMatching g t1 ∧ ValidMatching g t2 ∧
      t1.length ≤ t2.length ∧ t2.length ≤ t1.length + 1 ∧
      (∀ x ∈ matchingEndpoints g (t1 ++ t2), alEdgesOf stF x = []) ∧
      (∀ v l2, alGet stF v = some l2 → ∃ l1, alGet st v = some l1 ∧ List.Sublist l2 l1) ∧
      (∀ x, alEdgesOf st x = [] → x ∈ matchingEndpoints g (t1 ++ t2) →
        x ∈ matchingEndpoints g (s1 ++ s2)) := by
  intro fuel
  induction fuel with
  | zero =>
    intro st s1 s2 cur stF t1 t2 hok
    rw [pgpWalk] at hok
    cases hok
  | succ fuel ih =>
    intro st s1 s2 cur stF t1 t2 hok hai hws
    rw [pgpWalk] at hok
    rcases hel : alEdgesOf st cur with _ | ⟨d, ds⟩
    · rw [hel] at hok
      replace hok : (Except.ok (st, s1, s2) :
          Except MatchErr (AdjListD × List Nat × List Nat)) = .ok (stF, t1, t2) := hok
      injection hok with hok
      injection hok with h1e h2e
      subst h1e
      injection h2e with h3e h4e
      subst h3e
      subst h4e
      obtain ⟨w1, w2, w3, w4, w5, _, _⟩ := hws
      refine ⟨hai, w1, w2, w3, w4, ?_, ?_, ?_⟩
      · intro x hx
        rcases w5 x hx with hd | hc
        · exact hd
        · subst hc
          exact hel
      · exact fun v l2 h2 => ⟨l2, h2, List.Sublist.refl l2⟩
      · exact fun x _ hx => hx
    · rw [hel] at hok
      replace hok : (match alRemove g st cur with
        | .error err => (Except.error err : Except MatchErr (AdjListD × List Nat × List Nat))
        | .ok st2 =>
          if alHas st2 (otherEnd g (reduceHeaviest g d ds) cur) then
            pgpWalk g fuel st2 (pgAssign s1 s2 (reduceHeaviest g d ds)).1
              (pgAssign s1 s2 (reduceHeaviest g d ds)).2
              (otherEnd g (reduceHeaviest g d ds) cur)
          else .ok (st2, (pgAssign s1 s2 (reduceHeaviest g d ds)).1,
            (pgAssign s1 s2 (reduceHeaviest g d ds)).2)) = .ok (stF, t1, t2) := hok
      rcases hrm : alRemove g st cur with err | st2
      · rw [hrm] at hok
        replace hok : (Except.error err :
            Except MatchErr (AdjListD × List Nat × List Nat)) = .ok (stF, t1, t2) := hok
        cases hok
      · rw [hrm] at hok
        replace hok : (if alHas st2 (otherEnd g (reduceHeaviest g d ds) cur) then
            pgpWalk g fuel st2 (pgAssign s1 s2 (reduceHeaviest g d ds)).1
              (pgAssign s1 s2 (reduceHeaviest g d ds)).2
              (otherEnd g (reduceHeaviest g d ds) cur)
          else .ok (st2, (pgAssign s1 s2 (reduceHeaviest g d ds)).1,
            (pgAssign s1 s2 (reduceHeaviest g d ds)).2)) = .ok (stF, t1, t2) := hok
        have hcur_get : alGet st cur = some (d :: ds) := by
          have hthis := alGet_of_edges_ne_nil st cur (by rw [hel]; simp)
          rw [hel] at hthis
          exact hthis
        obtain ⟨a1, a2⟩ := hai
        have hhm : reduceHeaviest g d ds ∈ d :: ds := reduceHeaviest_mem g ds d
        obtain ⟨hlt, hinc, lw, hlw, hjw⟩ := a2 cur (d :: ds) hcur_get _ hhm
        have hnxt_live : alEdgesOf st (otherEnd g (reduceHeaviest g d ds) cur) ≠ [] := by
          rw [alEdgesOf_eq_of_get st _ lw hlw]
          intro hcon
          rw [hcon] at hjw
          simp at hjw
        obtain ⟨hai2, hcur2⟩ := alRemove_post g hwf st st2 cur hrm ⟨a1, a2⟩
        have hshr := alRemove_shrink g st st2 cur hrm
        have hws2 := alWalkStep_sep g hwf st st2 s1 s2 cur (reduceHeaviest g d ds)
          hws hlt hinc hnxt_live hshr hcur2
        have hne := (wf_edge_facts g hwf (reduceHeaviest g d ds) hlt).2.2.1
        have hends : matchingEndpoints g [reduceHeaviest g d ds] =
            [(g.edge (reduceHeaviest g d ds)).frm, (g.edge (reduceHeaviest g d ds)).toN] := by
          simp [matchingEndpoints]
        have hepair : ∀ x ∈ matchingEndpoints g [reduceHeaviest g d ds],
            x = cur ∨ x = otherEnd g (reduceHeaviest g d ds) cur := by
          intro x hx
          rw [hends] at hx
          rcases List.mem_cons.mp hx with heq | hx2
          · subst heq
            rcases other_spec g (reduceHeaviest g d ds) cur hinc with ⟨a, _⟩ | ⟨_, b⟩
            · exact Or.inl a
            · exact Or.inr b
          · rw [List.mem_singleton] at hx2
            subst hx2
            rcases other_spec g (reduceHeaviest g d ds) cur hinc with ⟨_, b⟩ | ⟨a, _⟩
            · exact Or.inr b
            · exact Or.inl a
        have hedge_excl : ∀ x, alEdgesOf st x = [] →
            x ∈ matchingEndpoints g [reduceHeaviest g d ds] → False := by
          intro x hdead hx
          rcases hepair x hx with heq | heq
          · subst heq
            rw [hel] at hdead
            cases hdead
          · subst heq
            exact hnxt_live hdead
        by_cases hnext : alHas st2 (otherEnd g (reduceHeaviest g d ds) cur) = true
        · rw [if_pos hnext] at hok
          obtain ⟨r1, r2, r3, r4, r5, r6, r7, r8⟩ := ih st2 _ _ _ stF t1 t2 hok hai2 hws2
          refine ⟨r1, r2, r3, r4, r5, r6, ?_, ?_⟩
          · intro v l2 h2
            obtain ⟨lm, hlm, hsubm⟩ := r7 v l2 h2
            obtain ⟨l1, hl1, hsub1⟩ := hshr v lm hlm
            exact ⟨l1, hl1, hsubm.trans hsub1⟩
          · intro x hdead hx
            have hdead2 : alEdgesOf st2 x = [] := al_dead_persist st st2 hshr x hdead
            have hx2 := r8 x hdead2 hx
            rcases pgAssign_endpoints_split g s1 s2 (reduceHeaviest g d ds) x hx2 with
              hold | hedge
            · exact hold
            · exact (hedge_excl x hdead hedge).elim
        · rw [if_neg hnext] at hok
          injection hok with hok
          injection hok with h1e h2e
          subst h1e
          injection h2e with h3e h4e
          subst h3e
          subst h4e
          obtain ⟨v1, v2, v3, v4, v5, _, _⟩ := hws2
          refine ⟨hai2, v1, v2, v3, v4, ?_, hshr, ?_⟩
          · intro x hx
            rcases v5 x hx with hd | hc
            · exact hd
            · subst hc
              rw [alEdgesOf]
              rcases hg : alGet st2 (otherEnd g (reduceHeaviest g d ds) cur) with _ | l
              · rfl
              · exfalso
                apply hnext
                rw [alHas, hg]
                rfl
          · intro x hdead hx
            rcases pgAssign_endpoints_split g s1 s2 (reduceHeaviest g d ds) x hx with
              hold | hedge
            · exact hold
            · exact (hedge_excl x hdead hedge).elim

theorem alSet_length (st : AdjListD) (v : Nat) (x : Option (List Nat)) :
    (alSet st v x).lst.length = st.lst.length := by
  rw [alSet]
  exact List.length_set st.lst v x

theorem nodup_snoc (i : Nat) (l : List Nat) (hl : l.Nodup) (hi : i ∉ l) :
    (l ++ [i]).Nodup := by
  rw [List.nodup_append]
  refine ⟨hl, by simp, ?_⟩
  intro a ha hab
  rw [List.mem_singleton] at hab
  subst hab
  exact hi ha

theorem alEnsure_facts (st : AdjListD) (v : Nat) (hv : v < st.lst.length) :
    ((if (alGet st v).isSome then st
      else (⟨st.lst.set v (some []), st.count + 1⟩ : AdjListD)) : AdjListD).lst.length
        = st.lst.length ∧
    (∀ w, v ≠ w → alGet (if (alGet st v).isSome then st
      else (⟨st.lst.set v (some []), st.count + 1⟩ : AdjListD)) w = alGet st w) ∧
    ∃ lv, alGet (if (alGet st v).isSome then st
      else (⟨st.lst.set v (some []), st.count + 1⟩ : AdjListD)) v = some lv ∧
      (alGet st v = some lv ∨ (alGet st v = none ∧ lv = [])) := by
  by_cases hs : (alGet st v).isSome = true
  · rw [if_pos hs]
    refine ⟨rfl, fun w _ => rfl, ?_⟩
    rcases hg : alGet st v with _ | l
    · rw [hg] at hs
      cases hs
    · exact ⟨l, rfl, Or.inl rfl⟩
  · rw [if_neg hs]
    have hnone : alGet st v = none := by
      rcases hg : alGet st v with _ | l
      · rfl
      · rw [hg] at hs
        exact absurd rfl hs
    refine ⟨List.length_set st.lst v (some []), ?_, ?_⟩
    · intro w hw
      rw [alGet_mk, alGet_set_ne st.lst v w (some []) hw]
      rfl
    · exact ⟨[], by rw [alGet_mk, alGet_set_self st.lst v (some []) hv],
        Or.inr ⟨hnone, rfl⟩⟩

theorem alFillGo_inv (g : Graph) (hwf : WellFormed g = true) :
    ∀ (rest : List (Nat × Edge)) (st : AdjListD),
      st.lst.length = g.n →
      (∀ v l, alGet st v = some l → l.Nodup) →
      (∀ v l, alGet st v = some l → ∀ j ∈ l,
        j < g.edges.length ∧ Incident g j v ∧
        ∃ lw, alGet st (otherEnd g j v) = some lw ∧ j ∈ lw) →
      (∀ v l, alGet st v = some l → ∀ j ∈ l, j ∉ rest.map Prod.fst) →
      (∀ ie ∈ rest, (ie : Nat × Edge).1 < g.edges.length ∧ g.edge ie.1 = ie.2) →
      (rest.map Prod.fst).Nodup →
      ALInv g (alFillGo st rest) := by
  intro rest
  induction rest with
  | nil =>
    intro st _ k2 k3 _ _ _
    rw [alFillGo]
    exact ⟨k2, k3⟩
  | cons ie rest ih =>
    rcases ie with ⟨i, e⟩
    intro st hlen k2 k3 k5 k6 k7
    have hilen : i < g.edges.length := (k6 (i, e) (by simp)).1
    have hie : g.edge i = e := (k6 (i, e) (by simp)).2
    subst hie
    obtain ⟨hfrm_n, htoN_n, hne, _⟩ := wf_edge_facts g hwf i hilen
    rw [alFillGo]
    have hoe1 : otherEnd g i (g.edge i).frm = (g.edge i).toN := by
      rw [otherEnd, if_pos rfl]
    have hoe2 : otherEnd g i (g.edge i).toN = (g.edge i).frm := by
      rw [otherEnd, if_neg hne]
    have hfrm_lt : (g.edge i).frm < st.lst.length := by
      rw [hlen]
      exact hfrm_n
    obtain ⟨e1len, e1ne, lf0, e1get, e1case⟩ := alEnsure_facts st (g.edge i).frm hfrm_lt
    obtain ⟨e2len, e2ne, lt0, e2get, e2case⟩ :=
      alEnsure_facts (if (alGet st (g.edge i).frm).isSome then st else (⟨st.lst.set (g.edge i).frm (some []), st.count + 1⟩ : AdjListD)) (g.edge i).toN (by rw [e1len, hlen]; exact htoN_n)
    have e2caseOld : alGet st (g.edge i).toN = some lt0 ∨
        (alGet st (g.edge i).toN = none ∧ lt0 = []) := by
      rw [e1ne (g.edge i).toN hne] at e2case
      exact e2case
    have hg2frm : alGet (if (alGet (if (alGet st (g.edge i).frm).isSome then st else (⟨st.lst.set (g.edge i).frm (some []), st.count + 1⟩ : AdjListD)) (g.edge i).toN).isSome then (if (alGet st (g.edge i).frm).isSome then st else (⟨st.lst.set (g.edge i).frm (some []), st.count + 1⟩ : AdjListD)) else (⟨(if (alGet st (g.edge i).frm).isSome then st else (⟨st.lst.set (g.edge i).frm (some []), st.count + 1⟩ : AdjListD)).lst.set (g.edge i).toN (some []), (if (alGet st (g.edge i).frm).isSome then st else (⟨st.lst.set (g.edge i).frm (some []), st.count + 1⟩ : AdjListD)).count + 1⟩ : AdjListD)) (g.edge i).frm = some lf0 := by
      rw [e2ne (g.edge i).frm (fun hcon => hne hcon.symm)]
      exact e1get
    have hg2other : ∀ w, (g.edge i).frm ≠ w → (g.edge i).toN ≠ w →
        alGet (if (alGet (if (alGet st (g.edge i).frm).isSome then st else (⟨st.lst.set (g.edge i).frm (some []), st.count + 1⟩ : AdjListD)) (g.edge i).toN).isSome then (if (alGet st (g.edge i).frm).isSome then st else (⟨st.lst.set (g.edge i).frm (some []), st.count + 1⟩ : AdjListD)) else (⟨(if (alGet st (g.edge i).frm).isSome then st else (⟨st.lst.set (g.edge i).frm (some []), st.count + 1⟩ : AdjListD)).lst.set (g.edge i).toN (some []), (if (alGet st (g.edge i).frm).isSome then st else (⟨st.lst.set (g.edge i).frm (some []), st.count + 1⟩ : AdjListD)).count + 1⟩ : AdjListD)) w = alGet st w := by
      intro w hw1 hw2
      rw [e2ne w hw2, e1ne w hw1]
    have hedges2frm : alEdgesOf (if (alGet (if (alGet st (g.edge i).frm).isSome then st else (⟨st.lst.set (g.edge i).frm (some []), st.count + 1⟩ : AdjListD)) (g.edge i).toN).isSome then (if (alGet st (g.edge i).frm).isSome then st else (⟨st.lst.set (g.edge i).frm (some []), st.count + 1⟩ : AdjListD)) else (⟨(if (alGet st (g.edge i).frm).isSome then st else (⟨st.lst.set (g.edge i).frm (some []), st.count + 1⟩ : AdjListD)).lst.set (g.edge i).toN (some []), (if (alGet st (g.edge i).frm).isSome then st else (⟨st.lst.set (g.edge i).frm (some []), st.count + 1⟩ : AdjListD)).count + 1⟩ : AdjListD)) (g.edge i).frm = lf0 :=
      alEdgesOf_eq_of_get _ _ _ hg2frm
    have h2len : ((if (alGet (if (alGet st (g.edge i).frm).isSome then st else (⟨st.lst.set (g.edge i).frm (some []), st.count + 1⟩ : AdjListD)) (g.edge i).toN).isSome then (if (alGet st (g.edge i).frm).isSome then st else (⟨st.lst.set (g.edge i).frm (some []), st.count + 1⟩ : AdjListD)) else (⟨(if (alGet st (g.edge i).frm).isSome then st else (⟨st.lst.set (g.edge i).frm (some []), st.count + 1⟩ : AdjListD)).lst.set (g.edge i).toN (some []), (if (alGet st (g.edge i).frm).isSome then st else (⟨st.lst.set (g.edge i).frm (some []), st.count + 1⟩ : AdjListD)).count + 1⟩ : AdjListD)) : AdjListD).lst.length = g.n := by
      rw [e2len, e1len, hlen]
    have hg3 : ∀ w, alGet (alSet (if (alGet (if (alGet st (g.edge i).frm).isSome then st else (⟨st.lst.set (g.edge i).frm (some []), st.count + 1⟩ : AdjListD)) (g.edge i).toN).isSome then (if (alGet st (g.edge i).frm).isSome then st else (⟨st.lst.set (g.edge i).frm (some []), st.count + 1⟩ : AdjListD)) else (⟨(if (alGet st (g.edge i).frm).isSome then st else (⟨st.lst.set (g.edge i).frm (some []), st.count + 1⟩ : AdjListD)).lst.set (g.edge i).toN (some []), (if (alGet st (g.edge i).frm).isSome then st else (⟨st.lst.set (g.edge i).frm (some []), st.count + 1⟩ : AdjListD)).count + 1⟩ : AdjListD)) (g.edge i).frm (some (alEdgesOf (if (alGet (if (alGet st (g.edge i).frm).isSome then st else (⟨st.lst.set (g.edge i).frm (some []), st.count + 1⟩ : AdjListD)) (g.edge i).toN).isSome then (if (alGet st (g.edge i).frm).isSome then st else (⟨st.lst.set (g.edge i).frm (some []), st.count + 1⟩ : AdjListD)) else (⟨(if (alGet st (g.edge i).frm).isSome then st else (⟨st.lst.set (g.edge i).frm (some []), st.count + 1⟩ : AdjListD)).lst.set (g.edge i).toN (some []), (if (alGet st (g.edge i).frm).isSome then st else (⟨st.lst.set (g.edge i).frm (some []), st.count + 1⟩ : AdjListD)).count + 1⟩ : AdjListD)) (g.edge i).frm ++ [i]))) w =
        if (g.edge i).frm = w then some (lf0 ++ [i]) else alGet (if (alGet (if (alGet st (g.edge i).frm).isSome then st else (⟨st.lst.set (g.edge i).frm (some []), st.count + 1⟩ : AdjListD)) (g.edge i).toN).isSome then (if (alGet st (g.edge i).frm).isSome then st else (⟨st.lst.set (g.edge i).frm (some []), st.count + 1⟩ : AdjListD)) else (⟨(if (alGet st (g.edge i).frm).isSome then st else (⟨st.lst.set (g.edge i).frm (some []), st.count + 1⟩ : AdjListD)).lst.set (g.edge i).toN (some []), (if (alGet st (g.edge i).frm).isSome then st else (⟨st.lst.set (g.edge i).frm (some []), st.count + 1⟩ : AdjListD)).count + 1⟩ : AdjListD)) w := by
      intro w
      by_cases hw : (g.edge i).frm = w
      · rw [if_pos hw, ← hw, alGet_alSet_self _ _ _ (by rw [h2len]; exact hfrm_n),
          hedges2frm]
      · rw [if_neg hw, alGet_alSet_ne _ _ _ _ hw]
    have hg3toN : alGet (alSet (if (alGet (if (alGet st (g.edge i).frm).isSome then st else (⟨st.lst.set (g.edge i).frm (some []), st.count + 1⟩ : AdjListD)) (g.edge i).toN).isSome then (if (alGet st (g.edge i).frm).isSome then st else (⟨st.lst.set (g.edge i).frm (some []), st.count + 1⟩ : AdjListD)) else (⟨(if (alGet st (g.edge i).frm).isSome then st else (⟨st.lst.set (g.edge i).frm (some []), st.count + 1⟩ : AdjListD)).lst.set (g.edge i).toN (some []), (if (alGet st (g.edge i).frm).isSome then st else (⟨st.lst.set (g.edge i).frm (some []), st.count + 1⟩ : AdjListD)).count + 1⟩ : AdjListD)) (g.edge i).frm (some (alEdgesOf (if (alGet (if (alGet st (g.edge i).frm).isSome then st else (⟨st.lst.set (g.edge i).frm (some []), st.count + 1⟩ : AdjListD)) (g.edge i).toN).isSome then (if (alGet st (g.edge i).frm).isSome then st else (⟨st.lst.set (g.edge i).frm (some []), st.count + 1⟩ : AdjListD)) else (⟨(if (alGet st (g.edge i).frm).isSome then st else (⟨st.lst.set (g.edge i).frm (some []), st.count + 1⟩ : AdjListD)).lst.set (g.edge i).toN (some []), (if (alGet st (g.edge i).frm).isSome then st else (⟨st.lst.set (g.edge i).frm (some []), st.count + 1⟩ : AdjListD)).count + 1⟩ : AdjListD)) (g.edge i).frm ++ [i]))) (g.edge i).toN = some lt0 := by
      rw [hg3, if_neg hne]
      exact e2get
    have hedges3toN : alEdgesOf (alSet (if (alGet (if (alGet st (g.edge i).frm).isSome then st else (⟨st.lst.set (g.edge i).frm (some []), st.count + 1⟩ : AdjListD)) (g.edge i).toN).isSome then (if (alGet st (g.edge i).frm).isSome then st else (⟨st.lst.set (g.edge i).frm (some []), st.count + 1⟩ : AdjListD)) else (⟨(if (alGet st (g.edge i).frm).isSome then st else (⟨st.lst.set (g.edge i).frm (some []), st.count + 1⟩ : AdjListD)).lst.set (g.edge i).toN (some []), (if (alGet st (g.edge i).frm).isSome then st else (⟨st.lst.set (g.edge i).frm (some []), st.count + 1⟩ : AdjListD)).count + 1⟩ : AdjListD)) (g.edge i).frm (some (alEdgesOf (if (alGet (if (alGet st (g.edge i).frm).isSome then st else (⟨st.lst.set (g.edge i).frm (some []), st.count + 1⟩ : AdjListD)) (g.edge i).toN).isSome then (if (alGet st (g.edge i).frm).isSome then st else (⟨st.lst.set (g.edge i).frm (some []), st.count + 1⟩ : AdjListD)) else (⟨(if (alGet st (g.edge i).frm).isSome then st else (⟨st.lst.set (g.edge i).frm (some []), st.count + 1⟩ : AdjListD)).lst.set (g.edge i).toN (some []), (if (alGet st (g.edge i).frm).isSome then st else (⟨st.lst.set (g.edge i).frm (some []), st.count + 1⟩ : AdjListD)).count + 1⟩ : AdjListD)) (g.edge i).frm ++ [i]))) (g.edge i).toN = lt0 :=
      alEdgesOf_eq_of_get _ _ _ hg3toN
    have h3len : ((alSet (if (alGet (if (alGet st (g.edge i).frm).isSome then st else (⟨st.lst.set (g.edge i).frm (some []), st.count + 1⟩ : AdjListD)) (g.edge i).toN).isSome then (if (alGet st (g.edge i).frm).isSome then st else (⟨st.lst.set (g.edge i).frm (some []), st.count + 1⟩ : AdjListD)) else (⟨(if (alGet st (g.edge i).frm).isSome then st else (⟨st.lst.set (g.edge i).frm (some []), st.count + 1⟩ : AdjListD)).lst.set (g.edge i).toN (some []), (if (alGet st (g.edge i).frm).isSome then st else (⟨st.lst.set (g.edge i).frm (some []), st.count + 1⟩ : AdjListD)).count + 1⟩ : AdjListD)) (g.edge i).frm (some (alEdgesOf (if (alGet (if (alGet st (g.edge i).frm).isSome then st else (⟨st.lst.set (g.edge i).frm (some []), st.count + 1⟩ : AdjListD)) (g.edge i).toN).isSome then (if (alGet st (g.edge i).frm).isSome then st else (⟨st.lst.set (g.edge i).frm (some []), st.count + 1⟩ : AdjListD)) else (⟨(if (alGet st (g.edge i).frm).isSome then st else (⟨st.lst.set (g.edge i).frm (some []), st.count + 1⟩ : AdjListD)).lst.set (g.edge i).toN (some []), (if (alGet st (g.edge i).frm).isSome then st else (⟨st.lst.set (g.edge i).frm (some []), st.count + 1⟩ : AdjListD)).count + 1⟩ : AdjListD)) (g.edge i).frm ++ [i]))) : AdjListD).lst.length = g.n := by
      rw [alSet_length, h2len]
    have hG : ∀ w, alGet (alSet (alSet (if (alGet (if (alGet st (g.edge i).frm).isSome then st else (⟨st.lst.set (g.edge i).frm (some []), st.count + 1⟩ : AdjListD)) (g.edge i).toN).isSome then (if (alGet st (g.edge i).frm).isSome then st else (⟨st.lst.set (g.edge i).frm (some []), st.count + 1⟩ : AdjListD)) else (⟨(if (alGet st (g.edge i).frm).isSome then st else (⟨st.lst.set (g.edge i).frm (some []), st.count + 1⟩ : AdjListD)).lst.set (g.edge i).toN (some []), (if (alGet st (g.edge i).frm).isSome then st else (⟨st.lst.set (g.edge i).frm (some []), st.count + 1⟩ : AdjListD)).count + 1⟩ : AdjListD)) (g.edge i).frm (some (alEdgesOf (if (alGet (if (alGet st (g.edge i).frm).isSome then st else (⟨st.lst.set (g.edge i).frm (some []), st.count + 1⟩ : AdjListD)) (g.edge i).toN).isSome then (if (alGet st (g.edge i).frm).isSome then st else (⟨st.lst.set (g.edge i).frm (some []), st.count + 1⟩ : AdjListD)) else (⟨(if (alGet st (g.edge i).frm).isSome then st else (⟨st.lst.set (g.edge i).frm (some []), st.count + 1⟩ : AdjListD)).lst.set (g.edge i).toN (some []), (if (alGet st (g.edge i).frm).isSome then st else (⟨st.lst.set (g.edge i).frm (some []), st.count + 1⟩ : AdjListD)).count + 1⟩ : AdjListD)) (g.edge i).frm ++ [i]))) (g.edge i).toN (some (alEdgesOf (alSet (if (alGet (if (alGet st (g.edge i).frm).isSome then st else (⟨st.lst.set (g.edge i).frm (some []), st.count + 1⟩ : AdjListD)) (g.edge i).toN).isSome then (if (alGet st (g.edge i).frm).isSome then st else (⟨st.lst.set (g.edge i).frm (some []), st.count + 1⟩ : AdjListD)) else (⟨(if (alGet st (g.edge i).frm).isSome then st else (⟨st.lst.set (g.edge i).frm (some []), st.count + 1⟩ : AdjListD)).lst.set (g.edge i).toN (some []), (if (alGet st (g.edge i).frm).isSome then st else (⟨st.lst.set (g.edge i).frm (some []), st.count + 1⟩ : AdjListD)).count + 1⟩ : AdjListD)) (g.edge i).frm (some (alEdgesOf (if (alGet (if (alGet st (g.edge i).frm).isSome then st else (⟨st.lst.set (g.edge i).frm (some []), st.count + 1⟩ : AdjListD)) (g.edge i).toN).isSome then (if (alGet st (g.edge i).frm).isSome then st else (⟨st.lst.set (g.edge i).frm (some []), st.count + 1⟩ : AdjListD)) else (⟨(if (alGet st (g.edge i).frm).isSome then st else (⟨st.lst.set (g.edge i).frm (some []), st.count + 1⟩ : AdjListD)).lst.set (g.edge i).toN (some []), (if (alGet st (g.edge i).frm).isSome then st else (⟨st.lst.set (g.edge i).frm (some []), st.count + 1⟩ : AdjListD)).count + 1⟩ : AdjListD)) (g.edge i).frm ++ [i]))) (g.edge i).toN ++ [i]))) w =
        if (g.edge i).toN = w then some (lt0 ++ [i])
        else if (g.edge i).frm = w then some (lf0 ++ [i]) else alGet st w := by
      intro w
      by_cases hw1 : (g.edge i).toN = w
      · rw [if_pos hw1, ← hw1, alGet_alSet_self _ _ _ (by rw [h3len]; exact htoN_n),
          hedges3toN]
      · rw [if_neg hw1, alGet_alSet_ne _ _ _ _ hw1, hg3]
        by_cases hw2 : (g.edge i).frm = w
        · rw [if_pos hw2, if_pos hw2]
        · rw [if_neg hw2, if_neg hw2, hg2other w hw2 hw1]
    have hlf0_notin : ∀ j ∈ lf0, j ∉ (((i, g.edge i) : Nat × Edge) :: rest).map Prod.fst := by
      intro j hj
      rcases e1case with h | ⟨_, hnil⟩
      · exact k5 _ lf0 h j hj
      · rw [hnil] at hj
        exact absurd hj (by simp)
    have hlt0_notin : ∀ j ∈ lt0, j ∉ (((i, g.edge i) : Nat × Edge) :: rest).map Prod.fst := by
      intro j hj
      rcases e2caseOld with h | ⟨_, hnil⟩
      · exact k5 _ lt0 h j hj
      · rw [hnil] at hj
        exact absurd hj (by simp)
    have hlf0_i : i ∉ lf0 := fun hcon => hlf0_notin i hcon (by simp)
    have hlt0_i : i ∉ lt0 := fun hcon => hlt0_notin i hcon (by simp)
    have hlf0_nodup : lf0.Nodup := by
      rcases e1case with h | ⟨_, hnil⟩
      · exact k2 _ lf0 h
      · rw [hnil]
        simp
    have hlt0_nodup : lt0.Nodup := by
      rcases e2caseOld with h | ⟨_, hnil⟩
      · exact k2 _ lt0 h
      · rw [hnil]
        simp
    have htrans : ∀ (w : Nat) (lw : List Nat), alGet st w = some lw → ∀ j ∈ lw,
        ∃ lw2, alGet (alSet (alSet (if (alGet (if (alGet st (g.edge i).frm).isSome then st else (⟨st.lst.set (g.edge i).frm (some []), st.count + 1⟩ : AdjListD)) (g.edge i).toN).isSome then (if (alGet st (g.edge i).frm).isSome then st else (⟨st.lst.set (g.edge i).frm (some []), st.count + 1⟩ : AdjListD)) else (⟨(if (alGet st (g.edge i).frm).isSome then st else (⟨st.lst.set (g.edge i).frm (some []), st.count + 1⟩ : AdjListD)).lst.set (g.edge i).toN (some []), (if (alGet st (g.edge i).frm).isSome then st else (⟨st.lst.set (g.edge i).frm (some []), st.count + 1⟩ : AdjListD)).count + 1⟩ : AdjListD)) (g.edge i).frm (some (alEdgesOf (if (alGet (if (alGet st (g.edge i).frm).isSome then st else (⟨st.lst.set (g.edge i).frm (some []), st.count + 1⟩ : AdjListD)) (g.edge i).toN).isSome then (if (alGet st (g.edge i).frm).isSome then st else (⟨st.lst.set (g.edge i).frm (some []), st.count + 1⟩ : AdjListD)) else (⟨(if (alGet st (g.edge i).frm).isSome then st else (⟨st.lst.set (g.edge i).frm (some []), st.count + 1⟩ : AdjListD)).lst.set (g.edge i).toN (some []), (if (alGet st (g.edge i).frm).isSome then st else (⟨st.lst.set (g.edge i).frm (some []), st.count + 1⟩ : AdjListD)).count + 1⟩ : AdjListD)) (g.edge i).frm ++ [i]))) (g.edge i).toN (some (alEdgesOf (alSet (if (alGet (if (alGet st (g.edge i).frm).isSome then st else (⟨st.lst.set (g.edge i).frm (some []), st.count + 1⟩ : AdjListD)) (g.edge i).toN).isSome then (if (alGet st (g.edge i).frm).isSome then st else (⟨st.lst.set (g.edge i).frm (some []), st.count + 1⟩ : AdjListD)) else (⟨(if (alGet st (g.edge i).frm).isSome then st else (⟨st.lst.set (g.edge i).frm (some []), st.count + 1⟩ : AdjListD)).lst.set (g.edge i).toN (some []), (if (alGet st (g.edge i).frm).isSome then st else (⟨st.lst.set (g.edge i).frm (some []), st.count + 1⟩ : AdjListD)).count + 1⟩ : AdjListD)) (g.edge i).frm (some (alEdgesOf (if (alGet (if (alGet st (g.edge i).frm).isSome then st else (⟨st.lst.set (g.edge i).frm (some []), st.count + 1⟩ : AdjListD)) (g.edge i).toN).isSome then (if (alGet st (g.edge i).frm).isSome then st else (⟨st.lst.set (g.edge i).frm (some []), st.count + 1⟩ : AdjListD)) else (⟨(if (alGet st (g.edge i).frm).isSome then st else (⟨st.lst.set (g.edge i).frm (some []), st.count + 1⟩ : AdjListD)).lst.set (g.edge i).toN (some []), (if (alGet st (g.edge i).frm).isSome then st else (⟨st.lst.set (g.edge i).frm (some []), st.count + 1⟩ : AdjListD)).count + 1⟩ : AdjListD)) (g.edge i).frm ++ [i]))) (g.edge i).toN ++ [i]))) w = some lw2 ∧ j ∈ lw2 := by
      intro w lw hlw j hjw
      by_cases hw1 : (g.edge i).toN = w
      · refine ⟨lt0 ++ [i], by rw [hG, if_pos hw1], ?_⟩
        have hlweq : lw = lt0 := by
          rw [← hw1] at hlw
          rcases e2caseOld with h | ⟨hn, _⟩
          · rw [h] at hlw
            injection hlw with hlw
            exact hlw.symm
          · rw [hn] at hlw
            cases hlw
        exact List.mem_append_left _ (hlweq ▸ hjw)
      · by_cases hw2 : (g.edge i).frm = w
        · refine ⟨lf0 ++ [i], by rw [hG, if_neg hw1, if_pos hw2], ?_⟩
          have hlweq : lw = lf0 := by
            rw [← hw2] at hlw
            rcases e1case with h | ⟨hn, _⟩
            · rw [h] at hlw
              injection hlw with hlw
              exact hlw.symm
            · rw [hn] at hlw
              cases hlw
          exact List.mem_append_left _ (hlweq ▸ hjw)
        · exact ⟨lw, by rw [hG, if_neg hw1, if_neg hw2]; exact hlw, hjw⟩
    have hold_entry : ∀ v l, alGet (alSet (alSet (if (alGet (if (alGet st (g.edge i).frm).isSome then st else (⟨st.lst.set (g.edge i).frm (some []), st.count + 1⟩ : AdjListD)) (g.edge i).toN).isSome then (if (alGet st (g.edge i).frm).isSome then st else (⟨st.lst.set (g.edge i).frm (some []), st.count + 1⟩ : AdjListD)) else (⟨(if (alGet st (g.edge i).frm).isSome then st else (⟨st.lst.set (g.edge i).frm (some []), st.count + 1⟩ : AdjListD)).lst.set (g.edge i).toN (some []), (if (alGet st (g.edge i).frm).isSome then st else (⟨st.lst.set (g.edge i).frm (some []), st.count + 1⟩ : AdjListD)).count + 1⟩ : AdjListD)) (g.edge i).frm (some (alEdgesOf (if (alGet (if (alGet st (g.edge i).frm).isSome then st else (⟨st.lst.set (g.edge i).frm (some []), st.count + 1⟩ : AdjListD)) (g.edge i).toN).isSome then (if (alGet st (g.edge i).frm).isSome then st else (⟨st.lst.set (g.edge i).frm (some []), st.count + 1⟩ : AdjListD)) else (⟨(if (alGet st (g.edge i).frm).isSome then st else (⟨st.lst.set (g.edge i).frm (some []), st.count + 1⟩ : AdjListD)).lst.set (g.edge i).toN (some []), (if (alGet st (g.edge i).frm).isSome then st else (⟨st.lst.set (g.edge i).frm (some []), st.count + 1⟩ : AdjListD)).count + 1⟩ : AdjListD)) (g.edge i).frm ++ [i]))) (g.edge i).toN (some (alEdgesOf (alSet (if (alGet (if (alGet st (g.edge i).frm).isSome then st else (⟨st.lst.set (g.edge i).frm (some []), st.count + 1⟩ : AdjListD)) (g.edge i).toN).isSome then (if (alGet st (g.edge i).frm).isSome then st else (⟨st.lst.set (g.edge i).frm (some []), st.count + 1⟩ : AdjListD)) else (⟨(if (alGet st (g.edge i).frm).isSome then st else (⟨st.lst.set (g.edge i).frm (some []), st.count + 1⟩ : AdjListD)).lst.set (g.edge i).toN (some []), (if (alGet st (g.edge i).frm).isSome then st else (⟨st.lst.set (g.edge i).frm (some []), st.count + 1⟩ : AdjListD)).count + 1⟩ : AdjListD)) (g.edge i).frm (some (alEdgesOf (if (alGet (if (alGet st (g.edge i).frm).isSome then st else (⟨st.lst.set (g.edge i).frm (some []), st.count + 1⟩ : AdjListD)) (g.edge i).toN).isSome then (if (alGet st (g.edge i).frm).isSome then st else (⟨st.lst.set (g.edge i).frm (some []), st.count + 1⟩ : AdjListD)) else (⟨(if (alGet st (g.edge i).frm).isSome then st else (⟨st.lst.set (g.edge i).frm (some []), st.count + 1⟩ : AdjListD)).lst.set (g.edge i).toN (some []), (if (alGet st (g.edge i).frm).isSome then st else (⟨st.lst.set (g.edge i).frm (some []), st.count + 1⟩ : AdjListD)).count + 1⟩ : AdjListD)) (g.edge i).frm ++ [i]))) (g.edge i).toN ++ [i]))) v = some l →
        (l = lt0 ++ [i] ∧ (g.edge i).toN = v) ∨
        (l = lf0 ++ [i] ∧ (g.edge i).frm = v) ∨ alGet st v = some l := by
      intro v l hv
      rw [hG] at hv
      by_cases h1 : (g.edge i).toN = v
      · rw [if_pos h1] at hv
        injection hv with hv
        exact Or.inl ⟨hv.symm, h1⟩
      · rw [if_neg h1] at hv
        by_cases h2 : (g.edge i).frm = v
        · rw [if_pos h2] at hv
          injection hv with hv
          exact Or.inr (Or.inl ⟨hv.symm, h2⟩)
        · rw [if_neg h2] at hv
          exact Or.inr (Or.inr hv)
    refine ih (alSet (alSet (if (alGet (if (alGet st (g.edge i).frm).isSome then st else (⟨st.lst.set (g.edge i).frm (some []), st.count + 1⟩ : AdjListD)) (g.edge i).toN).isSome then (if (alGet st (g.edge i).frm).isSome then st else (⟨st.lst.set (g.edge i).frm (some []), st.count + 1⟩ : AdjListD)) else (⟨(if (alGet st (g.edge i).frm).isSome then st else (⟨st.lst.set (g.edge i).frm (some []), st.count + 1⟩ : AdjListD)).lst.set (g.edge i).toN (some []), (if (alGet st (g.edge i).frm).isSome then st else (⟨st.lst.set (g.edge i).frm (some []), st.count + 1⟩ : AdjListD)).count + 1⟩ : AdjListD)) (g.edge i).frm (some (alEdgesOf (if (alGet (if (alGet st (g.edge i).frm).isSome then st else (⟨st.lst.set (g.edge i).frm (some []), st.count + 1⟩ : AdjListD)) (g.edge i).toN).isSome then (if (alGet st (g.edge i).frm).isSome then st else (⟨st.lst.set (g.edge i).frm (some []), st.count + 1⟩ : AdjListD)) else (⟨(if (alGet st (g.edge i).frm).isSome then st else (⟨st.lst.set (g.edge i).frm (some []), st.count + 1⟩ : AdjListD)).lst.set (g.edge i).toN (some []), (if (alGet st (g.edge i).frm).isSome then st else (⟨st.lst.set (g.edge i).frm (some []), st.count + 1⟩ : AdjListD)).count + 1⟩ : AdjListD)) (g.edge i).frm ++ [i]))) (g.edge i).toN (some (alEdgesOf (alSet (if (alGet (if (alGet st (g.edge i).frm).isSome then st else (⟨st.lst.set (g.edge i).frm (some []), st.count + 1⟩ : AdjListD)) (g.edge i).toN).isSome then (if (alGet st (g.edge i).frm).isSome then st else (⟨st.lst.set (g.edge i).frm (some []), st.count + 1⟩ : AdjListD)) else (⟨(if (alGet st (g.edge i).frm).isSome then st else (⟨st.lst.set (g.edge i).frm (some []), st.count + 1⟩ : AdjListD)).lst.set (g.edge i).toN (some []), (if (alGet st (g.edge i).frm).isSome then st else (⟨st.lst.set (g.edge i).frm (some []), st.count + 1⟩ : AdjListD)).count + 1⟩ : AdjListD)) (g.edge i).frm (some (alEdgesOf (if (alGet (if (alGet st (g.edge i).frm).isSome then st else (⟨st.lst.set (g.edge i).frm (some []), st.count + 1⟩ : AdjListD)) (g.edge i).toN).isSome then (if (alGet st (g.edge i).frm).isSome then st else (⟨st.lst.set (g.edge i).frm (some []), st.count + 1⟩ : AdjListD)) else (⟨(if (alGet st (g.edge i).frm).isSome then st else (⟨st.lst.set (g.edge i).frm (some []), st.count + 1⟩ : AdjListD)).lst.set (g.edge i).toN (some []), (if (alGet st (g.edge i).frm).isSome then st else (⟨st.lst.set (g.edge i).frm (some []), st.count + 1⟩ : AdjListD)).count + 1⟩ : AdjListD)) (g.edge i).frm ++ [i]))) (g.edge i).toN ++ [i]))) (by rw [alSet_length, h3len]) ?_ ?_ ?_ ?_ ?_
    · intro v l hv
      rcases hold_entry v l hv with ⟨hle, _⟩ | ⟨hle, _⟩ | hold
      · subst hle
        exact nodup_snoc i lt0 hlt0_nodup hlt0_i
      · subst hle
        exact nodup_snoc i lf0 hlf0_nodup hlf0_i
      · exact k2 v l hold
    · intro v l hv j hj
      rcases hold_entry v l hv with ⟨hle, hkey⟩ | ⟨hle, hkey⟩ | hold
      · subst hle
        subst hkey
        rcases List.mem_append.mp hj with hjl | hji
        · have hst : alGet st (g.edge i).toN = some lt0 := by
            rcases e2caseOld with h | ⟨_, hnil⟩
            · exact h
            · rw [hnil] at hjl
              exact absurd hjl (by simp)
          obtain ⟨ha, hb, lw, hlw, hjw⟩ := k3 _ lt0 hst j hjl
          exact ⟨ha, hb, htrans _ lw hlw j hjw⟩
        · rw [List.mem_singleton] at hji
          subst hji
          refine ⟨hilen, Or.inr rfl, ⟨lf0 ++ [j], ?_, by simp⟩⟩
          rw [hoe2, hG, if_neg (fun hcon => hne hcon.symm), if_pos rfl]
      · subst hle
        subst hkey
        rcases List.mem_append.mp hj with hjl | hji
        · have hst : alGet st (g.edge i).frm = some lf0 := by
            rcases e1case with h | ⟨_, hnil⟩
            · exact h
            · rw [hnil] at hjl
              exact absurd hjl (by simp)
          obtain ⟨ha, hb, lw, hlw, hjw⟩ := k3 _ lf0 hst j hjl
          exact ⟨ha, hb, htrans _ lw hlw j hjw⟩
        · rw [List.mem_singleton] at hji
          subst hji
          refine ⟨hilen, Or.inl rfl, ⟨lt0 ++ [j], ?_, by simp⟩⟩
          rw [hoe1, hG, if_pos rfl]
      · obtain ⟨ha, hb, lw, hlw, hjw⟩ := k3 v l hold j hj
        exact ⟨ha, hb, htrans _ lw hlw j hjw⟩
    · intro v l hv j hj
      rcases hold_entry v l hv with ⟨hle, _⟩ | ⟨hle, _⟩ | hold
      · subst hle
        rcases List.mem_append.mp hj with hjl | hji
        · intro hcon
          exact hlt0_notin j hjl (by simp [hcon])
        · rw [List.mem_singleton] at hji
          subst hji
          rw [List.map_cons, List.nodup_cons] at k7
          exact k7.1
      · subst hle
        rcases List.mem_append.mp hj with hjl | hji
        · intro hcon
          exact hlf0_notin j hjl (by simp [hcon])
        · rw [List.mem_singleton] at hji
          subst hji
          rw [List.map_cons, List.nodup_cons] at k7
          exact k7.1
      · intro hcon
        exact k5 v l hold j hj (by simp [hcon])
    · intro ie2 hie2
      exact k6 ie2 (List.mem_cons_of_mem _ hie2)
    · rw [List.map_cons, List.nodup_cons] at k7
      exact k7.2

theorem alFill_inv (g : Graph) (hwf : WellFormed g = true) : ALInv g (alFill g) := by
  rw [alFill]
  have hbase : ∀ v, alGet (⟨List.replicate g.n none, 0⟩ : AdjListD) v = none := by
    intro v
    rw [alGet_mk, List.getD_eq_getElem?_getD, List.getElem?_replicate]
    by_cases hv : v < g.n
    · rw [if_pos hv]
      rfl
    · rw [if_neg hv]
      rfl
  refine alFillGo_inv g hwf (indexedEdges g) _ (by rw [List.length_replicate])
    ?_ ?_ ?_ ?_ (indexedEdges_fst_nodup g)
  · intro v l hv
    rw [hbase] at hv
    cases hv
  · intro v l hv
    rw [hbase] at hv
    cases hv
  · intro v l hv
    rw [hbase] at hv
    cases hv
  · intro ie hie
    exact indexedEdges_mem_facts g ie hie

theorem pgpOuter_post (g : Graph) (hwf : WellFormed g = true) (fuel : Nat) :
    ∀ (vs : List Nat) (st : AdjListD) (result m : List Nat),
      pgpOuter g fuel st result vs = .ok m →
      ALInv g st →
      ValidMatching g result →
      (∀ x ∈ matchingEndpoints g result, alEdgesOf st x = []) →
      ValidMatching g m := by
  intro vs
  induction vs with
  | nil =>
    intro st result m hok _ hv _
    rw [pgpOuter] at hok
    injection hok with hok
    subst hok
    exact hv
  | cons v vs ih =>
    intro st result m hok hai hv hd
    rw [pgpOuter] at hok
    rcases hwk : pgpWalk g fuel st [] [] v with err | ⟨st2, u1, u2⟩
    · rw [hwk] at hok
      replace hok : (Except.error err : Except MatchErr (List Nat)) = .ok m := hok
      cases hok
    · rw [hwk] at hok
      replace hok : (if getScore (u1.map g.edge) > getScore (u2.map g.edge) then
          pgpOuter g fuel st2 (result ++ u1) vs
        else pgpOuter g fuel st2 (result ++ u2) vs) = .ok m := hok
      have hws0 : ALWalkSep g st [] [] v := by
        refine ⟨⟨by simp, by simp [matchingEndpoints]⟩,
          ⟨by simp, by simp [matchingEndpoints]⟩, by simp, by simp, ?_, ?_, ?_⟩
        · intro x hx
          simp [matchingEndpoints] at hx
        · intro hcon
          simp at hcon
        · intro _
          simp [matchingEndpoints]
      obtain ⟨hai2, hu1, hu2, _, _, hdeadU, hshr, hback⟩ :=
        pgpWalk_post g hwf fuel st [] [] v st2 u1 u2 hwk hai hws0
      have hcommit : ∀ u : List Nat, ValidMatching g u →
          (∀ x ∈ matchingEndpoints g u, x ∈ matchingEndpoints g (u1 ++ u2)) →
          ValidMatching g (result ++ u) ∧
          (∀ x ∈ matchingEndpoints g (result ++ u), alEdgesOf st2 x = []) := by
        intro u hu hsub
        constructor
        · constructor
          · intro j hj
            rcases List.mem_append.mp hj with h | h
            · exact hv.1 j h
            · exact hu.1 j h
          · rw [matchingEndpoints_append, List.nodup_append]
            refine ⟨hv.2, hu.2, ?_⟩
            intro a ha hab
            have hda : alEdgesOf st a = [] := hd a ha
            have hmem := hback a hda (hsub a hab)
            simp [matchingEndpoints] at hmem
        · intro x hx
          rw [matchingEndpoints_append] at hx
          rcases List.mem_append.mp hx with h | h
          · exact al_dead_persist st st2 hshr x (hd x h)
          · exact hdeadU x (hsub x h)
      by_cases hsc : getScore (u1.map g.edge) > getScore (u2.map g.edge)
      · rw [if_pos hsc] at hok
        obtain ⟨hcv, hcd⟩ := hcommit u1 hu1 (fun x hx => by
          rw [matchingEndpoints_append]; exact List.mem_append_left _ hx)
        exact ih st2 (result ++ u1) m hok hai2 hcv hcd
      · rw [if_neg hsc] at hok
        obtain ⟨hcv, hcd⟩ := hcommit u2 hu2 (fun x hx => by
          rw [matchingEndpoints_append]; exact List.mem_append_right _ hx)
        exact ih st2 (result ++ u2) m hok hai2 hcv hcd

theorem pathGrowingPatched_valid (g : Graph) (hwf : WellFormed g = true) (fuel : Nat)
    (m : List Nat) (hok : pathGrowingPatched g fuel = .ok m) : ValidMatching g m := by
  rw [pathGrowingPatched] at hok
  exact pgpOuter_post g hwf fuel (List.range g.n) (alFill g) [] m hok (alFill_inv g hwf)
    ⟨by simp, by simp [matchingEndpoints]⟩ (by simp [matchingEndpoints])

theorem getD_set_ne2 {α : Type} (l : List (Option α)) (a w : Nat) (v : Option α)
    (h : a ≠ w) : (l.set a v).getD w none = l.getD w none := by
  simp [List.getD_eq_getElem?_getD, List.getElem?_set_ne h]

theorem getD_set_self2 {α : Type} (l : List (Option α)) (a : Nat) (v : Option α)
    (h : a < l.length) : (l.set a v).getD a none = v := by
  simp [List.getD_eq_getElem?_getD, List.getElem?_set_self, h]

theorem getD_some_lt2 {α : Type} (l : List (Option α)) (v : Nat) (a : α)
    (h : l.getD v none = some a) : v < l.length := by
  by_contra hge
  rw [List.getD_eq_getElem?_getD, List.getElem?_eq_none (Nat.le_of_not_lt hge)] at h
  simp at h

theorem getD_ne_none_lt {α : Type} (l : List (Option α)) (v : Nat)
    (h : l.getD v none ≠ none) : v < l.length := by
  rcases hg : l.getD v none with _ | a
  · exact absurd hg h
  · exact getD_some_lt2 l v a hg

theorem getD_replicate_none {α : Type} (n v : Nat) :
    (List.replicate n (none : Option α)).getD v none = none := by
  rw [List.getD_eq_getElem?_getD, List.getElem?_replicate]
  by_cases hv : v < n
  · rw [if_pos hv]
    rfl
  · rw [if_neg hv]
    rfl

theorem augmentTree_post (g : Graph) (picked : List (Option Nat)) :
    ∀ (fuel : Nat) (label : List (Option TLabel)) (x : Nat) (labF : List (Option TLabel)),
      augmentTree g picked fuel label x = .ok labF →
      TInvMid g label picked x →
      TInv g labF picked ∧
      (∀ y, label.getD y none ≠ none → labF.getD y none ≠ none) ∧
      (∀ y, pickFree g picked y → labF.getD y none = some TLabel.chosen →
        label.getD y none = some TLabel.chosen) ∧
      (pickFree g picked x → labF.getD x none ≠ some TLabel.chosen) := by
  intro fuel
  induction fuel with
  | zero =>
    intro label x labF hok
    rw [augmentTree] at hok
    cases hok
  | succ fuel ih =>
    intro label x labF hok hinv
    obtain ⟨hlenL, hlenP, h0, h1, h2, h4⟩ := hinv
    rw [augmentTree] at hok
    rcases hpk : picked.getD x none with _ | edge
    · rw [hpk] at hok
      replace hok : (Except.ok label : Except MatchErr (List (Option TLabel))) = .ok labF := hok
      injection hok with hok
      subst hok
      have hxnotch : label.getD x none ≠ some TLabel.chosen := by
        intro hc
        exact h0 x hc hpk
      refine ⟨⟨hlenL, hlenP, h0, h1, ?_, h4⟩, fun y hy => hy, fun y _ hy => hy,
        fun _ => hxnotch⟩
      intro v e hv hpkv
      rcases h2 v e hv hpkv with heq | hne
      · rw [heq]
        exact hxnotch
      · exact hne
    · rw [hpk] at hok
      replace hok : (match label.getD x none with
        | none => (Except.ok label : Except MatchErr (List (Option TLabel)))
        | some _ =>
          match picked.getD (otherEnd g edge x) none with
          | none => .ok (label.set x (some TLabel.visited))
          | some nextEdge =>
            augmentTree g picked fuel
              ((label.set x (some TLabel.visited)).set (otherEnd g edge x)
                (some TLabel.chosen))
              (otherEnd g nextEdge (otherEnd g edge x))) = .ok labF := hok
      rcases hlb : label.getD x none with _ | lx
      · rw [hlb] at hok
        replace hok : (Except.ok label : Except MatchErr (List (Option TLabel))) = .ok labF := hok
        injection hok with hok
        subst hok
        have hxnotch : label.getD x none ≠ some TLabel.chosen := by
          rw [hlb]
          intro hc
          cases hc
        refine ⟨⟨hlenL, hlenP, h0, h1, ?_, h4⟩, fun y hy => hy, fun y _ hy => hy,
          fun _ => hxnotch⟩
        intro v e hv hpkv
        rcases h2 v e hv hpkv with heq | hne
        · exfalso
          have hlw := (h1 v e hpkv).2.2.2.2
          rw [heq, hlb] at hlw
          exact hlw rfl
        · exact hne
      · rw [hlb] at hok
        obtain ⟨helt, heinc, hexne, _, hlabN⟩ := h1 x edge hpk
        have hx_lt : x < label.length := getD_some_lt2 label x lx hlb
        have hN_lt : otherEnd g edge x < label.length := by
          rw [hlenL]
          rw [← hlenL]
          exact getD_ne_none_lt label _ hlabN
        have hL1 : ∀ w, ((label.set x (some TLabel.visited)) : List (Option TLabel)).getD w none =
            if x = w then some TLabel.visited else label.getD w none := by
          intro w
          by_cases hw : x = w
          · rw [if_pos hw, ← hw, getD_set_self2 label x _ hx_lt]
          · rw [if_neg hw, getD_set_ne2 label x w _ hw]
        rcases hpk2 : picked.getD (otherEnd g edge x) none with _ | nextEdge
        · rw [hpk2] at hok
          replace hok : (Except.ok (label.set x (some TLabel.visited)) :
            Except MatchErr (List (Option TLabel))) = .ok labF := hok
          injection hok with hok
          subst hok
          refine ⟨⟨by rw [List.length_set]; exact hlenL, hlenP, ?_, ?_, ?_, h4⟩,
            ?_, ?_, ?_⟩
          · intro v hv
            rw [hL1] at hv
            by_cases hw : x = v
            · rw [if_pos hw] at hv
              cases hv
            · rw [if_neg hw] at hv
              exact h0 v hv
          · intro v e hv
            obtain ⟨ha, hb, hc, hd, he⟩ := h1 v e hv
            refine ⟨ha, hb, hc, ?_, ?_⟩
            · rw [hL1]
              by_cases hw : x = v
              · rw [if_pos hw]
                intro hcon
                cases hcon
              · rw [if_neg hw]
                exact hd
            · rw [hL1]
              by_cases hw : x = otherEnd g e v
              · rw [if_pos hw]
                intro hcon
                cases hcon
              · rw [if_neg hw]
                exact he
          · intro v e hv hpkv
            rw [hL1] at hv
            by_cases hw : x = v
            · rw [if_pos hw] at hv
              cases hv
            · rw [if_neg hw] at hv
              rw [hL1]
              by_cases hw2 : x = otherEnd g e v
              · rw [if_pos hw2]
                intro hcon
                cases hcon
              · rw [if_neg hw2]
                rcases h2 v e hv hpkv with heq | hne
                · exact absurd heq.symm hw2
                · exact hne
          · intro y hy
            rw [hL1]
            by_cases hw : x = y
            · rw [if_pos hw]
              intro hcon
              cases hcon
            · rw [if_neg hw]
              exact hy
          · intro y _ hy
            rw [hL1] at hy
            by_cases hw : x = y
            · rw [if_pos hw] at hy
              cases hy
            · rw [if_neg hw] at hy
              exact hy
          · intro _
            rw [hL1, if_pos rfl]
            intro hcon
            cases hcon
        · rw [hpk2] at hok
          replace hok : augmentTree g picked fuel
              ((label.set x (some TLabel.visited)).set (otherEnd g edge x)
                (some TLabel.chosen))
              (otherEnd g nextEdge (otherEnd g edge x)) = .ok labF := hok
          have hL2 : ∀ w, (((label.set x (some TLabel.visited)).set (otherEnd g edge x)
              (some TLabel.chosen)) : List (Option TLabel)).getD w none =
              if otherEnd g edge x = w then some TLabel.chosen
              else if x = w then some TLabel.visited else label.getD w none := by
            intro w
            by_cases hw : otherEnd g edge x = w
            · rw [if_pos hw, ← hw,
                getD_set_self2 _ _ _ (by rw [List.length_set]; exact hN_lt)]
            · rw [if_neg hw, getD_set_ne2 _ _ w _ hw, hL1]
          have hmid : TInvMid g ((label.set x (some TLabel.visited)).set
              (otherEnd g edge x) (some TLabel.chosen)) picked
              (otherEnd g nextEdge (otherEnd g edge x)) := by
            refine ⟨by rw [List.length_set, List.length_set]; exact hlenL, hlenP,
              ?_, ?_, ?_, h4⟩
            · intro v hv
              rw [hL2] at hv
              by_cases hw : otherEnd g edge x = v
              · rw [← hw]
                intro hcon
                rw [hpk2] at hcon
                cases hcon
              · rw [if_neg hw] at hv
                by_cases hw2 : x = v
                · rw [if_pos hw2] at hv
                  cases hv
                · rw [if_neg hw2] at hv
                  exact h0 v hv
            · intro v e hv
              obtain ⟨ha, hb, hc, hd, he⟩ := h1 v e hv
              refine ⟨ha, hb, hc, ?_, ?_⟩
              · rw [hL2]
                by_cases hw : otherEnd g edge x = v
                · rw [if_pos hw]
                  intro hcon
                  cases hcon
                · rw [if_neg hw]
                  by_cases hw2 : x = v
                  · rw [if_pos hw2]
                    intro hcon
                    cases hcon
                  · rw [if_neg hw2]
                    exact hd
              · rw [hL2]
                by_cases hw : otherEnd g edge x = otherEnd g e v
                · rw [if_pos hw]
                  intro hcon
                  cases hcon
                · rw [if_neg hw]
                  by_cases hw2 : x = otherEnd g e v
                  · rw [if_pos hw2]
                    intro hcon
                    cases hcon
                  · rw [if_neg hw2]
                    exact he
            · intro v e hv hpkv
              rw [hL2] at hv
              by_cases hw : otherEnd g edge x = v
              · -- v is the newly chosen node: its pick is nextEdge
                have hveq : e = nextEdge := by
                  rw [← hw] at hpkv
                  rw [hpk2] at hpkv
                  injection hpkv with hpkv
                  exact hpkv.symm
                subst hveq
                subst hw
                exact Or.inl rfl
              · rw [if_neg hw] at hv
                by_cases hw2 : x = v
                · rw [if_pos hw2] at hv
                  cases hv
                · rw [if_neg hw2] at hv
                  rcases h2 v e hv hpkv with heq | hne
                  · right
                    rw [heq, hL2]
                    rw [if_neg (fun hcon => hexne hcon)]
                    rw [if_pos rfl]
                    intro hcon
                    cases hcon
                  · right
                    rw [hL2]
                    have hwne : otherEnd g edge x ≠ otherEnd g e v := by
                      intro hcon
                      exact h4 x edge v e hpk hpkv hw2 hcon
                    rw [if_neg hwne]
                    by_cases hw3 : x = otherEnd g e v
                    · rw [if_pos hw3]
                      intro hcon
                      cases hcon
                    · rw [if_neg hw3]
                      exact hne
          obtain ⟨hTF, hgrowF, hconj3F, _⟩ := ih _ _ labF hok hmid
          refine ⟨hTF, ?_, ?_, ?_⟩
          · intro y hy
            refine hgrowF y ?_
            rw [hL2]
            by_cases hw : otherEnd g edge x = y
            · rw [if_pos hw]
              intro hcon
              cases hcon
            · rw [if_neg hw]
              by_cases hw2 : x = y
              · rw [if_pos hw2]
                intro hcon
                cases hcon
              · rw [if_neg hw2]
                exact hy
          · intro y hpf hy
            have hy2 := hconj3F y hpf hy
            rw [hL2] at hy2
            by_cases hw : otherEnd g edge x = y
            · exfalso
              exact hpf x edge hpk hw
            · rw [if_neg hw] at hy2
              by_cases hw2 : x = y
              · rw [if_pos hw2] at hy2
                cases hy2
              · rw [if_neg hw2] at hy2
                exact hy2
          · intro hpf hc
            have hc2 := hconj3F x hpf hc
            rw [hL2] at hc2
            rw [if_neg (fun hcon => hexne hcon)] at hc2
            rw [if_pos rfl] at hc2
            cases hc2

theorem insertByWeightDescIdx_perm (g : Graph) (x : Nat) (l : List Nat) :
    List.Perm (insertByWeightDescIdx g x l) (x :: l) := by
  induction l with
  | nil => rfl
  | cons y ys ih =>
    rw [insertByWeightDescIdx]
    by_cases h : (g.edge x).weight ≥ (g.edge y).weight
    · rw [if_pos h]
    · rw [if_neg h]
      exact (ih.cons y).trans (List.Perm.swap x y ys)

theorem sortEdgesDesc_perm (g : Graph) (l : List Nat) :
    List.Perm (sortEdgesDesc g l) l := by
  induction l with
  | nil => rfl
  | cons y ys ih =>
    rw [sortEdgesDesc, List.foldr_cons]
    exact (insertByWeightDescIdx_perm g y _).trans (ih.cons y)

theorem tinv_mid (g : Graph) (label : List (Option TLabel)) (picked : List (Option Nat))
    (n : Nat) (h : TInv g label picked) : TInvMid g label picked n := by
  obtain ⟨a, b, c, d, e, f⟩ := h
  exact ⟨a, b, c, d, fun v ev hv hp => Or.inr (e v ev hv hp), f⟩

theorem grow_post (g : Graph) (adj : AdjListD) (hwf : WellFormed g = true)
    (hal : ALInv g adj) :
    ∀ fuel : Nat,
      (∀ (label : List (Option TLabel)) (picked : List (Option Nat)) (node : Nat)
        (path : List Nat) (labF : List (Option TLabel)) (pickF : List (Option Nat)) (sc : Int),
        growTree g adj fuel label picked node path = .ok (labF, pickF, sc) →
        TInv g label picked →
        node < g.n →
        TInv g labF pickF ∧
        (∀ y, label.getD y none ≠ none → labF.getD y none ≠ none) ∧
        (∀ y, label.getD y none ≠ none → pickFree g picked y → pickFree g pickF y) ∧
        (pickFree g picked node → pickFree g pickF node) ∧
        (alEdgesOf adj node ≠ [] → labF.getD node none ≠ none)) ∧
      (∀ (label : List (Option TLabel)) (picked : List (Option Nat)) (node : Nat)
        (path : List Nat) (ms : Int) (edges : List Nat)
        (labF : List (Option TLabel)) (pickF : List (Option Nat)) (sc : Int),
        growLoop g adj fuel label picked node path ms edges = .ok (labF, pickF, sc) →
        TInv g label picked →
        node < g.n →
        label.getD node none ≠ none →
        pickFree g picked node →
        (∀ e ∈ edges, e < g.edges.length ∧ Incident g e node ∧
          ∃ lw, alGet adj (otherEnd g e node) = some lw ∧ e ∈ lw) →
        TInv g labF pickF ∧
        (∀ y, label.getD y none ≠ none → labF.getD y none ≠ none) ∧
        (∀ y, label.getD y none ≠ none → pickFree g picked y → pickFree g pickF y)) := by
  intro fuel
  induction fuel with
  | zero =>
    constructor
    · intro label picked node path labF pickF sc hok
      rw [growTree] at hok
      cases hok
    · intro label picked node path ms edges labF pickF sc hok
      rw [growLoop] at hok
      cases hok
  | succ fuel ih =>
    obtain ⟨ihT, ihL⟩ := ih
    constructor
    · -- growTree
      intro label picked node path labF pickF sc hok hinv hnode
      rw [growTree] at hok
      rcases hlb : label.getD node none with _ | l0
      · rw [hlb] at hok
        rcases hedges : alEdgesOf adj node with _ | ⟨d, ds⟩
        · rw [hedges] at hok
          replace hok : (Except.ok (label, picked, (0 : Int)) :
            Except MatchErr (List (Option TLabel) × List (Option Nat) × Int)) =
            .ok (labF, pickF, sc) := hok
          injection hok with hok
          injection hok with h1e h2e
          subst h1e
          injection h2e with h3e h4e
          subst h3e
          subst h4e
          exact ⟨hinv, fun y hy => hy, fun y _ hy => hy, fun hy => hy,
            fun hcon => absurd rfl hcon⟩
        · rw [hedges] at hok
          replace hok : growLoop g adj fuel (label.set node (some TLabel.visited)) picked
            node path 0 (sortEdgesDesc g (d :: ds)) = .ok (labF, pickF, sc) := hok
          obtain ⟨hlenL, hlenP, h0, h1, h2, h4⟩ := hinv
          have hnode_lt : node < label.length := by
            rw [hlenL]
            exact hnode
          have hL1 : ∀ w, ((label.set node (some TLabel.visited)) :
              List (Option TLabel)).getD w none =
              if node = w then some TLabel.visited else label.getD w none := by
            intro w
            by_cases hw : node = w
            · rw [if_pos hw, ← hw, getD_set_self2 label node _ hnode_lt]
            · rw [if_neg hw, getD_set_ne2 label node w _ hw]
          have hinv1 : TInv g (label.set node (some TLabel.visited)) picked := by
            refine ⟨by rw [List.length_set]; exact hlenL, hlenP, ?_, ?_, ?_, h4⟩
            · intro v hv
              rw [hL1] at hv
              by_cases hw : node = v
              · rw [if_pos hw] at hv
                cases hv
              · rw [if_neg hw] at hv
                exact h0 v hv
            · intro v e hv
              obtain ⟨ha, hb, hc, hd, he⟩ := h1 v e hv
              refine ⟨ha, hb, hc, ?_, ?_⟩
              · rw [hL1]
                by_cases hw : node = v
                · rw [if_pos hw]
                  intro hcon
                  cases hcon
                · rw [if_neg hw]
                  exact hd
              · rw [hL1]
                by_cases hw : node = otherEnd g e v
                · rw [if_pos hw]
                  intro hcon
                  cases hcon
                · rw [if_neg hw]
                  exact he
            · intro v e hv hpkv
              rw [hL1] at hv
              by_cases hw : node = v
              · rw [if_pos hw] at hv
                cases hv
              · rw [if_neg hw] at hv
                rw [hL1]
                by_cases hw2 : node = otherEnd g e v
                · rw [if_pos hw2]
                  intro hcon
                  cases hcon
                · rw [if_neg hw2]
                  exact h2 v e hv hpkv
          have hpf_node : pickFree g picked node := by
            intro v e hv hcon
            have hl := (h1 v e hv).2.2.2.2
            rw [hcon, hlb] at hl
            exact hl rfl
          have halget : alGet adj node = some (d :: ds) := by
            have hthis := alGet_of_edges_ne_nil adj node (by rw [hedges]; simp)
            rw [hedges] at hthis
            exact hthis
          have hfacts : ∀ e ∈ sortEdgesDesc g (d :: ds), e < g.edges.length ∧
              Incident g e node ∧
              ∃ lw, alGet adj (otherEnd g e node) = some lw ∧ e ∈ lw := by
            intro e he
            have hmem : e ∈ d :: ds := (sortEdgesDesc_perm g (d :: ds)).mem_iff.mp he
            exact hal.2 node (d :: ds) halget e hmem
          obtain ⟨hTF, hgrowF, hpfF⟩ := ihL _ picked node path 0 _ labF pickF sc hok hinv1
            hnode (by rw [hL1, if_pos rfl]; intro hcon; cases hcon) hpf_node hfacts
          refine ⟨hTF, ?_, ?_, ?_, ?_⟩
          · intro y hy
            refine hgrowF y ?_
            rw [hL1]
            by_cases hw : node = y
            · rw [if_pos hw]
              intro hcon
              cases hcon
            · rw [if_neg hw]
              exact hy
          · intro y hy hpf
            refine hpfF y ?_ hpf
            rw [hL1]
            by_cases hw : node = y
            · rw [if_pos hw]
              intro hcon
              cases hcon
            · rw [if_neg hw]
              exact hy
          · intro hpf
            exact hpfF node (by rw [hL1, if_pos rfl]; intro hcon; cases hcon) hpf
          · intro _
            exact hgrowF node (by rw [hL1, if_pos rfl]; intro hcon; cases hcon)
      · rw [hlb] at hok
        replace hok : (Except.ok (label, picked, (0 : Int)) :
          Except MatchErr (List (Option TLabel) × List (Option Nat) × Int)) =
          .ok (labF, pickF, sc) := hok
        injection hok with hok
        injection hok with h1e h2e
        subst h1e
        injection h2e with h3e h4e
        subst h3e
        subst h4e
        refine ⟨hinv, fun y hy => hy, fun y _ hy => hy, fun hy => hy, fun _ => ?_⟩
        rw [hlb]
        intro hcon
        cases hcon
    · -- growLoop
      intro label picked node path ms edges labF pickF sc hok hinv hnode hlabnode hpfnode hedges
      rcases edges with _ | ⟨edge, rest⟩
      · rw [growLoop] at hok
        replace hok : (Except.ok (label, picked, ms) :
          Except MatchErr (List (Option TLabel) × List (Option Nat) × Int)) =
          .ok (labF, pickF, sc) := hok
        injection hok with hok
        injection hok with h1e h2e
        subst h1e
        injection h2e with h3e h4e
        subst h3e
        subst h4e
        exact ⟨hinv, fun y hy => hy, fun y _ hy => hy⟩
      · rw [growLoop] at hok
        by_cases hskip : path.getLast? = some (otherEnd g edge node)
        · rw [if_pos hskip] at hok
          exact ihL label picked node path ms rest labF pickF sc hok hinv hnode hlabnode
            hpfnode (fun e he => hedges e (by simp [he]))
        · rw [if_neg hskip] at hok
          rcases hcyc : label.getD (otherEnd g edge node) none with _ | lc
          · rw [hcyc] at hok
            replace hok : (match growTree g adj fuel label picked (otherEnd g edge node)
                (path ++ [node]) with
              | .error err => (Except.error err :
                  Except MatchErr (List (Option TLabel) × List (Option Nat) × Int))
              | .ok (label2, picked2, subScore) =>
                if (g.edge edge).weight - subScore > ms then
                  match augmentTree g picked2 fuel label2 (otherEnd g edge node) with
                  | .error err => .error err
                  | .ok label3 =>
                    growLoop g adj fuel (label3.set node (some TLabel.chosen))
                      (picked2.set node (some edge)) node path
                      ((g.edge edge).weight - subScore) rest
                else
                  growLoop g adj fuel label2 picked2 node path ms rest) =
              .ok (labF, pickF, sc) := hok
            obtain ⟨helt, heinc, lw, hlw, hjw⟩ := hedges edge (by simp)
            have hef := wf_edge_facts g hwf edge helt
            have hnn_lt : otherEnd g edge node < g.n := by
              rcases other_spec g edge node heinc with ⟨_, hb⟩ | ⟨_, hb⟩
              · rw [← hb]
                exact hef.2.1
              · rw [← hb]
                exact hef.1
            have hne_nn : otherEnd g edge node ≠ node :=
              otherEnd_ne_self g edge node hef.2.2.1 heinc
            rcases hchild : growTree g adj fuel label picked (otherEnd g edge node)
                (path ++ [node]) with err | ⟨label2, picked2, subScore⟩
            · rw [hchild] at hok
              replace hok : (Except.error err :
                Except MatchErr (List (Option TLabel) × List (Option Nat) × Int)) =
                .ok (labF, pickF, sc) := hok
              cases hok
            · rw [hchild] at hok
              replace hok : (if (g.edge edge).weight - subScore > ms then
                  match augmentTree g picked2 fuel label2 (otherEnd g edge node) with
                  | .error err => (Except.error err :
                      Except MatchErr (List (Option TLabel) × List (Option Nat) × Int))
                  | .ok label3 =>
                    growLoop g adj fuel (label3.set node (some TLabel.chosen))
                      (picked2.set node (some edge)) node path
                      ((g.edge edge).weight - subScore) rest
                else
                  growLoop g adj fuel label2 picked2 node path ms rest) =
                .ok (labF, pickF, sc) := hok
              obtain ⟨hTI2, hgrow2, hpfl2, hpfn2, hlab5⟩ := ihT label picked
                (otherEnd g edge node) (path ++ [node]) label2 picked2 subScore hchild
                hinv hnn_lt
              have hpfnn : pickFree g picked (otherEnd g edge node) := by
                intro v e hv hcon
                have hl := (hinv.2.2.2.1 v e hv).2.2.2.2
                rw [hcon, hcyc] at hl
                exact hl rfl
              have hpfnn2 : pickFree g picked2 (otherEnd g edge node) := hpfn2 hpfnn
              have hlabnn2 : label2.getD (otherEnd g edge node) none ≠ none := by
                refine hlab5 ?_
                rw [alEdgesOf_eq_of_get adj _ lw hlw]
                intro hcon
                rw [hcon] at hjw
                simp at hjw
              have hlabnode2 : label2.getD node none ≠ none := hgrow2 node hlabnode
              have hpfnode2 : pickFree g picked2 node := hpfl2 node hlabnode hpfnode
              by_cases hsc2 : (g.edge edge).weight - subScore > ms
              · rw [if_pos hsc2] at hok
                rcases haug : augmentTree g picked2 fuel label2 (otherEnd g edge node)
                    with err | label3
                · rw [haug] at hok
                  replace hok : (Except.error err :
                    Except MatchErr (List (Option TLabel) × List (Option Nat) × Int)) =
                    .ok (labF, pickF, sc) := hok
                  cases hok
                · rw [haug] at hok
                  replace hok : growLoop g adj fuel (label3.set node (some TLabel.chosen))
                    (picked2.set node (some edge)) node path
                    ((g.edge edge).weight - subScore) rest = .ok (labF, pickF, sc) := hok
                  obtain ⟨hTI3, hgrow3, hconj3, hconj4⟩ := augmentTree_post g picked2 fuel
                    label2 (otherEnd g edge node) label3 haug
                    (tinv_mid g label2 picked2 _ hTI2)
                  have hnotch3 : label3.getD (otherEnd g edge node) none ≠
                      some TLabel.chosen := hconj4 hpfnn2
                  obtain ⟨l3a, l3b, g0₃, g1₃, g2₃, g4₃⟩ := hTI3
                  have hnode_lt3 : node < label3.length := by
                    rw [l3a]
                    exact hnode
                  have hnode_ltP : node < picked2.length := by
                    rw [l3b]
                    exact hnode
                  have hL4 : ∀ w, ((label3.set node (some TLabel.chosen)) :
                      List (Option TLabel)).getD w none =
                      if node = w then some TLabel.chosen else label3.getD w none := by
                    intro w
                    by_cases hw : node = w
                    · rw [if_pos hw, ← hw, getD_set_self2 label3 node _ hnode_lt3]
                    · rw [if_neg hw, getD_set_ne2 label3 node w _ hw]
                  have hP4 : ∀ w, ((picked2.set node (some edge)) :
                      List (Option Nat)).getD w none =
                      if node = w then some edge else picked2.getD w none := by
                    intro w
                    by_cases hw : node = w
                    · rw [if_pos hw, ← hw, getD_set_self2 picked2 node _ hnode_ltP]
                    · rw [if_neg hw, getD_set_ne2 picked2 node w _ hw]
                  have hlabnn3 : label3.getD (otherEnd g edge node) none ≠ none :=
                    hgrow3 _ hlabnn2
                  have hinv4 : TInv g (label3.set node (some TLabel.chosen))
                      (picked2.set node (some edge)) := by
                    refine ⟨by rw [List.length_set]; exact l3a,
                      by rw [List.length_set]; exact l3b, ?_, ?_, ?_, ?_⟩
                    · intro v hv
                      rw [hP4]
                      by_cases hw : node = v
                      · rw [if_pos hw]
                        intro hcon
                        cases hcon
                      · rw [if_neg hw]
                        rw [hL4, if_neg hw] at hv
                        exact g0₃ v hv
                    · intro v e hv
                      rw [hP4] at hv
                      by_cases hw : node = v
                      · rw [if_pos hw] at hv
                        injection hv with hv
                        subst hv
                        subst hw
                        refine ⟨helt, heinc, hne_nn, ?_, ?_⟩
                        · rw [hL4, if_pos rfl]
                          intro hcon
                          cases hcon
                        · rw [hL4, if_neg (fun hcon => hne_nn hcon.symm)]
                          exact hlabnn3
                      · rw [if_neg hw] at hv
                        obtain ⟨ha, hb, hc, hd, he⟩ := g1₃ v e hv
                        refine ⟨ha, hb, hc, ?_, ?_⟩
                        · rw [hL4]
                          by_cases hw2 : node = v
                          · rw [if_pos hw2]
                            intro hcon
                            cases hcon
                          · rw [if_neg hw2]
                            exact hd
                        · rw [hL4]
                          by_cases hw2 : node = otherEnd g e v
                          · rw [if_pos hw2]
                            intro hcon
                            cases hcon
                          · rw [if_neg hw2]
                            exact he
                    · intro v e hv hpkv
                      rw [hP4] at hpkv
                      by_cases hw : node = v
                      · rw [if_pos hw] at hpkv
                        injection hpkv with hpkv
                        subst hpkv
                        subst hw
                        rw [hL4, if_neg (fun hcon => hne_nn hcon.symm)]
                        exact hnotch3
                      · rw [if_neg hw] at hpkv
                        rw [hL4, if_neg hw] at hv
                        rw [hL4]
                        by_cases hw2 : node = otherEnd g e v
                        · exfalso
                          exact hpfnode2 v e hpkv hw2.symm
                        · rw [if_neg hw2]
                          exact g2₃ v e hv hpkv
                    · intro u eu v ev hu hv huv
                      rw [hP4] at hu hv
                      by_cases hwu : node = u
                      · rw [if_pos hwu] at hu
                        injection hu with hu
                        subst hu
                        subst hwu
                        rw [if_neg (fun hcon => huv hcon)] at hv
                        intro hcon
                        exact hpfnn2 v ev hv hcon.symm
                      · rw [if_neg hwu] at hu
                        by_cases hwv : node = v
                        · rw [if_pos hwv] at hv
                          injection hv with hv
                          subst hv
                          subst hwv
                          intro hcon
                          exact hpfnn2 u eu hu hcon
                        · rw [if_neg hwv] at hv
                          exact g4₃ u eu v ev hu hv huv
                  have hpfnode4 : pickFree g (picked2.set node (some edge)) node := by
                    intro v e hv
                    rw [hP4] at hv
                    by_cases hw : node = v
                    · rw [if_pos hw] at hv
                      injection hv with hv
                      subst hv
                      subst hw
                      exact hne_nn
                    · rw [if_neg hw] at hv
                      exact hpfnode2 v e hv
                  obtain ⟨hTF, hgrowF, hpfF⟩ := ihL _ _ node path _ rest labF pickF sc hok
                    hinv4 hnode (by rw [hL4, if_pos rfl]; intro hcon; cases hcon) hpfnode4
                    (fun e he => hedges e (by simp [he]))
                  refine ⟨hTF, ?_, ?_⟩
                  · intro y hy
                    refine hgrowF y ?_
                    rw [hL4]
                    by_cases hw : node = y
                    · rw [if_pos hw]
                      intro hcon
                      cases hcon
                    · rw [if_neg hw]
                      exact hgrow3 y (hgrow2 y hy)
                  · intro y hy hpf
                    have hy4 : ((label3.set node (some TLabel.chosen)) :
                        List (Option TLabel)).getD y none ≠ none := by
                      rw [hL4]
                      by_cases hw : node = y
                      · rw [if_pos hw]
                        intro hcon
                        cases hcon
                      · rw [if_neg hw]
                        exact hgrow3 y (hgrow2 y hy)
                    refine hpfF y hy4 ?_
                    intro v e hv
                    rw [hP4] at hv
                    by_cases hw : node = v
                    · rw [if_pos hw] at hv
                      injection hv with hv
                      subst hv
                      subst hw
                      intro hcon
                      rw [hcon] at hcyc
                      exact hy hcyc
                    · rw [if_neg hw] at hv
                      exact hpfl2 y hy hpf v e hv
              · rw [if_neg hsc2] at hok
                obtain ⟨hTF, hgrowF, hpfF⟩ := ihL label2 picked2 node path ms rest
                  labF pickF sc hok hTI2 hnode hlabnode2 hpfnode2
                  (fun e he => hedges e (by simp [he]))
                refine ⟨hTF, ?_, ?_⟩
                · intro y hy
                  exact hgrowF y (hgrow2 y hy)
                · intro y hy hpf
                  exact hpfF y (hgrow2 y hy) (hpfl2 y hy hpf)
          · rw [hcyc] at hok
            replace hok : growLoop g adj fuel label picked node path ms rest =
              .ok (labF, pickF, sc) := hok
            exact ihL label picked node path ms rest labF pickF sc hok hinv hnode hlabnode
              hpfnode (fun e he => hedges e (by simp [he]))

theorem extractSolution_mem (label : List (Option TLabel)) (picked : List (Option Nat))
    (e : Nat) (h : e ∈ extractSolution label picked) :
    ∃ v, picked.getD v none = some e ∧ label.getD v none = some TLabel.chosen := by
  rw [extractSolution, List.mem_filterMap] at h
  obtain ⟨⟨v, o⟩, hmem, hf⟩ := h
  rcases o with _ | e0
  · rw [extractStep] at hf
    cases hf
  · rw [extractStep] at hf
    have hg : picked.getD v none = some e0 := by
      rw [List.mk_mem_enum_iff_getElem?] at hmem
      rw [List.getD_eq_getElem?_getD, hmem]
      rfl
    rcases hlab : label.getD v none with _ | tl
    · rw [hlab] at hf
      replace hf : (none : Option Nat) = some e := hf
      cases hf
    · rcases tl with _ | _
      · rw [hlab] at hf
        replace hf : (some e0 : Option Nat) = some e := hf
        injection hf with hf
        subst hf
        exact ⟨v, hg, hlab⟩
      · rw [hlab] at hf
        replace hf : (none : Option Nat) = some e := hf
        cases hf

theorem extract_nodup_core (g : Graph) (label : List (Option TLabel))
    (picked : List (Option Nat)) (hTI : TInv g label picked) :
    ∀ q : List (Nat × Option Nat),
      (q.map Prod.fst).Nodup →
      (∀ p ∈ q, picked.getD (p : Nat × Option Nat).1 none = p.2) →
      (matchingEndpoints g (q.filterMap (extractStep label))).Nodup ∧
      (∀ x ∈ matchingEndpoints g (q.filterMap (extractStep label)),
        ∃ v e, v ∈ q.map Prod.fst ∧ label.getD v none = some TLabel.chosen ∧
          picked.getD v none = some e ∧ (x = v ∨ x = otherEnd g e v)) := by
  obtain ⟨_, _, hg0, hg1, hg2, hg4⟩ := hTI
  intro q
  induction q with
  | nil =>
    intro _ _
    constructor
    · simp [matchingEndpoints]
    · intro x hx
      simp [matchingEndpoints] at hx
  | cons p q' ih =>
    intro hfst hentry
    rcases p with ⟨v, o⟩
    rw [List.map_cons, List.nodup_cons] at hfst
    have hstep : extractStep label (v, o) = none ∨
        (∃ e, o = some e ∧ label.getD v none = some TLabel.chosen ∧
          extractStep label (v, o) = some e) := by
      rcases o with _ | e0
      · left
        rw [extractStep]
      · rcases hlab : label.getD v none with _ | tl
        · left
          rw [extractStep, hlab]
        · rcases tl with _ | _
          · right
            refine ⟨e0, rfl, rfl, ?_⟩
            rw [extractStep, hlab]
          · left
            rw [extractStep, hlab]
    obtain ⟨hnd, hmemC⟩ := ih hfst.2 (fun p hp => hentry p (by simp [hp]))
    rcases hstep with hnone | ⟨e, ho, hlab, hsome⟩
    · rw [List.filterMap_cons_none hnone]
      refine ⟨hnd, ?_⟩
      intro x hx
      obtain ⟨u, eu, hu1, hu2, hu3, hu4⟩ := hmemC x hx
      exact ⟨u, eu, by simp [hu1], hu2, hu3, hu4⟩
    · rw [List.filterMap_cons_some hsome]
      have hpk_v : picked.getD v none = some e := by
        have := hentry (v, o) (by simp)
        rw [ho] at this
        exact this
      obtain ⟨helt, hinc, hone, _, _⟩ := hg1 v e hpk_v
      have hends : matchingEndpoints g [e] = [(g.edge e).frm, (g.edge e).toN] := by
        simp [matchingEndpoints]
      have hepair : ∀ x ∈ matchingEndpoints g [e], x = v ∨ x = otherEnd g e v := by
        intro x hx
        rw [hends] at hx
        rcases List.mem_cons.mp hx with heq | hx2
        · subst heq
          rcases other_spec g e v hinc with ⟨a, _⟩ | ⟨_, b⟩
          · exact Or.inl a
          · exact Or.inr b
        · rw [List.mem_singleton] at hx2
          subst hx2
          rcases other_spec g e v hinc with ⟨_, b⟩ | ⟨a, _⟩
          · exact Or.inr b
          · exact Or.inl a
      have hsep : ∀ x ∈ matchingEndpoints g [e],
          x ∉ matchingEndpoints g (q'.filterMap (extractStep label)) := by
        intro x hx hx2
        obtain ⟨u, eu, hu1, hu2, hu3, hu4⟩ := hmemC x hx2
        rcases hepair x hx with heq | heq
        · subst heq
          rcases hu4 with he2 | he2
          · rw [he2] at hfst
            exact hfst.1 hu1
          · have := hg2 u eu hu2 hu3
            rw [← he2] at this
            exact this hlab
        · subst heq
          rcases hu4 with he2 | he2
          · have hch := hg2 v e hlab hpk_v
            rw [he2] at hch
            exact hch hu2
          · have hne_uv : u ≠ v := by
              intro hcon
              rw [hcon] at hu1
              exact hfst.1 hu1
            exact hg4 u eu v e hu3 hpk_v hne_uv he2.symm
      refine ⟨?_, ?_⟩
      · rw [show (e :: q'.filterMap (extractStep label)) =
            [e] ++ q'.filterMap (extractStep label) from rfl, matchingEndpoints_append,
          List.nodup_append]
        refine ⟨?_, hnd, ?_⟩
        · rw [hends]
          have hfne : (g.edge e).frm ≠ (g.edge e).toN := by
            rcases other_spec g e v hinc with ⟨a, b⟩ | ⟨a, b⟩
            · rw [a, b]
              exact fun hcon => hone hcon.symm
            · rw [a, b]
              exact hone
          simp [hfne]
        · intro x hx1 hx2
          exact hsep x hx1 hx2
      · intro x hx
        rw [show (e :: q'.filterMap (extractStep label)) =
            [e] ++ q'.filterMap (extractStep label) from rfl,
          matchingEndpoints_append] at hx
        rcases List.mem_append.mp hx with hx1 | hx2
        · exact ⟨v, e, by simp, hlab, hpk_v, hepair x hx1⟩
        · obtain ⟨u, eu, hu1, hu2, hu3, hu4⟩ := hmemC x hx2
          exact ⟨u, eu, by simp [hu1], hu2, hu3, hu4⟩

theorem treeGo_post (g : Graph) (adj : AdjListD) (hwf : WellFormed g = true)
    (hal : ALInv g adj) (fuel : Nat) :
    ∀ (vs : List Nat) (label : List (Option TLabel)) (picked : List (Option Nat))
      (labF : List (Option TLabel)) (pickF : List (Option Nat)),
      treeGo g adj fuel label picked vs = .ok (labF, pickF) →
      TInv g label picked →
      (∀ v ∈ vs, v < g.n) →
      TInv g labF pickF := by
  intro vs
  induction vs with
  | nil =>
    intro label picked labF pickF hok hinv _
    rw [treeGo] at hok
    injection hok with hok
    injection hok with h1e h2e
    subst h1e
    subst h2e
    exact hinv
  | cons v vs ih =>
    intro label picked labF pickF hok hinv hvs
    rw [treeGo] at hok
    rcases hgt : growTree g adj fuel label picked v [] with err | ⟨label2, picked2, sc⟩
    · rw [hgt] at hok
      replace hok : (Except.error err :
        Except MatchErr (List (Option TLabel) × List (Option Nat))) = .ok (labF, pickF) := hok
      cases hok
    · rw [hgt] at hok
      replace hok : treeGo g adj fuel label2 picked2 vs = .ok (labF, pickF) := hok
      have hpost := (grow_post g adj hwf hal fuel).1 label picked v [] label2 picked2 sc
        hgt hinv (hvs v (by simp))
      exact ih label2 picked2 labF pickF hok hpost.1 (fun u hu => hvs u (by simp [hu]))

theorem treeGrowing_valid (g : Graph) (hwf : WellFormed g = true) (fuel : Nat)
    (m : List Nat) (hok : treeGrowing g fuel = .ok m) : ValidMatching g m := by
  rw [treeGrowing] at hok
  rcases htg : treeGo g (alFill g) fuel (List.replicate g.n none) (List.replicate g.n none)
      (List.range g.n) with err | ⟨labF, pickF⟩
  · rw [htg] at hok
    replace hok : (Except.error err : Except MatchErr (List Nat)) = .ok m := hok
    cases hok
  · rw [htg] at hok
    replace hok : (Except.ok (extractSolution labF pickF) : Except MatchErr (List Nat)) =
      .ok m := hok
    injection hok with hok
    subst hok
    have hinv0 : TInv g (List.replicate g.n (none : Option TLabel))
        (List.replicate g.n (none : Option Nat)) := by
      refine ⟨List.length_replicate g.n none, List.length_replicate g.n none, ?_, ?_, ?_, ?_⟩
      · intro v hv
        rw [getD_replicate_none] at hv
        cases hv
      · intro v e hv
        rw [getD_replicate_none] at hv
        cases hv
      · intro v e hv
        rw [getD_replicate_none] at hv
        cases hv
      · intro u eu v ev hu
        rw [getD_replicate_none] at hu
        cases hu
    have hTF : TInv g labF pickF := treeGo_post g (alFill g) hwf (alFill_inv g hwf) fuel
      (List.range g.n) _ _ labF pickF htg hinv0 (fun v hv => List.mem_range.mp hv)
    constructor
    · intro e he
      obtain ⟨v, hpk, _⟩ := extractSolution_mem labF pickF e he
      exact (hTF.2.2.2.1 v e hpk).1
    · rw [extractSolution]
      refine (extract_nodup_core g labF pickF hTF pickF.enum ?_ ?_).1
      · exact List.nodup_enum_map_fst pickF
      · intro p hp
        rcases p with ⟨v, o⟩
        rw [List.mk_mem_enum_iff_getElem?] at hp
        rw [List.getD_eq_getElem?_getD, hp]
        rfl

theorem wf_edges_in_range (g : Graph) (hwf : WellFormed g = true) :
    EdgesInRange g = true := by
  rw [EdgesInRange, List.all_eq_true]
  intro e he
  rw [WellFormed, Bool.and_eq_true] at hwf
  have h1 := hwf.1
  rw [List.all_eq_true] at h1
  have h2 := h1 e he
  simp only [Bool.and_eq_true, decide_eq_true_eq] at h2 ⊢
  exact ⟨h2.1.1.1, h2.1.1.2⟩

theorem naive_valid (g : Graph) (hr : EdgesInRange g = true) :
    ValidMatching g (naive g) := by
  rw [naive]
  by_cases hc : 50 < g.n
  · rw [if_pos hc]
    exact ⟨by simp, by simp [matchingEndpoints]⟩
  · rw [if_neg hc]
    have hsound : ∀ p ∈ alEntries (alFillForward g), ∀ i ∈ (p : Nat × List Nat).2,
        i < g.edges.length ∧ (g.edge i).frm = p.1 := by
      rintro ⟨v, l⟩ hp i hi
      rw [alEntries_mem g hr] at hp
      obtain ⟨hv, hl, _⟩ := hp
      subst hl
      exact (fwList_mem' g v i).mp hi
    rcases naiveBest_mem g (naiveEnum g (alEntries (alFillForward g)) []) [] with h | h
    · rw [h]
      exact ⟨by simp, by simp [matchingEndpoints]⟩
    · exact naiveEnum_valid g _ [] _ h hsound ⟨by simp, by simp [matchingEndpoints]⟩

theorem ebnLookup_facts (g : Graph) (a b : Int) (i : Nat)
    (h : ebnLookup (edgesByNodes g) (a, b) = some i) :
    i < g.edges.length ∧ ((g.edge i).frm : Int) = a ∧ ((g.edge i).toN : Int) = b := by
  rw [ebnLookup] at h
  rcases hf : (edgesByNodes g).find? (fun q => q.1 == (a, b)) with _ | q
  · rw [hf] at h; cases h
  · rw [hf] at h
    injection h with h
    have hmem := List.mem_of_find?_eq_some hf
    have hpred := List.find?_some hf
    rw [edgesByNodes, List.mem_reverse, List.mem_map] at hmem
    obtain ⟨p, hp, hq⟩ := hmem
    obtain ⟨hlt, hedge⟩ := indexedEdges_mem_facts g p hp
    rw [beq_iff_eq] at hpred
    subst hq
    simp only at hpred h
    subst h
    refine ⟨hlt, ?_, ?_⟩
    · rw [hedge]; exact congrArg Prod.fst hpred
    · rw [hedge]; exact congrArg Prod.snd hpred

theorem decompressGo_post (g : Graph) (hwf : WellFormed g = true) :
    ∀ (mates : List (Int × Int)) (inM : List Int) (acc : List Nat),
      ValidMatching g acc →
      (∀ x ∈ matchingEndpoints g acc, (x : Int) ∈ inM) →
      ∀ out, decompressGo g mates inM acc = .ok out → ValidMatching g out := by
  intro mates
  induction mates with
  | nil =>
    intro inM acc hv _ out hok
    rw [decompressGo] at hok
    injection hok with hok
    subst hok
    exact hv
  | cons pr rest ih =>
    intro inM acc hv hcl out hok
    obtain ⟨frm, toV⟩ := pr
    rw [decompressGo] at hok
    by_cases h1 : toV = NoVertex
    · rw [if_pos h1] at hok
      exact ih inM acc hv hcl out hok
    · rw [if_neg h1] at hok
      by_cases h2 : frm ∈ inM ∨ toV ∈ inM
      · rw [if_pos h2] at hok
        exact ih inM acc hv hcl out hok
      · rw [if_neg h2] at hok
        have hstep : ∀ (i : Nat),
            ((g.edge i).frm : Int) = frm ∧ ((g.edge i).toN : Int) = toV ∨
            ((g.edge i).frm : Int) = toV ∧ ((g.edge i).toN : Int) = frm →
            i < g.edges.length →
            decompressGo g rest (frm :: toV :: inM) (acc ++ [i]) = .ok out →
            ValidMatching g out := by
          intro i hor hlt hok2
          have hne : (g.edge i).frm ≠ (g.edge i).toN := (wf_edge_facts g hwf i hlt).2.2.1
          have hfm : (g.edge i).frm ∉ matchingEndpoints g acc := by
            intro hmem
            have := hcl _ hmem
            rcases hor with ⟨ha, _⟩ | ⟨ha, _⟩
            · rw [ha] at this; exact h2 (Or.inl this)
            · rw [ha] at this; exact h2 (Or.inr this)
          have htm : (g.edge i).toN ∉ matchingEndpoints g acc := by
            intro hmem
            have := hcl _ hmem
            rcases hor with ⟨_, hb⟩ | ⟨_, hb⟩
            · rw [hb] at this; exact h2 (Or.inr this)
            · rw [hb] at this; exact h2 (Or.inl this)
          have hv2 := validMatching_append_edge g acc i hv hlt hfm htm hne
          have hcl2 : ∀ x ∈ matchingEndpoints g (acc ++ [i]),
              (x : Int) ∈ frm :: toV :: inM := by
            intro x hx
            rw [matchingEndpoints_append] at hx
            rcases List.mem_append.mp hx with hx | hx
            · exact List.mem_cons_of_mem _ (List.mem_cons_of_mem _ (hcl x hx))
            · have hx2 : x = (g.edge i).frm ∨ x = (g.edge i).toN := by
                simp [matchingEndpoints] at hx
                tauto
              rcases hx2 with rfl | rfl
              · rcases hor with ⟨ha, _⟩ | ⟨ha, _⟩
                · rw [ha]; exact List.mem_cons_self _ _
                · rw [ha]; exact List.mem_cons_of_mem _ (List.mem_cons_self _ _)
              · rcases hor with ⟨_, hb⟩ | ⟨_, hb⟩
                · rw [hb]; exact List.mem_cons_of_mem _ (List.mem_cons_self _ _)
                · rw [hb]; exact List.mem_cons_self _ _
          exact ih _ _ hv2 hcl2 out hok2
        rcases hl1 : ebnLookup (edgesByNodes g) (frm, toV) with _ | i
        · rw [hl1] at hok
          rcases hl2 : ebnLookup (edgesByNodes g) (toV, frm) with _ | i
          · rw [hl2] at hok; cases hok
          · rw [hl2] at hok
            obtain ⟨hlt, ha, hb⟩ := ebnLookup_facts g _ _ _ hl2
            exact hstep i (Or.inr ⟨ha, hb⟩) hlt hok
        · rw [hl1] at hok
          obtain ⟨hlt, ha, hb⟩ := ebnLookup_facts g _ _ _ hl1
          exact hstep i (Or.inl ⟨ha, hb⟩) hlt hok

theorem blossomMatcher_valid (g : Graph) (hwf : WellFormed g = true) (fuel : Nat)
    (m : List Nat) (h : blossomMatcher g fuel = .ok m) : ValidMatching g m := by
  rw [blossomMatcher] at h
  rcases hmw : maxWeightMatching
      (g.edges.map (fun e => (((e.frm : Int), (e.toN : Int), e.weight) : Int × Int × Int)))
      fuel with e | mates
  · rw [hmw] at h
    cases h
  · rw [hmw] at h
    refine decompressGo_post g hwf mates [] [] ?_ ?_ m h
    · constructor
      · intro i hi
        cases hi
      · simp [matchingEndpoints]
    · intro x hx
      simp [matchingEndpoints] at hx

theorem bcScan_selfloop (l : List (Int × Int × Int))
    (h : ∃ t ∈ l, t.1 = t.2.1) (nv mw : Int) :
    bcScan l nv mw = .error .assertFailed := by
  induction l generalizing nv mw with
  | nil => simp at h
  | cons t rest ih =>
    obtain ⟨u, hu, hloop⟩ := h
    obtain ⟨i, j, w⟩ := t
    rw [bcScan]
    by_cases hc : (0 ≤ i ∧ 0 ≤ j ∧ i ≠ j)
    · rw [jsAssert, if_pos hc]
      rcases List.mem_cons.mp hu with heq | hmem
      · subst heq
        exact absurd hloop hc.2.2
      · exact ih ⟨u, hmem, hloop⟩ _ _
    · rw [jsAssert, if_neg hc]
      rfl

theorem blossomMatcher_selfloop (g : Graph) (fuel : Nat)
    (h : ∃ e ∈ g.edges, e.frm = e.toN) :
    blossomMatcher g fuel = .error .assertFailed := by
  obtain ⟨e0, he0, hloop⟩ := h
  rw [blossomMatcher]
  have hscan : bcScan ((g.edges.map (fun e =>
      (((e.frm : Int), (e.toN : Int), e.weight) : Int × Int × Int))).reverse) 0 0 =
      .error .assertFailed := by
    refine bcScan_selfloop _ ⟨((e0.frm : Int), (e0.toN : Int), e0.weight), ?_, ?_⟩ 0 0
    · rw [List.mem_reverse, List.mem_map]
      exact ⟨e0, he0, rfl⟩
    · simp only []
      exact_mod_cast hloop
  have hne : (g.edges.map (fun e =>
      (((e.frm : Int), (e.toN : Int), e.weight) : Int × Int × Int))).length ≠ 0 := by
    rw [List.length_map]
    intro hlen
    rw [List.length_eq_zero] at hlen
    rw [hlen] at he0
    cases he0
  rw [maxWeightMatching, if_neg hne]
  rw [buildContext, hscan]
  rfl

/-- C2: for every well-formed input graph, every matcher in the library
(greedy, path-growing standard and patched, naive, tree-growing, blossom)
returns a matching all of whose edges are elements of the input edge
list (by index, hence by object identity), in which no node is an
endpoint of two distinct edges; for the fallible fuel-bounded matchers
this holds whenever they return a result. -/
theorem claimC2_all_matchers_valid (g : Graph) (hwf : WellFormed g = true) :
    ValidMatching g (greedy g) ∧
    ValidMatching g (naive g) ∧
    (∀ fuel m, pathGrowing g fuel = .ok m → ValidMatching g m) ∧
    (∀ fuel m, pathGrowingPatched g fuel = .ok m → ValidMatching g m) ∧
    (∀ fuel m, treeGrowing g fuel = .ok m → ValidMatching g m) ∧
    (∀ fuel m, blossomMatcher g fuel = .ok m → ValidMatching g m) := by
  refine ⟨greedy_valid g hwf, naive_valid g (wf_edges_in_range g hwf), ?_, ?_, ?_, ?_⟩
  · intro fuel m hok
    exact pathGrowing_valid g hwf fuel m hok
  · intro fuel m hok
    exact pathGrowingPatched_valid g hwf fuel m hok
  · intro fuel m hok
    exact treeGrowing_valid g hwf fuel m hok
  · intro fuel m hok
    exact blossomMatcher_valid g hwf fuel m hok

/-- Witness for C2 at a concrete well-formed graph. -/
theorem claimC2_all_matchers_valid_witness :
    WellFormed ⟨2, [⟨0, 1, 3⟩]⟩ = true ∧
      (ValidMatching ⟨2, [⟨0, 1, 3⟩]⟩ (greedy ⟨2, [⟨0, 1, 3⟩]⟩) ∧
       ValidMatching ⟨2, [⟨0, 1, 3⟩]⟩ (naive ⟨2, [⟨0, 1, 3⟩]⟩) ∧
       (∀ fuel m, pathGrowing ⟨2, [⟨0, 1, 3⟩]⟩ fuel = .ok m →
          ValidMatching ⟨2, [⟨0, 1, 3⟩]⟩ m) ∧
       (∀ fuel m, pathGrowingPatched ⟨2, [⟨0, 1, 3⟩]⟩ fuel = .ok m →
          ValidMatching ⟨2, [⟨0, 1, 3⟩]⟩ m) ∧
       (∀ fuel m, treeGrowing ⟨2, [⟨0, 1, 3⟩]⟩ fuel = .ok m →
          ValidMatching ⟨2, [⟨0, 1, 3⟩]⟩ m) ∧
       (∀ fuel m, blossomMatcher ⟨2, [⟨0, 1, 3⟩]⟩ fuel = .ok m →
          ValidMatching ⟨2, [⟨0, 1, 3⟩]⟩ m)) :=
  ⟨by decide, claimC2_all_matchers_valid ⟨2, [⟨0, 1, 3⟩]⟩ (by decide)⟩

/-- C8 is refuted as stated: the claim says an input containing a
self-loop (or duplicate edge, or negative weight) is rejected at entry
for every matcher and both runner entry points, but the synchronous
runner performs no input validation at all: with the greedy matcher on a
graph whose only edge is a self-loop, `run` completes without any error
and returns the self-loop as the matching. -/
theorem claimC8_counterexample :
    ∃ g : Graph, (∃ e ∈ g.edges, e.frm = e.toN) ∧
      run g 1 ((greedy g).map (Graph.edge g)) = .ok ⟨[⟨0, 0, 5⟩], 2, 5⟩ := by
  refine ⟨⟨1, [⟨0, 0, 5⟩]⟩, by decide, ?_⟩
  rfl

/-- C8 (amended): only the blossom matcher validates its input, and only
against self-loops: for every input graph containing a self-loop edge it
fails loudly for every fuel, via `assert(i >= 0 && j >= 0 && i !== j)`
in `buildContext`; no other matcher and neither runner entry point
rejects self-loops, duplicate edges or negative weights. -/
theorem claimC8_amended_blossom_rejects_selfloop (g : Graph) (fuel : Nat)
    (h : ∃ e ∈ g.edges, e.frm = e.toN) :
    blossomMatcher g fuel = .error .assertFailed :=
  blossomMatcher_selfloop g fuel h

/-- Witness for the amended C8 theorem at a concrete self-loop graph. -/
theorem claimC8_amended_blossom_rejects_selfloop_witness :
    (∃ e ∈ (⟨1, [⟨0, 0, 5⟩]⟩ : Graph).edges, e.frm = e.toN) ∧
      blossomMatcher ⟨1, [⟨0, 0, 5⟩]⟩ 1 = .error .assertFailed :=
  ⟨by decide, claimC8_amended_blossom_rejects_selfloop ⟨1, [⟨0, 0, 5⟩]⟩ 1 (by decide)⟩

end MatchingLib
